import Mathlib

/-!
A block page cache over unbuffered file handles

Shallow embedding of `src/app/cache.cpp` (class `BlockCache` and the `lab2_*`
entry points) and of the element access and the sort of `src/app/app.cpp`.

* Bytes are natural numbers; a memory buffer is a function from byte index to
  byte.  Every buffer of the program (`CacheBlock::data`, `alignedBuffer`) is an
  allocation of `PAGE_SIZE` bytes, so only the indices below `PAGE_SIZE` are
  meaningful, and a `memcpy` that would leave that range is undefined behaviour.
* Undefined behaviour (out-of-bounds `memcpy`, dereferencing a list iterator
  that points to no live node) is the result `none`.
* `std::list<CacheBlock>` is a list of nodes; a node carries its identity (its
  address), which is what a `std::list` iterator stored in `cacheMap` denotes.
* `std::unordered_map` is an association list; its iteration order, which C++
  leaves unspecified, is the order of that list.
* The Win32 calls (`SetFilePointerEx`, `ReadFile`, `WriteFile`, `CloseHandle`,
  `FlushFileBuffers`, `CreateFileA`) are the environment.  They act on a `World`:
  a table of open handles (path and file pointer), the contents of the files, and
  oracles saying which calls fail.
* `size_t` offsets are natural numbers; no arithmetic of the cache can overflow
  for offsets below `2^63`, the range of a file pointer.
* `_aligned_malloc` is taken to succeed, and a handle to survive its round trip
  through `int` (`reinterpret_cast<int>(hFile)`), so that a descriptor is the
  handle itself.
* The `lab2_*` functions reach the cache through `BlockCache::getInstance()`;
  here the instance is passed to them, with whatever capacity it was constructed.
-/

namespace PageCache

/-! ## Memory -/

/-- One byte. -/
abbrev Byte := Nat

/-- A memory buffer: byte index to byte. -/
abbrev Buffer := Nat → Byte

/-- `const size_t PAGE_SIZE = 4096;` -/
def PAGE_SIZE : Nat := 4096

/-- `const size_t NUM_OF_BLOCKS = 100;` -/
def NUM_OF_BLOCKS : Nat := 100

/-- The bytes `memcpy(buf, src + k, count)` delivers to the caller. -/
def copyOut (src : Buffer) (k count : Nat) : List Byte :=
  (List.range count).map (fun i => src (k + i))

/-- The buffer `dst` after `memcpy(dst + k, src, count)`. -/
def copyIn (dst : Buffer) (k : Nat) (src : List Byte) (count : Nat) : Buffer :=
  fun i => if k ≤ i ∧ i < k + count then src.getD (i - k) 0 else dst i

/-! ## The environment: files and handles -/

/-- Contents of a file on the storage device. -/
structure FileData where
  /-- length of the file in bytes -/
  size : Nat
  /-- the byte at each position below `size` -/
  bytes : Nat → Byte

/-- An open handle: the file it was opened on and its file pointer. -/
structure Handle where
  path : String
  pos : Nat

/-- State of the operating system as far as the cache can observe it. -/
structure World where
  /-- open handles; `none` is an invalid handle -/
  handles : Int → Option Handle
  /-- file contents by path (a file that was never written has size 0) -/
  disk : String → FileData
  /-- `seekFails h p`: positioning handle `h` at `p` fails -/
  seekFails : Int → Nat → Bool
  /-- `readFails h p`: `ReadFile` on `h` with the file pointer at `p` fails -/
  readFails : Int → Nat → Bool
  /-- `writeFails h p`: `WriteFile` on `h` with the file pointer at `p` fails -/
  writeFails : Int → Nat → Bool
  /-- `flushFails h`: `FlushFileBuffers` on `h` fails -/
  flushFails : Int → Bool
  /-- `closeFails h`: `CloseHandle` on `h` fails -/
  closeFails : Int → Bool

def FILE_BEGIN : Nat := 0

def FILE_CURRENT : Nat := 1

def FILE_END : Nat := 2

/-- The value of `INVALID_HANDLE_VALUE` seen as an `int`. -/
def INVALID_HANDLE_VALUE : Int := -1

/-- The world with the file pointer of handle `h` moved to `p`. -/
def World.setPos (w : World) (h : Int) (hd : Handle) (p : Nat) : World :=
  { w with handles := Function.update w.handles h (some { hd with pos := p }) }

/-- Win32 `SetFilePointerEx(h, dist, &newPos, method)`: the new position on
success, `none` on failure (the file pointer is then unchanged). -/
def SetFilePointerEx (w : World) (h : Int) (dist : Int) (method : Nat) : Option Nat × World :=
  match w.handles h with
  | none => (none, w)
  | some hd =>
    let base : Int :=
      if method = FILE_BEGIN then 0
      else if method = FILE_CURRENT then (hd.pos : Int)
      else ((w.disk hd.path).size : Int)
    let target : Int := base + dist
    if FILE_END < method ∨ target < 0 ∨ w.seekFails h target.toNat = true then (none, w)
    else (some target.toNat, w.setPos h hd target.toNat)

/-- Win32 `ReadFile(h, buf, n, &bytesRead, NULL)`: `none` when the call returns
`FALSE`; otherwise the number of bytes transferred (fewer than `n` at end of
file, where the rest of `buf` keeps its old contents), the buffer and the world
with the file pointer advanced. -/
def ReadFile (w : World) (h : Int) (buf : Buffer) (n : Nat) : Option (Nat × Buffer × World) :=
  match w.handles h with
  | none => none
  | some hd =>
    if w.readFails h hd.pos = true then none
    else
      let f := w.disk hd.path
      let got := min n (f.size - hd.pos)
      some (got, (fun i => if i < got then f.bytes (hd.pos + i) else buf i),
        w.setPos h hd (hd.pos + got))

/-- Win32 `WriteFile(h, buf, n, &bytesWritten, NULL)`: `none` when the call
returns `FALSE`; otherwise `n` bytes of `buf` are stored at the file pointer,
the file grows as needed (a gap is zero filled) and the pointer advances. -/
def WriteFile (w : World) (h : Int) (buf : Buffer) (n : Nat) : Option (Nat × World) :=
  match w.handles h with
  | none => none
  | some hd =>
    if w.writeFails h hd.pos = true then none
    else
      let f := w.disk hd.path
      let f1 : FileData :=
        { size := max f.size (hd.pos + n)
          bytes := fun i =>
            if hd.pos ≤ i ∧ i < hd.pos + n then buf (i - hd.pos)
            else if i < f.size then f.bytes i else 0 }
      some (n, { (w.setPos h hd (hd.pos + n)) with
                  disk := Function.update w.disk hd.path f1 })

/-- Win32 `CloseHandle(h)`: on success the handle becomes invalid. -/
def CloseHandle (w : World) (h : Int) : Bool × World :=
  match w.handles h with
  | none => (false, w)
  | some _ =>
    if w.closeFails h = true then (false, w)
    else (true, { w with handles := Function.update w.handles h none })

/-- Win32 `FlushFileBuffers(h)`. -/
def FlushFileBuffers (w : World) (h : Int) : Bool :=
  match w.handles h with
  | none => false
  | some _ => !(w.flushFails h)

/-- The file a descriptor is open on, if it is a valid handle. -/
def World.file (w : World) (fd : Int) : Option FileData :=
  (w.handles fd).map (fun hd => w.disk hd.path)

/-! ## Association lists (`std::unordered_map`) -/

/-- `m.find(k)`. -/
def assocFind {κ ν : Type} [DecidableEq κ] (k : κ) : List (κ × ν) → Option ν
  | [] => none
  | (k1, v) :: t => if k1 = k then some v else assocFind k t

/-- `m.erase(k)`. -/
def assocErase {κ ν : Type} [DecidableEq κ] (k : κ) (l : List (κ × ν)) : List (κ × ν) :=
  l.filter (fun e => decide (e.1 ≠ k))

/-- `m[k] = v`. -/
def assocSet {κ ν : Type} [DecidableEq κ] (k : κ) (v : ν) : List (κ × ν) → List (κ × ν)
  | [] => [(k, v)]
  | (k1, v1) :: t => if k1 = k then (k, v) :: t else (k1, v1) :: assocSet k v t

/-! ## The cache -/

/-- `struct CacheBlock`. -/
structure CacheBlock where
  data : Buffer
  fd : Int
  offset : Nat
  dirty : Bool

/-- A node of `std::list<CacheBlock>`: its identity and the block it holds. -/
abbrev Node := Nat × CacheBlock

/-- The inner maps of `cacheMap`: aligned offset to list iterator. -/
abbrev OffsetMap := List (Nat × Nat)

/-- `class BlockCache` (its data members). -/
structure BlockCache where
  cacheSize : Nat
  cache : List Node
  cacheMap : List (Int × OffsetMap)
  alignedBuffer : Buffer

/-- The constructor `BlockCache(cacheSize)`: no blocks, and a scratch buffer
whose contents are whatever the allocation holds. -/
def BlockCache.init (cacheSize : Nat) (scratch : Buffer) : BlockCache :=
  { cacheSize := cacheSize, cache := [], cacheMap := [], alignedBuffer := scratch }

/-- `BlockCache::getInstance(cacheSize)`: the process-wide instance (`none`
while it is not constructed).  The first call constructs it with the capacity it
is given (`NUM_OF_BLOCKS` when the caller gives none, as the `lab2_*` functions
do); later calls return the same instance whatever their argument. -/
def BlockCache.getInstance (inst : Option BlockCache) (cacheSize : Nat) (scratch : Buffer) :
    BlockCache :=
  match inst with
  | some c => c
  | none => BlockCache.init cacheSize scratch

/-- `cacheMap.find(fd)` followed by `fdIt->second.find(alignedOffset)`. -/
def findIter (m : List (Int × OffsetMap)) (fd : Int) (alignedOffset : Nat) : Option Nat :=
  match assocFind fd m with
  | none => none
  | some inner => assocFind alignedOffset inner

/-- `cacheMap[fd][alignedOffset] = it`. -/
def setIter (m : List (Int × OffsetMap)) (fd : Int) (alignedOffset it : Nat) :
    List (Int × OffsetMap) :=
  assocSet fd (assocSet alignedOffset it ((assocFind fd m).getD [])) m

/-- `cacheMap[fd].erase(offset)`. -/
def eraseIter (m : List (Int × OffsetMap)) (fd : Int) (offset : Nat) : List (Int × OffsetMap) :=
  assocSet fd (assocErase offset ((assocFind fd m).getD [])) m

/-- Dereferencing a list iterator: the block of the node it denotes. -/
def deref (l : List Node) (it : Nat) : Option CacheBlock :=
  assocFind it l

/-- `cache.erase(it)`. -/
def eraseNode (l : List Node) (it : Nat) : List Node :=
  l.filter (fun n => decide (n.1 ≠ it))

/-- The identity of a node allocated by `push_front`: an address that no live
node of the list has. -/
def freshNode (l : List Node) : Nat :=
  (l.map Prod.fst).foldr max 0 + 1

/-- The scan of `std::min_element` after the first element: `best` is replaced
only by an element that compares strictly smaller. -/
def minElementFrom (best : Node) : List Node → Node
  | [] => best
  | x :: t => minElementFrom (if x.2.offset < best.2.offset then x else best) t

/-- `std::min_element(cache.begin(), cache.end(), a.offset < b.offset)`;
`none` is `cache.end()`. -/
def minElement : List Node → Option Node
  | [] => none
  | x :: t => some (minElementFrom x t)

/-- `BlockCache::writeBlockToDisk`: the results of both calls are ignored
(a failed `WriteFile` is only logged). -/
def writeBlockToDisk (w : World) (block : CacheBlock) : World :=
  let w1 := (SetFilePointerEx w block.fd (block.offset : Int) FILE_BEGIN).2
  match WriteFile w1 block.fd block.data PAGE_SIZE with
  | none => w1
  | some (_, w2) => w2

/-- `BlockCache::evict`. -/
def BlockCache.evict (c : BlockCache) (w : World) : BlockCache × World :=
  match minElement c.cache with
  | none => (c, w)
  | some (it, blk) =>
    let w1 := if blk.dirty = true then writeBlockToDisk w blk else w
    ({ c with cacheMap := eraseIter c.cacheMap blk.fd blk.offset
              cache := eraseNode c.cache it }, w1)

/-- The tail shared by the miss paths of `read` and `write`: evict when full,
then `push_front` a block holding a copy of the scratch buffer and index it. -/
def BlockCache.insertBlock (c : BlockCache) (w : World) (fd : Int) (alignedOffset : Nat)
    (dirty : Bool) : BlockCache × World :=
  let cw := if c.cacheSize ≤ c.cache.length then c.evict w else (c, w)
  let c1 := cw.1
  let it := freshNode c1.cache
  let newBlock : CacheBlock :=
    { data := c1.alignedBuffer, fd := fd, offset := alignedOffset, dirty := dirty }
  ({ c1 with cache := (it, newBlock) :: c1.cache
             cacheMap := setIter c1.cacheMap fd alignedOffset it }, cw.2)

/-- The miss path of `BlockCache::read` (from "Cache miss" on): position the
handle, read a whole block into the scratch buffer, copy the requested bytes out,
insert a clean block. -/
def BlockCache.readMiss (c : BlockCache) (w : World) (fd : Int) (count offset : Nat) :
    Option (Bool × List Byte × BlockCache × World) :=
  let alignedOffset := (offset / PAGE_SIZE) * PAGE_SIZE
  let w1 := (SetFilePointerEx w fd (alignedOffset : Int) FILE_BEGIN).2
  match ReadFile w1 fd c.alignedBuffer PAGE_SIZE with
  | none => some (false, [], c, w1)
  | some (_, scratch, w2) =>
    if (offset - alignedOffset) + count ≤ PAGE_SIZE then
      let out := copyOut scratch (offset - alignedOffset) count
      let cw := ({ c with alignedBuffer := scratch } : BlockCache).insertBlock w2 fd
        alignedOffset false
      some (true, out, cw.1, cw.2)
    else none

/-- `BlockCache::read`: the result flag, the bytes copied into `buf`, and the
new state. -/
def BlockCache.read (c : BlockCache) (w : World) (fd : Int) (count offset : Nat) :
    Option (Bool × List Byte × BlockCache × World) :=
  let alignedOffset := (offset / PAGE_SIZE) * PAGE_SIZE
  match findIter c.cacheMap fd alignedOffset with
  | some it =>
    match deref c.cache it with
    | none => none
    | some blk =>
      if (offset - alignedOffset) + count ≤ PAGE_SIZE then
        some (true, copyOut blk.data (offset - alignedOffset) count, c, w)
      else none
  | none => c.readMiss w fd count offset

/-- The miss path of `BlockCache::write`: position the handle, read a whole block
into the scratch buffer, overwrite the requested bytes there, insert a dirty
block. -/
def BlockCache.writeMiss (c : BlockCache) (w : World) (fd : Int) (buf : List Byte)
    (count offset : Nat) : Option (Bool × BlockCache × World) :=
  let alignedOffset := (offset / PAGE_SIZE) * PAGE_SIZE
  let w1 := (SetFilePointerEx w fd (alignedOffset : Int) FILE_BEGIN).2
  match ReadFile w1 fd c.alignedBuffer PAGE_SIZE with
  | none => some (false, c, w1)
  | some (_, scratch, w2) =>
    if (offset - alignedOffset) + count ≤ PAGE_SIZE ∧ count ≤ buf.length then
      let scratch1 := copyIn scratch (offset - alignedOffset) buf count
      let cw := ({ c with alignedBuffer := scratch1 } : BlockCache).insertBlock w2 fd
        alignedOffset true
      some (true, cw.1, cw.2)
    else none

/-- The block of a node after the hit path of `BlockCache::write` stored `count`
bytes of `buf` at `k` and set the dirty flag. -/
def CacheBlock.store (blk : CacheBlock) (k : Nat) (buf : List Byte) (count : Nat) : CacheBlock :=
  { blk with data := copyIn blk.data k buf count, dirty := true }

/-- `BlockCache::write`: the result flag and the new state. -/
def BlockCache.write (c : BlockCache) (w : World) (fd : Int) (buf : List Byte)
    (count offset : Nat) : Option (Bool × BlockCache × World) :=
  let alignedOffset := (offset / PAGE_SIZE) * PAGE_SIZE
  match findIter c.cacheMap fd alignedOffset with
  | some it =>
    match deref c.cache it with
    | none => none
    | some _ =>
      if (offset - alignedOffset) + count ≤ PAGE_SIZE ∧ count ≤ buf.length then
        some (true,
          { c with cache := c.cache.map (fun n =>
              if n.1 = it then (n.1, n.2.store (offset - alignedOffset) buf count) else n) }, w)
      else none
  | none => c.writeMiss w fd buf count offset

/-- The loop of `BlockCache::sync` over the entries of one inner map: write a
dirty block back, then erase its node from the list. -/
def syncLoop : OffsetMap → List Node → World → Option (List Node × World)
  | [], l, w => some (l, w)
  | (_, it) :: rest, l, w =>
    match deref l it with
    | none => none
    | some blk =>
      syncLoop rest (eraseNode l it) (if blk.dirty = true then writeBlockToDisk w blk else w)

/-- `BlockCache::sync`. -/
def BlockCache.sync (c : BlockCache) (w : World) (fd : Int) : Option (BlockCache × World) :=
  match assocFind fd c.cacheMap with
  | none => some (c, w)
  | some inner =>
    match syncLoop inner c.cache w with
    | none => none
    | some (l, w1) => some ({ c with cache := l, cacheMap := assocErase fd c.cacheMap }, w1)

/-- `BlockCache::close`. -/
def BlockCache.close (c : BlockCache) (w : World) (fd : Int) : Option (BlockCache × World) :=
  c.sync w fd

/-! ## The `lab2_*` entry points

They act on the process-wide instance returned by `BlockCache::getInstance()`,
which is passed explicitly. -/

/-- `lab2_open`: `hFile` is what `CreateFileA` returned. -/
def lab2_open (w : World) (path : String) (hFile : Int) : Int × World :=
  if hFile = INVALID_HANDLE_VALUE then (-1, w)
  else (hFile, { w with handles := Function.update w.handles hFile (some { path := path, pos := 0 }) })

/-- `lab2_read`: the returned count (or -1), the bytes copied into `buf`, and
the new state. -/
def lab2_read (c : BlockCache) (w : World) (fd : Int) (count : Nat) :
    Option (Int × List Byte × BlockCache × World) :=
  match SetFilePointerEx w fd 0 FILE_CURRENT with
  | (none, w0) => some (-1, [], c, w0)
  | (some offset, w0) =>
    match c.read w0 fd count offset with
    | none => none
    | some (true, out, c1, w1) =>
      match SetFilePointerEx w1 fd ((offset + count : Nat) : Int) FILE_BEGIN with
      | (none, w2) => some (-1, out, c1, w2)
      | (some _, w2) => some ((count : Int), out, c1, w2)
    | some (false, out, c1, w1) => some (-1, out, c1, w1)

/-- `lab2_write`. -/
def lab2_write (c : BlockCache) (w : World) (fd : Int) (buf : List Byte) (count offset : Nat) :
    Option (Int × BlockCache × World) :=
  match c.write w fd buf count offset with
  | none => none
  | some (true, c1, w1) => some ((count : Int), c1, w1)
  | some (false, c1, w1) => some (-1, c1, w1)

/-- `lab2_close`. -/
def lab2_close (c : BlockCache) (w : World) (fd : Int) : Option (Int × BlockCache × World) :=
  if fd ≠ INVALID_HANDLE_VALUE then
    match c.close w fd with
    | none => none
    | some (c1, w1) =>
      match CloseHandle w1 fd with
      | (true, w2) => some (0, c1, w2)
      | (false, w2) => some (-1, c1, w2)
  else some (-1, c, w)

/-- `lab2_lseek`. -/
def lab2_lseek (w : World) (fd : Int) (offset : Int) (whence : Nat) : Int × World :=
  match SetFilePointerEx w fd offset whence with
  | (none, w1) => (-1, w1)
  | (some _, w1) =>
    match SetFilePointerEx w1 fd 0 FILE_CURRENT with
    | (none, w2) => (-1, w2)
    | (some newPos, w2) => ((newPos : Int), w2)

/-- `lab2_fsync`. -/
def lab2_fsync (c : BlockCache) (w : World) (fd : Int) : Option (Int × BlockCache × World) :=
  match c.sync w fd with
  | none => none
  | some (c1, w1) => if FlushFileBuffers w1 fd = true then some (0, c1, w1) else some (-1, c1, w1)

/-! ## The client (`src/app/app.cpp`) -/

/-- `const size_t SECTOR_SIZE = 4096;` -/
def SECTOR_SIZE : Nat := 4096

/-- `const size_t ELEMENT_SIZE = sizeof(int);` -/
def ELEMENT_SIZE : Nat := 4

/-- `SEEK_SET`, which the client passes as `whence`. -/
def SEEK_SET : Nat := 0

/-- The loop of `create_file`: `lab2_write(fd, &value, ELEMENT_SIZE, i * sizeof(value))`
for the successive values, element `i` being the first of the list; the loop
stops with `false` at the first call that does not return `ELEMENT_SIZE`.  A
value is given by its `ELEMENT_SIZE` bytes. -/
def writeValues (fd : Int) :
    List (List Byte) → Nat → BlockCache → World → Option (Bool × BlockCache × World)
  | [], _, c, w => some (true, c, w)
  | v :: vs, i, c, w =>
    match lab2_write c w fd v ELEMENT_SIZE (i * ELEMENT_SIZE) with
    | none => none
    | some (r, c1, w1) =>
      if r = (ELEMENT_SIZE : Int) then writeValues fd vs (i + 1) c1 w1
      else some (false, c1, w1)

/-- `get_element`: seek to the sector of element `index`, read the sector
through the cache, and take the element out of it; the result flag and the
`ELEMENT_SIZE` bytes of `value`. -/
def get_element (c : BlockCache) (w : World) (fd : Int) (index : Nat) :
    Option (Bool × List Byte × BlockCache × World) :=
  let offset := (index * ELEMENT_SIZE) / SECTOR_SIZE * SECTOR_SIZE
  let alignedSize := SECTOR_SIZE
  match lab2_lseek w fd (offset : Int) SEEK_SET with
  | (r, w1) =>
    if r = -1 then some (false, [], c, w1)
    else
      match lab2_read c w1 fd alignedSize with
      | none => none
      | some (r2, out, c1, w2) =>
        if r2 ≠ (alignedSize : Int) then some (false, [], c1, w2)
        else
          let offsetInBuffer := (index * ELEMENT_SIZE) % SECTOR_SIZE
          some (true, (out.drop offsetInBuffer).take ELEMENT_SIZE, c1, w2)

/-- Successive calls of `get_element` for a list of indices (as in
`print_first_n` and `verify_sorted`), stopping with `false` at the first call
that fails; the values read. -/
def getElements (fd : Int) :
    List Nat → BlockCache → World → Option (Bool × List (List Byte) × BlockCache × World)
  | [], c, w => some (true, [], c, w)
  | i :: is, c, w =>
    match get_element c w fd i with
    | none => none
    | some (r, v, c1, w1) =>
      if r = true then
        match getElements fd is c1 w1 with
        | none => none
        | some (r2, vs, c2, w2) => some (r2, v :: vs, c2, w2)
      else some (false, [], c1, w1)

/-! ## Runs of the cache -/

/-- What can happen to the cache and the world: a call of one of the four public
member functions of `BlockCache`, or a step of the environment (the rest of the
program and the operating system), which leaves the world in any state and does
not touch the cache. -/
inductive Event
  | read (fd : Int) (count offset : Nat)
  | write (fd : Int) (buf : List Byte) (count offset : Nat)
  | sync (fd : Int)
  | close (fd : Int)
  | environment (w : World)

/-- The state after an event (`none`: the call has undefined behaviour). -/
def Event.run : Event → BlockCache → World → Option (BlockCache × World)
  | .read fd count offset, c, w =>
    (c.read w fd count offset).map (fun r => (r.2.2.1, r.2.2.2))
  | .write fd buf count offset, c, w =>
    (c.write w fd buf count offset).map (fun r => (r.2.1, r.2.2))
  | .sync fd, c, w => c.sync w fd
  | .close fd, c, w => c.close w fd
  | .environment w1, c, _ => some (c, w1)

/-- The state after a sequence of events. -/
def runEvents : List Event → BlockCache → World → Option (BlockCache × World)
  | [], c, w => some (c, w)
  | e :: es, c, w =>
    match e.run c w with
    | none => none
    | some (c1, w1) => runEvents es c1 w1

/-- The states a cache of capacity `cacheSize` can be in: those a sequence of
events leads to from the freshly constructed, empty cache. -/
def Reachable (cacheSize : Nat) (c : BlockCache) (w : World) : Prop :=
  ∃ (scratch : Buffer) (w0 : World) (es : List Event),
    runEvents es (BlockCache.init cacheSize scratch) w0 = some (c, w)

/-- Structural consistency of the block list and the index. -/
structure BlockCache.WF (c : BlockCache) : Prop where
  /-- the nodes of the list are distinct objects -/
  nodupNodes : (c.cache.map Prod.fst).Nodup
  /-- keys of the outer map are distinct -/
  nodupFds : (c.cacheMap.map Prod.fst).Nodup
  /-- keys of every inner map are distinct -/
  nodupOffsets : ∀ e ∈ c.cacheMap, (e.2.map Prod.fst).Nodup
  /-- an index entry points to a live node tagged with the entry's key -/
  indexed : ∀ fd inner off it, (fd, inner) ∈ c.cacheMap → (off, it) ∈ inner →
    ∃ b, (it, b) ∈ c.cache ∧ b.fd = fd ∧ b.offset = off
  /-- every node is indexed under its own tag -/
  listed : ∀ it b, (it, b) ∈ c.cache →
    ∃ inner, (b.fd, inner) ∈ c.cacheMap ∧ (b.offset, it) ∈ inner
  /-- block offsets are multiples of the block size -/
  aligned : ∀ n ∈ c.cache, n.2.offset % PAGE_SIZE = 0

/-! ## The properties of the specification -/

/-- No two resident blocks carry the same (descriptor, offset) tag. -/
def KeysUnique (c : BlockCache) : Prop :=
  (c.cache.map (fun n => (n.2.fd, n.2.offset))).Nodup

/-- The index and the block list describe the same blocks: what the index finds
under a key is a live node of the list tagged with that key, and every node of
the list is what the index finds under the node's own tag. -/
def IndexConsistent (c : BlockCache) : Prop :=
  (∀ fd off it, findIter c.cacheMap fd off = some it →
    ∃ b, deref c.cache it = some b ∧ (it, b) ∈ c.cache ∧ b.fd = fd ∧ b.offset = off) ∧
  (∀ n ∈ c.cache, findIter c.cacheMap n.2.fd n.2.offset = some n.1)

/-- Block list `new` is `old` with exactly one node removed, the victim, and one
node pushed at the front; no block of `new` has the victim's tag, and the
victim's offset is smallest among the offsets of `old`. -/
def EvictsMin (old new : List Node) : Prop :=
  ∃ (l1 : List Node) (victim : Node) (l2 : List Node) (inserted : Node),
    old = l1 ++ victim :: l2 ∧ new = inserted :: (l1 ++ l2) ∧
    (∀ m ∈ new, ¬ (m.2.fd = victim.2.fd ∧ m.2.offset = victim.2.offset)) ∧
    ∀ n ∈ old, victim.2.offset ≤ n.2.offset

/-- The file behind descriptor `fd` holds the `PAGE_SIZE` bytes `data` at
`offset`. -/
def World.holdsBlock (w : World) (fd : Int) (offset : Nat) (data : Buffer) : Prop :=
  ∃ f, w.file fd = some f ∧ offset + PAGE_SIZE ≤ f.size ∧
    ∀ i, i < PAGE_SIZE → f.bytes (offset + i) = data i

/-- Every clean resident block equals the storage under it. -/
def CleanBlocksMatchStorage (c : BlockCache) (w : World) : Prop :=
  ∀ n ∈ c.cache, n.2.dirty = false → w.holdsBlock n.2.fd n.2.offset n.2.data

/-- Byte `i` of the block of `fd` at offset `aligned`, as a caller sees it
through the cache: the byte of the resident block, or else the byte of the file
(`none` where the file has no byte). -/
def logicalByte (c : BlockCache) (w : World) (fd : Int) (aligned i : Nat) : Option Byte :=
  match findIter c.cacheMap fd aligned with
  | some it => (deref c.cache it).map (fun b => b.data i)
  | none =>
    match w.file fd with
    | some f => if aligned + i < f.size then some (f.bytes (aligned + i)) else none
    | none => none

/-- After a write of `count` bytes `buf` at `offset` that led from cache `c` and
world `w` to cache `c1`, the covering block is resident and its buffer is the
previous contents of the block with exactly the written range replaced. -/
def WritePreservesRest (c : BlockCache) (w : World) (fd : Int) (buf : List Byte)
    (count offset : Nat) (c1 : BlockCache) : Prop :=
  ∃ it blk, findIter c1.cacheMap fd (offset / PAGE_SIZE * PAGE_SIZE) = some it ∧
    deref c1.cache it = some blk ∧
    ∀ i, i < PAGE_SIZE →
      if offset % PAGE_SIZE ≤ i ∧ i < offset % PAGE_SIZE + count then
        blk.data i = buf.getD (i - offset % PAGE_SIZE) 0
      else logicalByte c w fd (offset / PAGE_SIZE * PAGE_SIZE) i = some (blk.data i)

/-- No Win32 call fails. -/
def World.NoFaults (w : World) : Prop :=
  (∀ h p, w.seekFails h p = false) ∧ (∀ h p, w.readFails h p = false) ∧
  (∀ h p, w.writeFails h p = false) ∧ (∀ h, w.flushFails h = false) ∧
  (∀ h, w.closeFails h = false)

/-- World `w1` differs from `w` at most in file pointers and file contents: the
same calls fail and every handle is open on the same file. -/
def World.Evolves (w w1 : World) : Prop :=
  w1.seekFails = w.seekFails ∧ w1.readFails = w.readFails ∧ w1.writeFails = w.writeFails ∧
  w1.flushFails = w.flushFails ∧ w1.closeFails = w.closeFails ∧
  ∀ h, (w1.handles h).map Handle.path = (w.handles h).map Handle.path

/-- The file `f` holds the `PAGE_SIZE` bytes `data` at `offset`. -/
def FileData.hasBlock (f : FileData) (offset : Nat) (data : Buffer) : Prop :=
  offset + PAGE_SIZE ≤ f.size ∧ ∀ i, i < PAGE_SIZE → f.bytes (offset + i) = data i

/-- Byte `x` of descriptor `fd` is known to be `v`: the block covering `x` is
resident and has `v` there, or it is not resident and the file has `v` there. -/
def Known (c : BlockCache) (w : World) (fd : Int) (x : Nat) (v : Byte) : Prop :=
  (∃ n ∈ c.cache, n.2.offset = x / PAGE_SIZE * PAGE_SIZE ∧ n.2.data (x % PAGE_SIZE) = v) ∨
  ((∀ n ∈ c.cache, n.2.offset ≠ x / PAGE_SIZE * PAGE_SIZE) ∧
    ∃ data, w.holdsBlock fd (x / PAGE_SIZE * PAGE_SIZE) data ∧ data (x % PAGE_SIZE) = v)

/-- The states of the write phase of the round trip: a consistent cache that
holds only dirty blocks of `fd`, whose handle is open on `path`, in a world where
no call fails. -/
structure WritePhase (fd : Int) (path : String) (c : BlockCache) (w : World) : Prop where
  wf : c.WF
  capacity : 1 ≤ c.cacheSize
  blocks : ∀ n ∈ c.cache, n.2.fd = fd ∧ n.2.dirty = true
  handle : ∃ hd, w.handles fd = some hd ∧ hd.path = path
  noFaults : w.NoFaults

/-- The states of the read phase of the round trip: a consistent cache that
holds only clean blocks of `fd`, each equal to the block of the file `f` at its
offset; the handle of `fd` is open on `path`, whose contents are `f`, and no
call fails. -/
structure ReadPhase (fd : Int) (path : String) (f : FileData) (c : BlockCache) (w : World) :
    Prop where
  wf : c.WF
  blocks : ∀ n ∈ c.cache, n.2.fd = fd ∧ n.2.dirty = false ∧ f.hasBlock n.2.offset n.2.data
  handle : ∃ hd, w.handles fd = some hd ∧ hd.path = path
  disk : w.disk path = f
  noFaults : w.NoFaults

/-! ## A concrete machine for examples

Two files: `a.bin`, one block of sevens, open as descriptor 3, and the empty
file `b.bin`, open as descriptor 4.  No call fails. -/

def exWorld : World :=
  { handles := fun h =>
      if h = 3 then some { path := "a.bin", pos := 0 }
      else if h = 4 then some { path := "b.bin", pos := 0 }
      else none
    disk := fun p =>
      if p = "a.bin" then { size := 4096, bytes := fun _ => 7 }
      else { size := 0, bytes := fun _ => 0 }
    seekFails := fun _ _ => false
    readFails := fun _ _ => false
    writeFails := fun _ _ => false
    flushFails := fun _ => false
    closeFails := fun _ => false }

/-- The state a sequence of events leads to from a fresh cache of the given
capacity, whose scratch buffer holds zeros, and `exWorld` (the initial state
itself if the run is undefined). -/
def exRun (cacheSize : Nat) (es : List Event) : BlockCache × World :=
  (runEvents es (BlockCache.init cacheSize (fun _ => 0)) exWorld).getD
    (BlockCache.init cacheSize (fun _ => 0), exWorld)

/-- The block at offset 0 of descriptor 3, as it is in the cache of capacity 2
after one byte was written at offset 0 and one at offset 4096. -/
def exVictim : Node :=
  (exRun 2 [.write 3 [1] 1 0, .write 3 [2] 1 4096]).1.cache.getD 1
    (0, { data := fun _ => 0, fd := 0, offset := 0, dirty := false })

/-- The block of descriptor 4 (the empty file) that a read of descriptor 4
inserts after a read of descriptor 3. -/
def exStale : Node :=
  (exRun 2 [.read 3 1 0, .read 4 1 0]).1.cache.getD 0
    (0, { data := fun _ => 0, fd := 0, offset := 0, dirty := false })

/-! ## Cursors, storage frames and faulty machines -/

/-- The cursor of a descriptor: the file pointer of its handle (`lab2_read` and
`lab2_lseek` keep no cursor of their own, they query `SetFilePointerEx`). -/
def World.cursor (w : World) (fd : Int) : Option Nat :=
  (w.handles fd).map Handle.pos

/-- Every descriptor has the same cursor in `w1` as in `w`. -/
def CursorsKept (w w1 : World) : Prop :=
  ∀ fd, w1.cursor fd = w.cursor fd

/-- Byte `x` of the file `path` is in `w1` what it was in `w`. -/
def World.keepsByte (w w1 : World) (path : String) (x : Nat) : Prop :=
  x < (w1.disk path).size ∧ (w1.disk path).bytes x = (w.disk path).bytes x

/-- Position `x` of the file `path` lies in the storage of block `b`: the
handle of the block's descriptor is open on `path` and `x` is one of the
`PAGE_SIZE` positions from the block's offset on. -/
def World.storageOf (w : World) (b : CacheBlock) (path : String) (x : Nat) : Prop :=
  ∃ hd, w.handles b.fd = some hd ∧ hd.path = path ∧ b.offset ≤ x ∧ x < b.offset + PAGE_SIZE

/-- Node `v` of the cache `c` is a dirty block that is no longer resident in
`c1`. -/
def EvictedDirty (c c1 : BlockCache) (v : Node) : Prop :=
  v ∈ c.cache ∧ v.2.dirty = true ∧
    ∀ m ∈ c1.cache, ¬ (m.2.fd = v.2.fd ∧ m.2.offset = v.2.offset)

/-- The bytes `out` are the logical contents of descriptor `fd` from position
`p` on: each is the byte the resident block has there, or else the byte of the
file. -/
def DeliversLogical (c : BlockCache) (w : World) (fd : Int) (p : Nat) (out : List Byte) : Prop :=
  ∀ j, j < out.length →
    logicalByte c w fd (p / PAGE_SIZE * PAGE_SIZE) (p % PAGE_SIZE + j) = some (out.getD j 0)

/-- The cache after `sync(fd)` or `close(fd)`: no block of `fd`, no index for
`fd`. -/
def BlockCache.drop (c : BlockCache) (fd : Int) : BlockCache :=
  { c with cache := c.cache.filter (fun n => decide (n.2.fd ≠ fd))
           cacheMap := assocErase fd c.cacheMap }

/-- The world `w` with `g` as the oracle of failing `WriteFile` calls. -/
def World.withWriteFails (w : World) (g : Int → Nat → Bool) : World :=
  { w with writeFails := g }

/-- The state a sequence of events leads to from a fresh cache of the given
capacity, whose scratch buffer holds zeros, and the world `w` (the initial state
itself if the run is undefined). -/
def exRunIn (w : World) (cacheSize : Nat) (es : List Event) : BlockCache × World :=
  (runEvents es (BlockCache.init cacheSize (fun _ => 0)) w).getD
    (BlockCache.init cacheSize (fun _ => 0), w)

/-- The machine `exWorld` with a disk on which every `WriteFile` fails. -/
def exWriteFault : World :=
  exWorld.withWriteFails (fun _ _ => true)

/-- The machine `exWorld` where every `ReadFile` on descriptor 3 fails. -/
def exReadFault : World :=
  { exWorld with readFails := fun h _ => decide (h = 3) }

/-- A machine with one file `c.bin` of two blocks, the first all ones and the
second all twos, open as descriptor 6, where positioning descriptor 6 at 4096
fails. -/
def exSeekFault : World :=
  { handles := fun h => if h = 6 then some { path := "c.bin", pos := 0 } else none
    disk := fun p =>
      if p = "c.bin" then { size := 8192, bytes := fun i => if i < 4096 then 1 else 2 }
      else { size := 0, bytes := fun _ => 0 }
    seekFails := fun h p => decide (h = 6 ∧ p = 4096)
    readFails := fun _ _ => false
    writeFails := fun _ _ => false
    flushFails := fun _ => false
    closeFails := fun _ => false }

/-- The list holds its nodes newest first.  Node identifiers are handed out by
`freshNode`, each larger than those of all nodes in the list at that moment, so
of two nodes of the list the one with the larger identifier was inserted
later. -/
def NewestFirst (c : BlockCache) : Prop :=
  (c.cache.map Prod.fst).Pairwise (fun a b => b < a)

/-! ## The sort of the client (`src/app/app.cpp`)

An `int` value is given by its `ELEMENT_SIZE` bytes, as `get_element` delivers
it; `intOf` is the number those bytes denote.  Indices are the `int`s of the
source, taken as integers: no index computed by `partition` or `quicksort`
leaves the range of `int` when `0 ≤ low` and `high < INT_MAX`.  `toSizeT` is the
conversion of an `int` index to the `size_t` parameter of `get_element`. -/

/-- The `int` whose object representation is the four bytes of `v` (little
endian, two's complement). -/
def intOf (v : List Byte) : Int :=
  let u : Nat := v.getD 0 0 % 256 + v.getD 1 0 % 256 * 256 + v.getD 2 0 % 256 * 65536 +
    v.getD 3 0 % 256 * 16777216
  if u < 2147483648 then (u : Int) else (u : Int) - 4294967296

/-- Conversion of an `int` to `size_t`. -/
def toSizeT (x : Int) : Nat :=
  (x % 18446744073709551616).toNat

/-- `set_element`: read the sector of element `index` through the cache, put
the bytes of `value` at the element's place in the buffer, and write the whole
sector back through the cache. -/
def set_element (c : BlockCache) (w : World) (fd : Int) (index : Nat) (value : List Byte) :
    Option (Bool × BlockCache × World) :=
  let offset := (index * ELEMENT_SIZE) / SECTOR_SIZE * SECTOR_SIZE
  let alignedSize := SECTOR_SIZE
  match lab2_lseek w fd (offset : Int) SEEK_SET with
  | (r, w1) =>
    if r = -1 then some (false, c, w1)
    else
      match lab2_read c w1 fd alignedSize with
      | none => none
      | some (r2, out, c1, w2) =>
        if r2 ≠ (alignedSize : Int) then some (false, c1, w2)
        else
          let offsetInBuffer := (index * ELEMENT_SIZE) % SECTOR_SIZE
          let buf := out.take offsetInBuffer ++ value.take ELEMENT_SIZE ++
            out.drop (offsetInBuffer + ELEMENT_SIZE)
          match lab2_lseek w2 fd (offset : Int) SEEK_SET with
          | (r3, w3) =>
            if r3 = -1 then some (false, c1, w3)
            else
              match lab2_write c1 w3 fd buf alignedSize offset with
              | none => none
              | some (r4, c2, w4) =>
                if r4 ≠ (alignedSize : Int) then some (false, c2, w4) else some (true, c2, w4)

/-- `swap_elements`. -/
def swap_elements (c : BlockCache) (w : World) (fd : Int) (index1 index2 : Nat) :
    Option (Bool × BlockCache × World) :=
  if index1 = index2 then some (true, c, w)
  else
    match get_element c w fd index1 with
    | none => none
    | some (r1, val1, c1, w1) =>
      if r1 = false then some (false, c1, w1)
      else
        match get_element c1 w1 fd index2 with
        | none => none
        | some (r2, val2, c2, w2) =>
          if r2 = false then some (false, c2, w2)
          else if intOf val1 = intOf val2 then some (true, c2, w2)
          else
            match set_element c2 w2 fd index2 val1 with
            | none => none
            | some (r3, c3, w3) =>
              if r3 = false then some (false, c3, w3)
              else
                match set_element c3 w3 fd index1 val2 with
                | none => none
                | some (r4, c4, w4) =>
                  if r4 = false then some (false, c4, w4) else some (true, c4, w4)

/-- The `for` loop of `partition`, with `n` iterations left, the loop variable
at `j` and the local `i`: the final `i`, or `none` when the function returns -1
from inside the loop. -/
def partitionLoop (fd : Int) (pivot : List Byte) :
    Nat → Int → Int → BlockCache → World → Option (Option Int × BlockCache × World)
  | 0, _, i, c, w => some (some i, c, w)
  | n + 1, j, i, c, w =>
    match get_element c w fd (toSizeT j) with
    | none => none
    | some (r, current, c1, w1) =>
      if r = false then some (none, c1, w1)
      else if intOf current < intOf pivot then
        if i + 1 ≠ j then
          match swap_elements c1 w1 fd (toSizeT (i + 1)) (toSizeT j) with
          | none => none
          | some (r2, c2, w2) =>
            if r2 = false then some (none, c2, w2)
            else partitionLoop fd pivot n (j + 1) (i + 1) c2 w2
        else partitionLoop fd pivot n (j + 1) (i + 1) c1 w1
      else partitionLoop fd pivot n (j + 1) i c1 w1

/-- `partition`: the loop runs for `j = low, …, high - 1`. -/
def partition (c : BlockCache) (w : World) (fd : Int) (low high : Int) :
    Option (Int × BlockCache × World) :=
  match get_element c w fd (toSizeT high) with
  | none => none
  | some (r, pivot, c1, w1) =>
    if r = false then some (-1, c1, w1)
    else
      match partitionLoop fd pivot (high - low).toNat low (low - 1) c1 w1 with
      | none => none
      | some (none, c2, w2) => some (-1, c2, w2)
      | some (some i, c2, w2) =>
        match swap_elements c2 w2 fd (toSizeT (i + 1)) (toSizeT high) with
        | none => none
        | some (r2, c3, w3) => if r2 = false then some (-1, c3, w3) else some (i + 1, c3, w3)

/-- `quicksort`, with a bound on the depth of the recursion (`none` when the
bound is exhausted, as for undefined behaviour). -/
def quicksort (fd : Int) :
    Nat → BlockCache → World → Int → Int → Option (Bool × BlockCache × World)
  | 0, _, _, _, _ => none
  | fuel + 1, c, w, low, high =>
    if low < high then
      match partition c w fd low high with
      | none => none
      | some (pi, c1, w1) =>
        if pi = -1 then some (false, c1, w1)
        else
          match quicksort fd fuel c1 w1 low (pi - 1) with
          | none => none
          | some (r1, c2, w2) =>
            if r1 = false then some (false, c2, w2)
            else
              match quicksort fd fuel c2 w2 (pi + 1) high with
              | none => none
              | some (r2, c3, w3) =>
                if r2 = false then some (false, c3, w3) else some (true, c3, w3)
    else some (true, c, w)

/-- The bytes of element `i` in the byte sequence `L`. -/
def elementAt (L : Nat → Byte) (i : Nat) : List Byte :=
  [L (i * ELEMENT_SIZE), L (i * ELEMENT_SIZE + 1), L (i * ELEMENT_SIZE + 2),
    L (i * ELEMENT_SIZE + 3)]

/-- The byte sequence `L` with the bytes of `v` as element `i`. -/
def setElement (L : Nat → Byte) (i : Nat) (v : List Byte) : Nat → Byte :=
  fun x => if i * ELEMENT_SIZE ≤ x ∧ x < i * ELEMENT_SIZE + ELEMENT_SIZE
    then v.getD (x - i * ELEMENT_SIZE) 0 else L x

/-- The states in which the sort runs on descriptor `fd`, open on `path`: the
cache is consistent and holds only blocks of `fd`, no call fails, and the first
`N` bytes of the file, seen through the cache, are `L`: a resident block has the
bytes of `L` in its buffer, and the file has them wherever the block is not
resident or is clean. -/
structure SortPhase (fd : Int) (path : String) (N : Nat) (L : Nat → Byte) (c : BlockCache)
    (w : World) : Prop where
  wf : c.WF
  blocks : ∀ n ∈ c.cache, n.2.fd = fd
  handle : ∃ hd, w.handles fd = some hd ∧ hd.path = path
  noFaults : w.NoFaults
  size : N ≤ (w.disk path).size
  resident : ∀ n ∈ c.cache, ∀ i, i < PAGE_SIZE → n.2.offset + i < N →
    n.2.data i = L (n.2.offset + i)
  stored : ∀ x, x < N →
    (∀ n ∈ c.cache, n.2.offset = x / PAGE_SIZE * PAGE_SIZE → n.2.dirty = false) →
    (w.disk path).bytes x = L x

/-- The `int` that is element `k` of the byte sequence `L`. -/
def valueAt (L : Nat → Byte) (k : Nat) : Int :=
  intOf (elementAt L k)

/-! ## Arithmetic of aligned offsets -/

theorem sub_aligned (offset : Nat) :
    offset - offset / PAGE_SIZE * PAGE_SIZE = offset % PAGE_SIZE := by
  have h := Nat.div_add_mod offset PAGE_SIZE
  have h2 : offset / PAGE_SIZE * PAGE_SIZE = PAGE_SIZE * (offset / PAGE_SIZE) := Nat.mul_comm _ _
  omega

theorem aligned_mod (offset : Nat) : (offset / PAGE_SIZE * PAGE_SIZE) % PAGE_SIZE = 0 :=
  Nat.mul_mod_left _ _

/-! ## Association lists -/

theorem assocFind_cons {κ ν : Type} [DecidableEq κ] (k : κ) (x : κ × ν) (t : List (κ × ν)) :
    assocFind k (x :: t) = if x.1 = k then some x.2 else assocFind k t := by
  cases x; rfl

theorem assocSet_cons {κ ν : Type} [DecidableEq κ] (k : κ) (v : ν) (x : κ × ν)
    (t : List (κ × ν)) :
    assocSet k v (x :: t) = if x.1 = k then (k, v) :: t else x :: assocSet k v t := by
  cases x; rfl

theorem mem_of_assocFind {κ ν : Type} [DecidableEq κ] {k : κ} {v : ν} {l : List (κ × ν)}
    (h : assocFind k l = some v) : (k, v) ∈ l := by
  induction l with
  | nil => simp [assocFind] at h
  | cons x t ih =>
    rw [assocFind_cons] at h
    by_cases hx : x.1 = k
    · rw [if_pos hx] at h
      have hv : x.2 = v := by simpa using h
      have : x = (k, v) := by rw [← hx, ← hv]
      rw [this]; exact List.mem_cons_self _ _
    · rw [if_neg hx] at h
      exact List.mem_cons_of_mem _ (ih h)

theorem assocFind_of_mem {κ ν : Type} [DecidableEq κ] {k : κ} {v : ν} {l : List (κ × ν)}
    (hnd : (l.map Prod.fst).Nodup) (h : (k, v) ∈ l) : assocFind k l = some v := by
  induction l with
  | nil => simp at h
  | cons x t ih =>
    rw [assocFind_cons]
    rw [List.map_cons, List.nodup_cons] at hnd
    rcases List.mem_cons.mp h with h1 | h1
    · subst h1; simp
    · have hne : x.1 ≠ k := by
        intro hx
        apply hnd.1
        rw [hx]
        exact List.mem_map.mpr ⟨(k, v), h1, rfl⟩
      rw [if_neg hne]
      exact ih hnd.2 h1

theorem assocFind_eq_none {κ ν : Type} [DecidableEq κ] {k : κ} {l : List (κ × ν)} :
    assocFind k l = none ↔ k ∉ l.map Prod.fst := by
  induction l with
  | nil => simp [assocFind]
  | cons x t ih =>
    rw [assocFind_cons]
    by_cases hx : x.1 = k
    · simp [hx]
    · rw [if_neg hx, ih]
      simp only [List.map_cons, List.mem_cons, not_or]
      constructor
      · intro h; exact ⟨fun e => hx e.symm, h⟩
      · intro h; exact h.2

theorem assocFind_assocSet_self {κ ν : Type} [DecidableEq κ] (k : κ) (v : ν) (l : List (κ × ν)) :
    assocFind k (assocSet k v l) = some v := by
  induction l with
  | nil => simp [assocSet, assocFind]
  | cons x t ih =>
    rw [assocSet_cons]
    by_cases h : x.1 = k
    · rw [if_pos h, assocFind_cons]; simp
    · rw [if_neg h, assocFind_cons, if_neg h, ih]

theorem assocFind_assocSet_ne {κ ν : Type} [DecidableEq κ] (k k2 : κ) (v : ν) (l : List (κ × ν))
    (hne : k2 ≠ k) : assocFind k2 (assocSet k v l) = assocFind k2 l := by
  induction l with
  | nil => simp [assocSet, assocFind, Ne.symm hne]
  | cons x t ih =>
    rw [assocSet_cons]
    by_cases h : x.1 = k
    · rw [if_pos h, assocFind_cons, assocFind_cons]
      have h1 : ¬ (k = k2) := fun e => hne e.symm
      have h2 : ¬ (x.1 = k2) := fun e => hne (e.symm.trans h)
      simp [h1, h2]
    · rw [if_neg h, assocFind_cons, assocFind_cons, ih]

theorem map_fst_assocSet {κ ν : Type} [DecidableEq κ] (k : κ) (v : ν) (l : List (κ × ν)) :
    (assocSet k v l).map Prod.fst =
      if k ∈ l.map Prod.fst then l.map Prod.fst else l.map Prod.fst ++ [k] := by
  induction l with
  | nil => simp [assocSet]
  | cons x t ih =>
    rw [assocSet_cons]
    by_cases h : x.1 = k
    · simp [h]
    · rw [if_neg h, List.map_cons, ih]
      have h1 : ¬ (k = x.1) := fun e => h e.symm
      by_cases hk : k ∈ t.map Prod.fst
      · simp [hk]
      · simp [hk, h1]

theorem nodup_assocSet {κ ν : Type} [DecidableEq κ] (k : κ) (v : ν) {l : List (κ × ν)}
    (hnd : (l.map Prod.fst).Nodup) : ((assocSet k v l).map Prod.fst).Nodup := by
  rw [map_fst_assocSet]
  by_cases hk : k ∈ l.map Prod.fst
  · rw [if_pos hk]; exact hnd
  · rw [if_neg hk]
    apply List.Nodup.append hnd (List.nodup_singleton k)
    intro a ha hb
    rw [List.mem_singleton] at hb
    subst hb
    exact hk ha

theorem mem_assocSet {κ ν : Type} [DecidableEq κ] {k k2 : κ} {v v2 : ν} {l : List (κ × ν)}
    (hnd : (l.map Prod.fst).Nodup) :
    (k2, v2) ∈ assocSet k v l ↔ (k2 = k ∧ v2 = v) ∨ (k2 ≠ k ∧ (k2, v2) ∈ l) := by
  induction l with
  | nil => simp [assocSet]
  | cons x t ih =>
    rw [assocSet_cons]
    rw [List.map_cons, List.nodup_cons] at hnd
    by_cases h : x.1 = k
    · rw [if_pos h]
      simp only [List.mem_cons, Prod.mk.injEq]
      constructor
      · rintro (⟨h1, h2⟩ | h1)
        · exact Or.inl ⟨h1, h2⟩
        · right
          refine ⟨?_, Or.inr h1⟩
          intro e
          apply hnd.1
          rw [h, ← e]
          exact List.mem_map.mpr ⟨(k2, v2), h1, rfl⟩
      · rintro (⟨h1, h2⟩ | ⟨h1, h2⟩)
        · exact Or.inl ⟨h1, h2⟩
        · rcases h2 with h2 | h2
          · exfalso; apply h1; rw [← h, ← h2]
          · exact Or.inr h2
    · rw [if_neg h]
      simp only [List.mem_cons, ih hnd.2]
      constructor
      · rintro (h1 | h1 | ⟨h1, h2⟩)
        · right
          refine ⟨?_, Or.inl h1⟩
          intro e; apply h; rw [← h1]; exact e
        · exact Or.inl h1
        · exact Or.inr ⟨h1, Or.inr h2⟩
      · rintro (h1 | ⟨h1, h2 | h2⟩)
        · exact Or.inr (Or.inl h1)
        · exact Or.inl h2
        · exact Or.inr (Or.inr ⟨h1, h2⟩)

theorem mem_assocErase {κ ν : Type} [DecidableEq κ] {k k2 : κ} {v2 : ν} {l : List (κ × ν)} :
    (k2, v2) ∈ assocErase k l ↔ k2 ≠ k ∧ (k2, v2) ∈ l := by
  simp [assocErase, List.mem_filter, and_comm]

theorem nodup_assocErase {κ ν : Type} [DecidableEq κ] (k : κ) {l : List (κ × ν)}
    (hnd : (l.map Prod.fst).Nodup) : ((assocErase k l).map Prod.fst).Nodup :=
  List.Nodup.sublist ((List.filter_sublist l).map Prod.fst) hnd

theorem assocFind_assocErase_self {κ ν : Type} [DecidableEq κ] (k : κ) (l : List (κ × ν)) :
    assocFind k (assocErase k l) = none := by
  rw [assocFind_eq_none]
  intro h
  obtain ⟨x, hx, hk⟩ := List.mem_map.mp h
  obtain ⟨a, b⟩ := x
  simp only at hk
  subst hk
  exact (mem_assocErase.mp hx).1 rfl

theorem assocFind_assocErase_ne {κ ν : Type} [DecidableEq κ] (k k2 : κ) (l : List (κ × ν))
    (hne : k2 ≠ k) : assocFind k2 (assocErase k l) = assocFind k2 l := by
  induction l with
  | nil => rfl
  | cons x t ih =>
    unfold assocErase at ih ⊢
    rw [List.filter_cons]
    by_cases h : x.1 = k
    · have h2 : ¬ (x.1 = k2) := fun e => hne (e.symm.trans h)
      simp only [h, ne_eq, not_true_eq_false, decide_False, Bool.false_eq_true, if_false]
      rw [assocFind_cons, if_neg h2]
      subst h
      exact ih
    · simp only [h, ne_eq, not_false_eq_true, decide_True, if_true]
      rw [assocFind_cons, assocFind_cons, ih]

/-! ## The block list and the index -/

theorem assoc_unique {κ ν : Type} [DecidableEq κ] {k : κ} {v1 v2 : ν} {l : List (κ × ν)}
    (hnd : (l.map Prod.fst).Nodup) (h1 : (k, v1) ∈ l) (h2 : (k, v2) ∈ l) : v1 = v2 := by
  have e1 := assocFind_of_mem hnd h1
  have e2 := assocFind_of_mem hnd h2
  rw [e1] at e2
  exact Option.some.inj e2

theorem findIter_iff {m : List (Int × OffsetMap)} {fd : Int} {off it : Nat}
    (h1 : (m.map Prod.fst).Nodup) (h2 : ∀ e ∈ m, (e.2.map Prod.fst).Nodup) :
    findIter m fd off = some it ↔ ∃ inner, (fd, inner) ∈ m ∧ (off, it) ∈ inner := by
  unfold findIter
  constructor
  · intro h
    cases hf : assocFind fd m with
    | none => rw [hf] at h; simp at h
    | some inner =>
      rw [hf] at h
      exact ⟨inner, mem_of_assocFind hf, mem_of_assocFind h⟩
  · rintro ⟨inner, hi, ho⟩
    rw [assocFind_of_mem h1 hi]
    exact assocFind_of_mem (h2 _ hi) ho

theorem findIter_eq_none {m : List (Int × OffsetMap)} {fd : Int} {off : Nat}
    (h : findIter m fd off = none) {inner : OffsetMap} (h1 : (m.map Prod.fst).Nodup)
    (hi : (fd, inner) ∈ m) : off ∉ inner.map Prod.fst := by
  unfold findIter at h
  rw [assocFind_of_mem h1 hi] at h
  exact assocFind_eq_none.mp h

theorem deref_iff {l : List Node} {it : Nat} {b : CacheBlock}
    (hnd : (l.map Prod.fst).Nodup) : deref l it = some b ↔ (it, b) ∈ l :=
  ⟨mem_of_assocFind, assocFind_of_mem hnd⟩

theorem mem_eraseNode {l : List Node} {it : Nat} {n : Node} :
    n ∈ eraseNode l it ↔ n ∈ l ∧ n.1 ≠ it := by
  simp [eraseNode, List.mem_filter]

theorem nodup_eraseNode {l : List Node} (it : Nat) (hnd : (l.map Prod.fst).Nodup) :
    ((eraseNode l it).map Prod.fst).Nodup :=
  List.Nodup.sublist ((List.filter_sublist l).map Prod.fst) hnd

theorem lt_freshNode {l : List Node} {n : Node} (h : n ∈ l) : n.1 < freshNode l := by
  unfold freshNode
  induction l with
  | nil => simp at h
  | cons x t ih =>
    simp only [List.map_cons, List.foldr_cons]
    rcases List.mem_cons.mp h with h1 | h1
    · subst h1; omega
    · have := ih h1; omega

theorem freshNode_not_mem (l : List Node) : freshNode l ∉ l.map Prod.fst := by
  intro h
  obtain ⟨n, hn, he⟩ := List.mem_map.mp h
  have := lt_freshNode hn
  omega

theorem minElementFrom_spec (best : Node) (l : List Node) :
    (minElementFrom best l = best ∨ minElementFrom best l ∈ l) ∧
    (minElementFrom best l).2.offset ≤ best.2.offset ∧
    ∀ n ∈ l, (minElementFrom best l).2.offset ≤ n.2.offset := by
  induction l generalizing best with
  | nil => simp [minElementFrom]
  | cons x t ih =>
    simp only [minElementFrom]
    obtain ⟨h1, h2, h3⟩ := ih (if x.2.offset < best.2.offset then x else best)
    by_cases hx : x.2.offset < best.2.offset
    · simp only [hx, if_true] at h1 h2 h3 ⊢
      refine ⟨?_, by omega, ?_⟩
      · rcases h1 with h1 | h1
        · right; rw [h1]; exact List.mem_cons_self _ _
        · right; exact List.mem_cons_of_mem _ h1
      · intro n hn
        rcases List.mem_cons.mp hn with e | e
        · subst e; exact h2
        · exact h3 n e
    · simp only [hx, if_false] at h1 h2 h3 ⊢
      refine ⟨?_, h2, ?_⟩
      · rcases h1 with h1 | h1
        · left; exact h1
        · right; exact List.mem_cons_of_mem _ h1
      · intro n hn
        rcases List.mem_cons.mp hn with e | e
        · subst e; omega
        · exact h3 n e

theorem minElement_spec {l : List Node} {v : Node} (h : minElement l = some v) :
    v ∈ l ∧ ∀ n ∈ l, v.2.offset ≤ n.2.offset := by
  cases l with
  | nil => simp [minElement] at h
  | cons x t =>
    simp only [minElement, Option.some.injEq] at h
    subst h
    obtain ⟨h1, h2, h3⟩ := minElementFrom_spec x t
    refine ⟨?_, ?_⟩
    · rcases h1 with h1 | h1
      · rw [h1]; exact List.mem_cons_self _ _
      · exact List.mem_cons_of_mem _ h1
    · intro n hn
      rcases List.mem_cons.mp hn with e | e
      · subst e; exact h2
      · exact h3 n e

theorem minElement_eq_none {l : List Node} : minElement l = none ↔ l = [] := by
  cases l <;> simp [minElement]

theorem evict_of_min {c : BlockCache} (w : World) {v : Node} (h : minElement c.cache = some v) :
    c.evict w = ({ c with cacheMap := eraseIter c.cacheMap v.2.fd v.2.offset
                          cache := eraseNode c.cache v.1 },
                  if v.2.dirty = true then writeBlockToDisk w v.2 else w) := by
  unfold BlockCache.evict
  rw [h]

theorem evict_of_nil {c : BlockCache} (w : World) (h : c.cache = []) : c.evict w = (c, w) := by
  unfold BlockCache.evict
  rw [h]
  rfl

theorem evict_alignedBuffer (c : BlockCache) (w : World) :
    (c.evict w).1.alignedBuffer = c.alignedBuffer := by
  unfold BlockCache.evict
  cases minElement c.cache with
  | none => rfl
  | some n => rfl

theorem evict_cacheSize (c : BlockCache) (w : World) :
    (c.evict w).1.cacheSize = c.cacheSize := by
  unfold BlockCache.evict
  cases minElement c.cache with
  | none => rfl
  | some n => rfl

/-! ## Preservation of structural consistency -/

theorem BlockCache.WF.of_same_blocks {c c1 : BlockCache} (h : c.WF) (h1 : c1.cache = c.cache)
    (h2 : c1.cacheMap = c.cacheMap) : c1.WF := by
  refine ⟨?_, ?_, ?_, ?_, ?_, ?_⟩
  · rw [h1]; exact h.nodupNodes
  · rw [h2]; exact h.nodupFds
  · rw [h2]; exact h.nodupOffsets
  · rw [h1, h2]; exact h.indexed
  · rw [h1, h2]; exact h.listed
  · rw [h1]; exact h.aligned

theorem WF_init (cacheSize : Nat) (scratch : Buffer) : (BlockCache.init cacheSize scratch).WF := by
  refine ⟨?_, ?_, ?_, ?_, ?_, ?_⟩ <;> simp [BlockCache.init]

/-- The inner map of a resident block is the one `cacheMap.find` returns. -/
theorem BlockCache.WF.find_inner {c : BlockCache} (h : c.WF) {fd : Int} {inner : OffsetMap}
    (hi : (fd, inner) ∈ c.cacheMap) : assocFind fd c.cacheMap = some inner :=
  assocFind_of_mem h.nodupFds hi

theorem BlockCache.WF.remove {c : BlockCache} (h : c.WF) {v : Node} (hv : v ∈ c.cache) :
    ({ c with cacheMap := eraseIter c.cacheMap v.2.fd v.2.offset
              cache := eraseNode c.cache v.1 } : BlockCache).WF := by
  obtain ⟨it, blk⟩ := v
  obtain ⟨innerB, hB1, hB2⟩ := h.listed it blk hv
  have hfind := h.find_inner hB1
  have hmem : ∀ fd inner, (fd, inner) ∈ eraseIter c.cacheMap blk.fd blk.offset ↔
      (fd = blk.fd ∧ inner = assocErase blk.offset innerB) ∨
      (fd ≠ blk.fd ∧ (fd, inner) ∈ c.cacheMap) := by
    intro fd inner
    unfold eraseIter
    rw [mem_assocSet h.nodupFds, hfind]
    rfl
  refine ⟨?_, ?_, ?_, ?_, ?_, ?_⟩
  · exact nodup_eraseNode _ h.nodupNodes
  · exact nodup_assocSet _ _ h.nodupFds
  · rintro ⟨fd, inner⟩ he
    rcases (hmem fd inner).mp he with ⟨_, h2⟩ | ⟨_, h2⟩
    · simp only [h2]
      exact nodup_assocErase _ (h.nodupOffsets _ hB1)
    · exact h.nodupOffsets _ h2
  · intro fd inner off it2 he ho
    simp only at he ⊢
    rcases (hmem fd inner).mp he with ⟨h1, h2⟩ | ⟨h1, h2⟩
    · subst h1 h2
      obtain ⟨hne, ho2⟩ := mem_assocErase.mp ho
      obtain ⟨b, hb1, hb2, hb3⟩ := h.indexed _ _ _ _ hB1 ho2
      refine ⟨b, mem_eraseNode.mpr ⟨hb1, ?_⟩, hb2, hb3⟩
      intro e
      simp only at e
      subst e
      have := assoc_unique h.nodupNodes hb1 hv
      subst this
      exact hne hb3.symm
    · obtain ⟨b, hb1, hb2, hb3⟩ := h.indexed _ _ _ _ h2 ho
      refine ⟨b, mem_eraseNode.mpr ⟨hb1, ?_⟩, hb2, hb3⟩
      intro e
      simp only at e
      subst e
      have := assoc_unique h.nodupNodes hb1 hv
      subst this
      exact h1 hb2.symm
  · intro it2 b hb
    simp only at hb ⊢
    obtain ⟨hb1, hne⟩ := mem_eraseNode.mp hb
    simp only at hne
    obtain ⟨inner, hi1, hi2⟩ := h.listed it2 b hb1
    by_cases hfd : b.fd = blk.fd
    · have : inner = innerB := by
        rw [hfd] at hi1
        exact assoc_unique h.nodupFds hi1 hB1
      subst this
      refine ⟨assocErase blk.offset inner, (hmem _ _).mpr (Or.inl ⟨hfd, rfl⟩), ?_⟩
      refine mem_assocErase.mpr ⟨?_, hi2⟩
      intro e
      rw [e] at hi2
      exact hne (assoc_unique (h.nodupOffsets _ hB1) hi2 hB2)
    · exact ⟨inner, (hmem _ _).mpr (Or.inr ⟨hfd, hi1⟩), hi2⟩
  · intro n hn
    exact h.aligned n (mem_eraseNode.mp hn).1

theorem BlockCache.WF.evict {c : BlockCache} (h : c.WF) (w : World) : (c.evict w).1.WF := by
  cases hm : minElement c.cache with
  | none =>
    rw [evict_of_nil w (minElement_eq_none.mp hm)]
    exact h
  | some v =>
    rw [evict_of_min w hm]
    exact h.remove (minElement_spec hm).1

theorem findIter_eraseIter_none {m : List (Int × OffsetMap)} {fd : Int} {a : Nat}
    (h : findIter m fd a = none) (bfd : Int) (boff : Nat) :
    findIter (eraseIter m bfd boff) fd a = none := by
  unfold findIter eraseIter at *
  by_cases hfd : fd = bfd
  · subst hfd
    rw [assocFind_assocSet_self]
    simp only
    by_cases ha : a = boff
    · subst ha; exact assocFind_assocErase_self _ _
    · rw [assocFind_assocErase_ne _ _ _ ha]
      cases hf : assocFind fd m with
      | none => rfl
      | some inner => rw [hf] at h; exact h
  · rw [assocFind_assocSet_ne _ _ _ _ hfd]
    exact h

theorem findIter_evict_none {c : BlockCache} {fd : Int} {a : Nat} (w : World)
    (h : findIter c.cacheMap fd a = none) : findIter (c.evict w).1.cacheMap fd a = none := by
  cases hm : minElement c.cache with
  | none => rw [evict_of_nil w (minElement_eq_none.mp hm)]; exact h
  | some v => rw [evict_of_min w hm]; exact findIter_eraseIter_none h _ _

theorem BlockCache.WF.push {c : BlockCache} (h : c.WF) {fd : Int} {a : Nat}
    (hmiss : findIter c.cacheMap fd a = none) (ha : a % PAGE_SIZE = 0) (blk : CacheBlock)
    (hfd : blk.fd = fd) (hoff : blk.offset = a) :
    ({ c with cache := (freshNode c.cache, blk) :: c.cache
              cacheMap := setIter c.cacheMap fd a (freshNode c.cache) } : BlockCache).WF := by
  -- the inner map of `fd` before the insertion
  have hmem : ∀ fd2 inner, (fd2, inner) ∈ setIter c.cacheMap fd a (freshNode c.cache) ↔
      (fd2 = fd ∧ inner = assocSet a (freshNode c.cache) ((assocFind fd c.cacheMap).getD [])) ∨
      (fd2 ≠ fd ∧ (fd2, inner) ∈ c.cacheMap) := by
    intro fd2 inner
    unfold setIter
    rw [mem_assocSet h.nodupFds]
  have hold : ∀ inner, (fd, inner) ∈ c.cacheMap → (assocFind fd c.cacheMap).getD [] = inner := by
    intro inner hi
    rw [h.find_inner hi]; rfl
  have hndOld : (((assocFind fd c.cacheMap).getD []).map Prod.fst).Nodup := by
    cases hf : assocFind fd c.cacheMap with
    | none => simp
    | some inner => exact h.nodupOffsets _ (mem_of_assocFind hf)
  have hmemOld : ∀ off it, (off, it) ∈ (assocFind fd c.cacheMap).getD [] →
      off ≠ a ∧ ∃ inner, (fd, inner) ∈ c.cacheMap ∧ (off, it) ∈ inner := by
    intro off it ho
    cases hf : assocFind fd c.cacheMap with
    | none => rw [hf] at ho; simp at ho
    | some inner =>
      rw [hf] at ho
      simp only [Option.getD_some] at ho
      have hi := mem_of_assocFind hf
      refine ⟨?_, inner, hi, ho⟩
      intro e
      subst e
      exact findIter_eq_none hmiss h.nodupFds hi (List.mem_map.mpr ⟨(off, it), ho, rfl⟩)
  refine ⟨?_, ?_, ?_, ?_, ?_, ?_⟩
  · simp only [List.map_cons, List.nodup_cons]
    exact ⟨freshNode_not_mem _, h.nodupNodes⟩
  · exact nodup_assocSet _ _ h.nodupFds
  · rintro ⟨fd2, inner⟩ he
    rcases (hmem fd2 inner).mp he with ⟨_, h2⟩ | ⟨_, h2⟩
    · simp only [h2]
      exact nodup_assocSet _ _ hndOld
    · exact h.nodupOffsets _ h2
  · intro fd2 inner off it he ho
    simp only at he ⊢
    rcases (hmem fd2 inner).mp he with ⟨h1, h2⟩ | ⟨h1, h2⟩
    · subst h1 h2
      rcases (mem_assocSet hndOld).mp ho with ⟨e1, e2⟩ | ⟨e1, e2⟩
      · subst e1 e2
        exact ⟨blk, List.mem_cons_self _ _, hfd, hoff⟩
      · obtain ⟨_, inner, hi, ho2⟩ := hmemOld off it e2
        obtain ⟨b, hb1, hb2, hb3⟩ := h.indexed _ _ _ _ hi ho2
        exact ⟨b, List.mem_cons_of_mem _ hb1, hb2, hb3⟩
    · obtain ⟨b, hb1, hb2, hb3⟩ := h.indexed _ _ _ _ h2 ho
      exact ⟨b, List.mem_cons_of_mem _ hb1, hb2, hb3⟩
  · intro it b hb
    simp only at hb ⊢
    rcases List.mem_cons.mp hb with e | hb1
    · simp only [Prod.mk.injEq] at e
      obtain ⟨e1, e2⟩ := e
      subst e1 e2
      refine ⟨_, (hmem _ _).mpr (Or.inl ⟨hfd, rfl⟩), ?_⟩
      rw [hoff]
      exact (mem_assocSet hndOld).mpr (Or.inl ⟨rfl, rfl⟩)
    · obtain ⟨inner, hi1, hi2⟩ := h.listed it b hb1
      by_cases hbfd : b.fd = fd
      · refine ⟨_, (hmem _ _).mpr (Or.inl ⟨hbfd, rfl⟩), ?_⟩
        rw [hbfd] at hi1
        rw [hold inner hi1]
        refine (mem_assocSet (h.nodupOffsets _ hi1)).mpr (Or.inr ⟨?_, hi2⟩)
        intro e
        exact findIter_eq_none hmiss h.nodupFds hi1
          (List.mem_map.mpr ⟨(b.offset, it), hi2, e⟩)
      · exact ⟨inner, (hmem _ _).mpr (Or.inr ⟨hbfd, hi1⟩), hi2⟩
  · intro n hn
    simp only at hn
    rcases List.mem_cons.mp hn with e | hn1
    · subst e; simp only; rw [hoff]; exact ha
    · exact h.aligned n hn1

theorem BlockCache.WF.insertBlock {c : BlockCache} (h : c.WF) (w : World) {fd : Int} {a : Nat}
    (hmiss : findIter c.cacheMap fd a = none) (ha : a % PAGE_SIZE = 0) (d : Bool) :
    (c.insertBlock w fd a d).1.WF := by
  unfold BlockCache.insertBlock
  by_cases hc : c.cacheSize ≤ c.cache.length
  · simp only [hc, if_true]
    exact (h.evict w).push (findIter_evict_none w hmiss) ha _ rfl rfl
  · simp only [hc, if_false]
    exact h.push hmiss ha _ rfl rfl

theorem BlockCache.WF.store {c : BlockCache} (h : c.WF) (it k : Nat) (buf : List Byte)
    (count : Nat) :
    ({ c with cache := c.cache.map (fun n =>
        if n.1 = it then (n.1, n.2.store k buf count) else n) } : BlockCache).WF := by
  have hfst : (c.cache.map (fun n =>
      if n.1 = it then (n.1, n.2.store k buf count) else n)).map Prod.fst
      = c.cache.map Prod.fst := by
    rw [List.map_map]
    apply List.map_congr_left
    intro n _
    simp only [Function.comp]
    split <;> rfl
  refine ⟨?_, h.nodupFds, h.nodupOffsets, ?_, ?_, ?_⟩
  · simp only [hfst]; exact h.nodupNodes
  · intro fd inner off it2 hi ho
    obtain ⟨b, hb1, hb2, hb3⟩ := h.indexed _ _ _ _ hi ho
    simp only [List.mem_map]
    by_cases e : it2 = it
    · exact ⟨b.store k buf count, ⟨(it2, b), hb1, by simp [e]⟩, hb2, hb3⟩
    · exact ⟨b, ⟨(it2, b), hb1, by simp [e]⟩, hb2, hb3⟩
  · intro it2 b hb
    simp only [List.mem_map] at hb
    obtain ⟨n, hn, e⟩ := hb
    by_cases e1 : n.1 = it
    · rw [if_pos e1] at e
      simp only [Prod.mk.injEq] at e
      obtain ⟨e2, e3⟩ := e
      subst e2 e3
      exact h.listed n.1 n.2 hn
    · rw [if_neg e1] at e
      subst e
      exact h.listed _ _ hn
  · intro n hn
    simp only [List.mem_map] at hn
    obtain ⟨n0, hn0, e⟩ := hn
    by_cases e1 : n0.1 = it
    · rw [if_pos e1] at e
      subst e
      exact h.aligned n0 hn0
    · rw [if_neg e1] at e
      subst e
      exact h.aligned _ hn0

/-! ## `sync` -/

theorem syncLoop_cache {inner : OffsetMap} {l l1 : List Node} {w w1 : World}
    (h : syncLoop inner l w = some (l1, w1)) :
    l1 = l.filter (fun n => decide (n.1 ∉ inner.map Prod.snd)) := by
  induction inner generalizing l w with
  | nil =>
    simp only [syncLoop, Option.some.injEq, Prod.mk.injEq] at h
    simp [h.1]
  | cons e rest ih =>
    obtain ⟨off, it⟩ := e
    simp only [syncLoop] at h
    cases hd : deref l it with
    | none => rw [hd] at h; simp at h
    | some blk =>
      rw [hd] at h
      simp only at h
      rw [ih h]
      unfold eraseNode
      rw [List.filter_filter]
      apply List.filter_congr
      intro n _
      simp only [List.map_cons, List.mem_cons, not_or, ne_eq, Bool.decide_and, Bool.and_comm]

theorem syncLoop_isSome (inner : OffsetMap) (l : List Node) (w : World)
    (hnd : (inner.map Prod.snd).Nodup) (hl : ∀ e ∈ inner, e.2 ∈ l.map Prod.fst) :
    ∃ r, syncLoop inner l w = some r := by
  induction inner generalizing l w with
  | nil => exact ⟨_, rfl⟩
  | cons e rest ih =>
    obtain ⟨off, it⟩ := e
    simp only [syncLoop]
    rw [List.map_cons, List.nodup_cons] at hnd
    cases hd : deref l it with
    | none =>
      exfalso
      exact (assocFind_eq_none.mp hd) (hl (off, it) (List.mem_cons_self _ _))
    | some blk =>
      simp only
      apply ih _ _ hnd.2
      intro e he
      obtain ⟨n, hn, hne⟩ := List.mem_map.mp (hl e (List.mem_cons_of_mem _ he))
      refine List.mem_map.mpr ⟨n, mem_eraseNode.mpr ⟨hn, ?_⟩, hne⟩
      intro e2
      apply hnd.1
      rw [← e2, hne]
      exact List.mem_map.mpr ⟨e, he, rfl⟩

/-- In a consistent cache the iterators of the inner map of `fd` are exactly the
nodes tagged `fd`. -/
theorem BlockCache.WF.mem_inner_iff {c : BlockCache} (h : c.WF) {fd : Int} {inner : OffsetMap}
    (hi : (fd, inner) ∈ c.cacheMap) {n : Node} (hn : n ∈ c.cache) :
    n.1 ∈ inner.map Prod.snd ↔ n.2.fd = fd := by
  constructor
  · intro hm
    obtain ⟨e, he, he2⟩ := List.mem_map.mp hm
    obtain ⟨off, it⟩ := e
    simp only at he2
    subst he2
    obtain ⟨b, hb1, hb2, _⟩ := h.indexed _ _ _ _ hi he
    have : b = n.2 := assoc_unique h.nodupNodes hb1 hn
    rw [← this]; exact hb2
  · intro hfd
    obtain ⟨inner2, h1, h2⟩ := h.listed n.1 n.2 hn
    rw [hfd] at h1
    have := assoc_unique h.nodupFds h1 hi
    subst this
    exact List.mem_map.mpr ⟨_, h2, rfl⟩

theorem BlockCache.WF.nodup_inner_iters {c : BlockCache} (h : c.WF) {fd : Int}
    {inner : OffsetMap} (hi : (fd, inner) ∈ c.cacheMap) : (inner.map Prod.snd).Nodup := by
  apply List.Nodup.map_on _ (List.Nodup.of_map _ (h.nodupOffsets _ hi))
  rintro ⟨o1, i1⟩ h1 ⟨o2, i2⟩ h2 e
  simp only at e
  subst e
  obtain ⟨b1, hb1, _, hb13⟩ := h.indexed _ _ _ _ hi h1
  obtain ⟨b2, hb2, _, hb23⟩ := h.indexed _ _ _ _ hi h2
  have := assoc_unique h.nodupNodes hb1 hb2
  subst this
  rw [← hb13, ← hb23]

theorem assocErase_of_not_mem {κ ν : Type} [DecidableEq κ] {k : κ} {l : List (κ × ν)}
    (h : assocFind k l = none) : assocErase k l = l := by
  unfold assocErase
  rw [List.filter_eq_self]
  intro e he
  have := assocFind_eq_none.mp h
  simp only [ne_eq, decide_eq_true_eq]
  intro e2
  exact this (List.mem_map.mpr ⟨e, he, e2⟩)

/-- In a consistent cache `sync` is defined, and what it leaves in the list and
in the index. -/
theorem BlockCache.WF.sync_eq {c : BlockCache} (h : c.WF) (w : World) (fd : Int) :
    ∃ w1, c.sync w fd =
      some ({ c with cache := c.cache.filter (fun n => decide (n.2.fd ≠ fd))
                     cacheMap := assocErase fd c.cacheMap }, w1) := by
  unfold BlockCache.sync
  cases hf : assocFind fd c.cacheMap with
  | none =>
    refine ⟨w, ?_⟩
    simp only
    rw [assocErase_of_not_mem hf]
    have : c.cache.filter (fun n => decide (n.2.fd ≠ fd)) = c.cache := by
      rw [List.filter_eq_self]
      intro n hn
      simp only [ne_eq, decide_eq_true_eq]
      intro e
      obtain ⟨inner, h1, _⟩ := h.listed n.1 n.2 hn
      rw [e] at h1
      exact (assocFind_eq_none.mp hf) (List.mem_map.mpr ⟨_, h1, rfl⟩)
    rw [this]
  | some inner =>
    have hi := mem_of_assocFind hf
    simp only
    obtain ⟨⟨l1, w1⟩, hr⟩ := syncLoop_isSome inner c.cache w (h.nodup_inner_iters hi) (by
      intro e he
      obtain ⟨b, hb, _⟩ := h.indexed fd inner e.1 e.2 hi he
      exact List.mem_map.mpr ⟨_, hb, rfl⟩)
    refine ⟨w1, ?_⟩
    rw [hr]
    simp only
    rw [syncLoop_cache hr]
    have : c.cache.filter (fun n => decide (n.1 ∉ inner.map Prod.snd))
        = c.cache.filter (fun n => decide (n.2.fd ≠ fd)) := by
      apply List.filter_congr
      intro n hn
      rw [decide_eq_decide, h.mem_inner_iff hi hn]
    rw [this]

theorem BlockCache.WF.dropFd {c : BlockCache} (h : c.WF) (fd : Int) :
    ({ c with cache := c.cache.filter (fun n => decide (n.2.fd ≠ fd))
              cacheMap := assocErase fd c.cacheMap } : BlockCache).WF := by
  refine ⟨?_, ?_, ?_, ?_, ?_, ?_⟩
  · exact List.Nodup.sublist ((List.filter_sublist _).map Prod.fst) h.nodupNodes
  · exact nodup_assocErase _ h.nodupFds
  · rintro ⟨fd2, inner⟩ he
    exact h.nodupOffsets _ (mem_assocErase.mp he).2
  · intro fd2 inner off it he ho
    obtain ⟨hne, hi⟩ := mem_assocErase.mp he
    obtain ⟨b, hb1, hb2, hb3⟩ := h.indexed _ _ _ _ hi ho
    refine ⟨b, ?_, hb2, hb3⟩
    simp only [List.mem_filter, ne_eq, decide_eq_true_eq]
    exact ⟨hb1, by rw [hb2]; exact hne⟩
  · intro it b hb
    simp only [List.mem_filter, ne_eq, decide_eq_true_eq] at hb
    obtain ⟨inner, h1, h2⟩ := h.listed it b hb.1
    exact ⟨inner, mem_assocErase.mpr ⟨hb.2, h1⟩, h2⟩
  · intro n hn
    exact h.aligned n (List.mem_filter.mp hn).1

theorem BlockCache.WF.sync {c c1 : BlockCache} (h : c.WF) {w w1 : World} {fd : Int}
    (hs : c.sync w fd = some (c1, w1)) : c1.WF := by
  obtain ⟨w2, h2⟩ := h.sync_eq w fd
  rw [h2] at hs
  simp only [Option.some.injEq, Prod.mk.injEq] at hs
  rw [← hs.1]
  exact h.dropFd fd

/-! ## The paths of `read` and `write` -/

theorem read_of_hit {c : BlockCache} (w : World) {fd : Int} (count : Nat) {offset it : Nat}
    {blk : CacheBlock} (hf : findIter c.cacheMap fd (offset / PAGE_SIZE * PAGE_SIZE) = some it)
    (hd : deref c.cache it = some blk) :
    c.read w fd count offset =
      if offset % PAGE_SIZE + count ≤ PAGE_SIZE then
        some (true, copyOut blk.data (offset % PAGE_SIZE) count, c, w)
      else none := by
  simp only [BlockCache.read, hf, hd, sub_aligned]

theorem read_of_dangling {c : BlockCache} (w : World) {fd : Int} (count : Nat) {offset it : Nat}
    (hf : findIter c.cacheMap fd (offset / PAGE_SIZE * PAGE_SIZE) = some it)
    (hd : deref c.cache it = none) : c.read w fd count offset = none := by
  simp only [BlockCache.read, hf, hd]

theorem read_of_miss {c : BlockCache} (w : World) {fd : Int} (count : Nat) {offset : Nat}
    (hf : findIter c.cacheMap fd (offset / PAGE_SIZE * PAGE_SIZE) = none) :
    c.read w fd count offset = c.readMiss w fd count offset := by
  simp only [BlockCache.read, hf]

theorem readMiss_of_fail {c : BlockCache} {w : World} {fd : Int} (count : Nat) {offset : Nat}
    (hr : ReadFile (SetFilePointerEx w fd ((offset / PAGE_SIZE * PAGE_SIZE : Nat) : Int)
      FILE_BEGIN).2 fd c.alignedBuffer PAGE_SIZE = none) :
    c.readMiss w fd count offset = some (false, [], c,
      (SetFilePointerEx w fd ((offset / PAGE_SIZE * PAGE_SIZE : Nat) : Int) FILE_BEGIN).2) := by
  simp only [BlockCache.readMiss, hr]

theorem readMiss_of_ok {c : BlockCache} {w : World} {fd : Int} (count : Nat) {offset : Nat}
    {n : Nat} {scratch : Buffer} {w2 : World}
    (hr : ReadFile (SetFilePointerEx w fd ((offset / PAGE_SIZE * PAGE_SIZE : Nat) : Int)
      FILE_BEGIN).2 fd c.alignedBuffer PAGE_SIZE = some (n, scratch, w2)) :
    c.readMiss w fd count offset =
      if offset % PAGE_SIZE + count ≤ PAGE_SIZE then
        some (true, copyOut scratch (offset % PAGE_SIZE) count,
          (({ c with alignedBuffer := scratch } : BlockCache).insertBlock w2 fd
            (offset / PAGE_SIZE * PAGE_SIZE) false).1,
          (({ c with alignedBuffer := scratch } : BlockCache).insertBlock w2 fd
            (offset / PAGE_SIZE * PAGE_SIZE) false).2)
      else none := by
  simp only [BlockCache.readMiss, hr, sub_aligned]

theorem write_of_hit {c : BlockCache} (w : World) {fd : Int} (buf : List Byte) (count : Nat)
    {offset it : Nat} {blk : CacheBlock}
    (hf : findIter c.cacheMap fd (offset / PAGE_SIZE * PAGE_SIZE) = some it)
    (hd : deref c.cache it = some blk) :
    c.write w fd buf count offset =
      if offset % PAGE_SIZE + count ≤ PAGE_SIZE ∧ count ≤ buf.length then
        some (true, { c with cache := c.cache.map (fun n =>
          if n.1 = it then (n.1, n.2.store (offset % PAGE_SIZE) buf count) else n) }, w)
      else none := by
  simp only [BlockCache.write, hf, hd, sub_aligned]

theorem write_of_dangling {c : BlockCache} (w : World) {fd : Int} (buf : List Byte)
    (count : Nat) {offset it : Nat}
    (hf : findIter c.cacheMap fd (offset / PAGE_SIZE * PAGE_SIZE) = some it)
    (hd : deref c.cache it = none) : c.write w fd buf count offset = none := by
  simp only [BlockCache.write, hf, hd]

theorem write_of_miss {c : BlockCache} (w : World) {fd : Int} (buf : List Byte) (count : Nat)
    {offset : Nat} (hf : findIter c.cacheMap fd (offset / PAGE_SIZE * PAGE_SIZE) = none) :
    c.write w fd buf count offset = c.writeMiss w fd buf count offset := by
  simp only [BlockCache.write, hf]

theorem writeMiss_of_fail {c : BlockCache} {w : World} {fd : Int} (buf : List Byte)
    (count : Nat) {offset : Nat}
    (hr : ReadFile (SetFilePointerEx w fd ((offset / PAGE_SIZE * PAGE_SIZE : Nat) : Int)
      FILE_BEGIN).2 fd c.alignedBuffer PAGE_SIZE = none) :
    c.writeMiss w fd buf count offset = some (false, c,
      (SetFilePointerEx w fd ((offset / PAGE_SIZE * PAGE_SIZE : Nat) : Int) FILE_BEGIN).2) := by
  simp only [BlockCache.writeMiss, hr]

theorem writeMiss_of_ok {c : BlockCache} {w : World} {fd : Int} (buf : List Byte)
    (count : Nat) {offset : Nat} {n : Nat} {scratch : Buffer} {w2 : World}
    (hr : ReadFile (SetFilePointerEx w fd ((offset / PAGE_SIZE * PAGE_SIZE : Nat) : Int)
      FILE_BEGIN).2 fd c.alignedBuffer PAGE_SIZE = some (n, scratch, w2)) :
    c.writeMiss w fd buf count offset =
      if offset % PAGE_SIZE + count ≤ PAGE_SIZE ∧ count ≤ buf.length then
        some (true,
          (({ c with alignedBuffer := copyIn scratch (offset % PAGE_SIZE) buf count } :
            BlockCache).insertBlock w2 fd (offset / PAGE_SIZE * PAGE_SIZE) true).1,
          (({ c with alignedBuffer := copyIn scratch (offset % PAGE_SIZE) buf count } :
            BlockCache).insertBlock w2 fd (offset / PAGE_SIZE * PAGE_SIZE) true).2)
      else none := by
  simp only [BlockCache.writeMiss, hr, sub_aligned]

/-! ## Every reachable state is consistent -/

theorem BlockCache.WF.read {c c1 : BlockCache} (h : c.WF) {w w1 : World} {fd : Int}
    {count offset : Nat} {r : Bool} {out : List Byte}
    (hr : c.read w fd count offset = some (r, out, c1, w1)) : c1.WF := by
  cases hf : findIter c.cacheMap fd (offset / PAGE_SIZE * PAGE_SIZE) with
  | some it =>
    cases hd : deref c.cache it with
    | none => rw [read_of_dangling w count hf hd] at hr; simp at hr
    | some blk =>
      rw [read_of_hit w count hf hd] at hr
      split at hr
      · simp only [Option.some.injEq, Prod.mk.injEq] at hr
        rw [← hr.2.2.1]; exact h
      · simp at hr
  | none =>
    rw [read_of_miss w count hf] at hr
    cases hrf : ReadFile (SetFilePointerEx w fd ((offset / PAGE_SIZE * PAGE_SIZE : Nat) : Int)
      FILE_BEGIN).2 fd c.alignedBuffer PAGE_SIZE with
    | none =>
      rw [readMiss_of_fail count hrf] at hr
      simp only [Option.some.injEq, Prod.mk.injEq] at hr
      rw [← hr.2.2.1]; exact h
    | some x =>
      obtain ⟨n, scratch, w2⟩ := x
      rw [readMiss_of_ok count hrf] at hr
      split at hr
      · simp only [Option.some.injEq, Prod.mk.injEq] at hr
        rw [← hr.2.2.1]
        have h1 : ({ c with alignedBuffer := scratch } : BlockCache).WF := h.of_same_blocks rfl rfl
        exact h1.insertBlock _ hf (aligned_mod offset) false
      · simp at hr

theorem BlockCache.WF.write {c c1 : BlockCache} (h : c.WF) {w w1 : World} {fd : Int}
    {buf : List Byte} {count offset : Nat} {r : Bool}
    (hr : c.write w fd buf count offset = some (r, c1, w1)) : c1.WF := by
  cases hf : findIter c.cacheMap fd (offset / PAGE_SIZE * PAGE_SIZE) with
  | some it =>
    cases hd : deref c.cache it with
    | none => rw [write_of_dangling w buf count hf hd] at hr; simp at hr
    | some blk =>
      rw [write_of_hit w buf count hf hd] at hr
      split at hr
      · simp only [Option.some.injEq, Prod.mk.injEq] at hr
        rw [← hr.2.1]; exact h.store _ _ _ _
      · simp at hr
  | none =>
    rw [write_of_miss w buf count hf] at hr
    cases hrf : ReadFile (SetFilePointerEx w fd ((offset / PAGE_SIZE * PAGE_SIZE : Nat) : Int)
      FILE_BEGIN).2 fd c.alignedBuffer PAGE_SIZE with
    | none =>
      rw [writeMiss_of_fail buf count hrf] at hr
      simp only [Option.some.injEq, Prod.mk.injEq] at hr
      rw [← hr.2.1]; exact h
    | some x =>
      obtain ⟨n, scratch, w2⟩ := x
      rw [writeMiss_of_ok buf count hrf] at hr
      split at hr
      · simp only [Option.some.injEq, Prod.mk.injEq] at hr
        rw [← hr.2.1]
        have h1 : ({ c with alignedBuffer := copyIn scratch (offset % PAGE_SIZE) buf count } :
          BlockCache).WF := h.of_same_blocks rfl rfl
        exact h1.insertBlock _ hf (aligned_mod offset) true
      · simp at hr

theorem BlockCache.WF.event {c c1 : BlockCache} (h : c.WF) {w w1 : World} {e : Event}
    (hr : e.run c w = some (c1, w1)) : c1.WF := by
  cases e with
  | read fd count offset =>
    simp only [Event.run, Option.map_eq_some'] at hr
    obtain ⟨⟨r, out, c2, w2⟩, h1, h2⟩ := hr
    simp only [Prod.mk.injEq] at h2
    rw [← h2.1]
    exact h.read h1
  | write fd buf count offset =>
    simp only [Event.run, Option.map_eq_some'] at hr
    obtain ⟨⟨r, c2, w2⟩, h1, h2⟩ := hr
    simp only [Prod.mk.injEq] at h2
    rw [← h2.1]
    exact h.write h1
  | sync fd => exact h.sync hr
  | close fd => exact h.sync hr
  | environment w2 =>
    simp only [Event.run, Option.some.injEq, Prod.mk.injEq] at hr
    rw [← hr.1]; exact h

theorem BlockCache.WF.runEvents {es : List Event} {c c1 : BlockCache} (h : c.WF) {w w1 : World}
    (hr : runEvents es c w = some (c1, w1)) : c1.WF := by
  induction es generalizing c w with
  | nil =>
    simp only [PageCache.runEvents, Option.some.injEq, Prod.mk.injEq] at hr
    rw [← hr.1]; exact h
  | cons e es ih =>
    simp only [PageCache.runEvents] at hr
    cases he : e.run c w with
    | none => rw [he] at hr; simp at hr
    | some r =>
      obtain ⟨c2, w2⟩ := r
      rw [he] at hr
      exact ih (h.event he) hr

theorem Reachable.wf {cacheSize : Nat} {c : BlockCache} {w : World}
    (h : Reachable cacheSize c w) : c.WF := by
  obtain ⟨scratch, w0, es, hr⟩ := h
  exact (WF_init cacheSize scratch).runEvents hr

/-! ## Insertion of a block -/

theorem insertBlock_of_room {c : BlockCache} (w : World) (fd : Int) (a : Nat) (d : Bool)
    (h : ¬ c.cacheSize ≤ c.cache.length) :
    c.insertBlock w fd a d =
      ({ c with cache := (freshNode c.cache,
                  { data := c.alignedBuffer, fd := fd, offset := a, dirty := d }) :: c.cache
                cacheMap := setIter c.cacheMap fd a (freshNode c.cache) }, w) := by
  simp only [BlockCache.insertBlock, h, if_false]

theorem insertBlock_of_full {c : BlockCache} (w : World) (fd : Int) (a : Nat) (d : Bool)
    (h : c.cacheSize ≤ c.cache.length) {v : Node} (hm : minElement c.cache = some v) :
    c.insertBlock w fd a d =
      ({ c with cache := (freshNode (eraseNode c.cache v.1),
                  { data := c.alignedBuffer, fd := fd, offset := a, dirty := d }) ::
                  eraseNode c.cache v.1
                cacheMap := setIter (eraseIter c.cacheMap v.2.fd v.2.offset) fd a
                  (freshNode (eraseNode c.cache v.1)) },
        if v.2.dirty = true then writeBlockToDisk w v.2 else w) := by
  simp only [BlockCache.insertBlock, h, if_true, evict_of_min w hm]

theorem insertBlock_cacheSize (c : BlockCache) (w : World) (fd : Int) (a : Nat) (d : Bool) :
    (c.insertBlock w fd a d).1.cacheSize = c.cacheSize := by
  unfold BlockCache.insertBlock
  split
  · exact evict_cacheSize c w
  · rfl

theorem insertBlock_head (c : BlockCache) (w : World) (fd : Int) (a : Nat) (d : Bool) :
    ∃ it rest m, (c.insertBlock w fd a d).1.cache =
        (it, { data := c.alignedBuffer, fd := fd, offset := a, dirty := d }) :: rest ∧
      (c.insertBlock w fd a d).1.cacheMap = setIter m fd a it := by
  simp only [BlockCache.insertBlock]
  split
  · exact ⟨_, _, _, by rw [evict_alignedBuffer], rfl⟩
  · exact ⟨_, _, _, rfl, rfl⟩

theorem findIter_setIter_self (m : List (Int × OffsetMap)) (fd : Int) (a it : Nat) :
    findIter (setIter m fd a it) fd a = some it := by
  simp [findIter, setIter, assocFind_assocSet_self]

theorem copyOut_copyIn (d : Buffer) (k : Nat) (b : List Byte) :
    copyOut (copyIn d k b b.length) k b.length = b := by
  apply List.ext_getElem
  · simp [copyOut]
  · intro i h1 h2
    simp [copyOut] at h1
    simp [copyOut, copyIn, h1, List.getD_eq_getElem?_getD, List.getElem?_eq_getElem h2]

theorem deref_map_update (l : List Node) (it : Nat) (g : CacheBlock → CacheBlock) :
    deref (l.map (fun n => if n.1 = it then (n.1, g n.2) else n)) it = (deref l it).map g := by
  induction l with
  | nil => simp [deref, assocFind]
  | cons x t ih =>
    obtain ⟨i, b⟩ := x
    simp only [deref] at ih
    by_cases h : i = it
    · subst h
      simp [deref, assocFind_cons]
    · simp [deref, assocFind_cons, h, ih]

/-! ## C1: read after write -/

/-- C1 (read-after-write).  If `BlockCache::write(fd, b, count, offset)` with `b`
of length `count > 0` and `(offset mod 4096) + count <= 4096` succeeds, then the
`BlockCache::read(fd, count, offset)` that follows succeeds and returns exactly
`b` (it is a hit: the state does not change). -/
theorem read_after_write (c : BlockCache) (w : World) (fd : Int) (b : List Byte)
    (count offset : Nat) (c1 : BlockCache) (w1 : World)
    (hlen : b.length = count) (hpos : 0 < count)
    (hin : offset % PAGE_SIZE + count ≤ PAGE_SIZE)
    (hw : c.write w fd b count offset = some (true, c1, w1)) :
    c1.read w1 fd count offset = some (true, b, c1, w1) := by
  subst hlen
  cases hf : findIter c.cacheMap fd (offset / PAGE_SIZE * PAGE_SIZE) with
  | some it =>
    cases hd : deref c.cache it with
    | none => rw [write_of_dangling w b _ hf hd] at hw; simp at hw
    | some blk =>
      rw [write_of_hit w b _ hf hd] at hw
      simp only [hin, le_refl, and_self, if_true, Option.some.injEq, Prod.mk.injEq,
        true_and] at hw
      obtain ⟨hc, hw1⟩ := hw
      subst hc hw1
      have h3 := deref_map_update c.cache it (fun n2 => n2.store (offset % PAGE_SIZE) b b.length)
      rw [hd, Option.map_some'] at h3
      rw [read_of_hit (c := { c with cache := c.cache.map (fun n =>
        if n.1 = it then (n.1, n.2.store (offset % PAGE_SIZE) b b.length) else n) })
        w _ hf h3, if_pos hin]
      simp only [CacheBlock.store, copyOut_copyIn]
  | none =>
    rw [write_of_miss w b _ hf] at hw
    cases hrf : ReadFile (SetFilePointerEx w fd ((offset / PAGE_SIZE * PAGE_SIZE : Nat) : Int)
      FILE_BEGIN).2 fd c.alignedBuffer PAGE_SIZE with
    | none => rw [writeMiss_of_fail b _ hrf] at hw; simp at hw
    | some x =>
      obtain ⟨n, scratch, w2⟩ := x
      rw [writeMiss_of_ok b _ hrf] at hw
      simp only [hin, le_refl, and_self, if_true, Option.some.injEq, Prod.mk.injEq,
        true_and] at hw
      obtain ⟨hc, hw1⟩ := hw
      obtain ⟨it, rest, m, h1, h2⟩ := insertBlock_head
        { c with alignedBuffer := copyIn scratch (offset % PAGE_SIZE) b b.length } w2 fd
        (offset / PAGE_SIZE * PAGE_SIZE) true
      rw [hc] at h1 h2
      have hf1 : findIter c1.cacheMap fd (offset / PAGE_SIZE * PAGE_SIZE) = some it := by
        rw [h2]; exact findIter_setIter_self _ _ _ _
      have hd1 : deref c1.cache it = some
          { data := copyIn scratch (offset % PAGE_SIZE) b b.length, fd := fd,
            offset := offset / PAGE_SIZE * PAGE_SIZE, dirty := true } := by
        rw [h1]; simp [deref, assocFind_cons]
      rw [read_of_hit w1 _ hf1 hd1, if_pos hin]
      simp only [copyOut_copyIn]

/-- Witness of C1: one byte written at offset 5 of descriptor 3 into a fresh
cache is read back. -/
theorem read_after_write_witness :
    (exRun 2 [.write 3 [9] 1 5]).1.read (exRun 2 [.write 3 [9] 1 5]).2 3 1 5 =
      some (true, [9], (exRun 2 [.write 3 [9] 1 5]).1, (exRun 2 [.write 3 [9] 1 5]).2) :=
  read_after_write (BlockCache.init 2 (fun _ => 0)) exWorld 3 [9] 1 5 _ _ rfl (by decide)
    (by decide) rfl

/-! ## C7 and C8: key uniqueness and index consistency -/

theorem BlockCache.WF.keysUnique {c : BlockCache} (h : c.WF) : KeysUnique c := by
  unfold KeysUnique
  apply List.Nodup.map_on _ (List.Nodup.of_map _ h.nodupNodes)
  rintro ⟨i1, b1⟩ h1 ⟨i2, b2⟩ h2 e
  simp only [Prod.mk.injEq] at e
  obtain ⟨in1, h11, h12⟩ := h.listed _ _ h1
  obtain ⟨in2, h21, h22⟩ := h.listed _ _ h2
  rw [e.1] at h11
  have := assoc_unique h.nodupFds h11 h21
  subst this
  rw [e.2] at h12
  have := assoc_unique (h.nodupOffsets _ h21) h12 h22
  subst this
  have := assoc_unique h.nodupNodes h1 h2
  subst this
  rfl

theorem BlockCache.WF.indexConsistent {c : BlockCache} (h : c.WF) : IndexConsistent c := by
  constructor
  · intro fd off it hf
    obtain ⟨inner, hi, ho⟩ := (findIter_iff h.nodupFds h.nodupOffsets).mp hf
    obtain ⟨b, hb1, hb2, hb3⟩ := h.indexed _ _ _ _ hi ho
    exact ⟨b, (deref_iff h.nodupNodes).mpr hb1, hb1, hb2, hb3⟩
  · intro n hn
    obtain ⟨inner, hi, ho⟩ := h.listed n.1 n.2 hn
    exact (findIter_iff h.nodupFds h.nodupOffsets).mpr ⟨inner, hi, ho⟩

theorem BlockCache.WF.resident {c : BlockCache} (h : c.WF) {fd : Int} {a it : Nat}
    (hf : findIter c.cacheMap fd a = some it) :
    ∃ b, deref c.cache it = some b ∧ (it, b) ∈ c.cache ∧ b.fd = fd ∧ b.offset = a :=
  h.indexConsistent.1 _ _ _ hf

theorem BlockCache.WF.not_resident {c : BlockCache} (h : c.WF) {fd : Int} {a : Nat}
    (hmiss : findIter c.cacheMap fd a = none) :
    ∀ n ∈ c.cache, n.2.fd = fd → n.2.offset ≠ a := by
  intro n hn hfd e
  have := h.indexConsistent.2 n hn
  rw [hfd, e, hmiss] at this
  cases this

theorem BlockCache.WF.same_key {c : BlockCache} (h : c.WF) {n m : Node} (hn : n ∈ c.cache)
    (hm : m ∈ c.cache) (hfd : n.2.fd = m.2.fd) (hoff : n.2.offset = m.2.offset) : n = m := by
  have h1 := h.indexConsistent.2 n hn
  have h2 := h.indexConsistent.2 m hm
  rw [hfd, hoff, h2] at h1
  have e : m.1 = n.1 := Option.some.inj h1
  have := assoc_unique h.nodupNodes (show (n.1, n.2) ∈ c.cache from hn)
    (show (n.1, m.2) ∈ c.cache by rw [← e]; exact hm)
  exact Prod.ext e.symm this

/-- C7 (key uniqueness).  In every state reachable from the empty cache by read,
write, sync and close calls (with the environment doing anything in between) no
two resident blocks have the same (descriptor, aligned offset) pair. -/
theorem key_uniqueness (cacheSize : Nat) (c : BlockCache) (w : World)
    (h : Reachable cacheSize c w) : KeysUnique c :=
  h.wf.keysUnique

/-- Witness of C7: the state after writes to three blocks of two descriptors
through a cache of capacity 2. -/
theorem key_uniqueness_witness :
    KeysUnique (exRun 2 [.write 3 [1] 1 0, .write 4 [2] 1 0, .write 3 [3] 1 4096]).1 :=
  key_uniqueness 2 _ (exRun 2 [.write 3 [1] 1 0, .write 4 [2] 1 0, .write 3 [3] 1 4096]).2
    ⟨fun _ => 0, exWorld, [.write 3 [1] 1 0, .write 4 [2] 1 0, .write 3 [3] 1 4096], rfl⟩

/-- C8 (index/list consistency).  In every reachable state `cacheMap` and
`cache` describe the same blocks: what the index finds under `(fd, offset)` is a
node of the list tagged `fd` and `offset`, and every node of the list is found
in the index under its own tag. -/
theorem index_consistency (cacheSize : Nat) (c : BlockCache) (w : World)
    (h : Reachable cacheSize c w) : IndexConsistent c :=
  h.wf.indexConsistent

/-- Witness of C8: a state reached through an eviction and a sync. -/
theorem index_consistency_witness :
    IndexConsistent
      (exRun 2 [.write 3 [1] 1 0, .write 4 [2] 1 0, .write 3 [3] 1 4096, .sync 4]).1 :=
  index_consistency 2 _
    (exRun 2 [.write 3 [1] 1 0, .write 4 [2] 1 0, .write 3 [3] 1 4096, .sync 4]).2
    ⟨fun _ => 0, exWorld, [.write 3 [1] 1 0, .write 4 [2] 1 0, .write 3 [3] 1 4096, .sync 4], rfl⟩

/-! ## C5: sync drains the descriptor -/

/-- C5 (sync drains the descriptor).  In every reachable state `sync(fd)` is
defined, leaves no resident block owned by `fd` (hence no dirty block of `fd`)
and no index entry of `fd`, and every following read on `fd`, at any offset and
in any state of the world, runs the miss path, which reads the block from
storage. -/
theorem sync_drains (cacheSize : Nat) (c : BlockCache) (w : World) (fd : Int)
    (h : Reachable cacheSize c w) :
    ∃ c1 w1, c.sync w fd = some (c1, w1) ∧
      (∀ n ∈ c1.cache, n.2.fd ≠ fd) ∧
      (∀ off, findIter c1.cacheMap fd off = none) ∧
      ∀ (w2 : World) (count offset : Nat),
        c1.read w2 fd count offset = c1.readMiss w2 fd count offset := by
  obtain ⟨w1, hs⟩ := h.wf.sync_eq w fd
  refine ⟨_, w1, hs, ?_, ?_, ?_⟩
  · intro n hn
    simp only [List.mem_filter, ne_eq, decide_eq_true_eq] at hn
    exact hn.2
  · intro off
    simp only [findIter, assocFind_assocErase_self]
  · intro w2 count offset
    apply read_of_miss
    simp only [findIter, assocFind_assocErase_self]

/-- Witness of C5: syncing descriptor 3 after two writes to it. -/
theorem sync_drains_witness :
    ∃ c1 w1, (exRun 2 [.write 3 [1] 1 0, .write 3 [3] 1 4096]).1.sync
        (exRun 2 [.write 3 [1] 1 0, .write 3 [3] 1 4096]).2 3 = some (c1, w1) ∧
      (∀ n ∈ c1.cache, n.2.fd ≠ 3) ∧
      (∀ off, findIter c1.cacheMap 3 off = none) ∧
      ∀ (w2 : World) (count offset : Nat),
        c1.read w2 3 count offset = c1.readMiss w2 3 count offset :=
  sync_drains 2 _ _ 3 ⟨fun _ => 0, exWorld, [.write 3 [1] 1 0, .write 3 [3] 1 4096], rfl⟩

/-! ## C6: the capacity bound -/

theorem length_eraseNode_lt {l : List Node} {v : Node} (hv : v ∈ l) :
    (eraseNode l v.1).length < l.length := by
  unfold eraseNode
  rw [List.length_filter_lt_length_iff_exists]
  exact ⟨v, hv, by simp⟩

theorem insertBlock_length (c : BlockCache) (w : World) (fd : Int) (a : Nat) (d : Bool) :
    (c.insertBlock w fd a d).1.cache.length ≤ max c.cache.length (if c.cacheSize ≤ c.cache.length then 1 else c.cache.length + 1) := by
  by_cases h : c.cacheSize ≤ c.cache.length
  · rw [if_pos h]
    cases hm : minElement c.cache with
    | none =>
      have hnil := minElement_eq_none.mp hm
      have hl : c.cache.length = 0 := by rw [hnil]; rfl
      simp only [BlockCache.insertBlock, evict_of_nil w hnil, ite_self, List.length_cons]
      omega
    | some v =>
      rw [insertBlock_of_full w fd a d h hm]
      have := length_eraseNode_lt (minElement_spec hm).1
      simp only [List.length_cons]
      omega
  · rw [if_neg h, insertBlock_of_room w fd a d h]
    simp only [List.length_cons]
    omega

/-- The bound every event preserves: at most `max cacheSize 1` blocks. -/
theorem event_bound {e : Event} {c c1 : BlockCache} {w w1 : World}
    (hr : e.run c w = some (c1, w1)) (hb : c.cache.length ≤ max c.cacheSize 1) :
    c1.cacheSize = c.cacheSize ∧ c1.cache.length ≤ max c.cacheSize 1 := by
  have hins : ∀ (c0 : BlockCache) (w0 : World) (fd : Int) (a : Nat) (d : Bool),
      c0.cacheSize = c.cacheSize → c0.cache = c.cache →
      (c0.insertBlock w0 fd a d).1.cacheSize = c.cacheSize ∧
      (c0.insertBlock w0 fd a d).1.cache.length ≤ max c.cacheSize 1 := by
    intro c0 w0 fd a d h1 h2
    refine ⟨by rw [insertBlock_cacheSize, h1], ?_⟩
    have := insertBlock_length c0 w0 fd a d
    rw [h1, h2] at this
    split at this <;> omega
  cases e with
  | read fd count offset =>
    simp only [Event.run, Option.map_eq_some'] at hr
    obtain ⟨⟨r, out, c2, w2⟩, h1, h2⟩ := hr
    simp only [Prod.mk.injEq] at h2
    rw [← h2.1]
    clear h2
    cases hf : findIter c.cacheMap fd (offset / PAGE_SIZE * PAGE_SIZE) with
    | some it =>
      cases hd : deref c.cache it with
      | none => rw [read_of_dangling w count hf hd] at h1; simp at h1
      | some blk =>
        rw [read_of_hit w count hf hd] at h1
        split at h1
        · simp only [Option.some.injEq, Prod.mk.injEq] at h1
          rw [← h1.2.2.1]; exact ⟨rfl, hb⟩
        · simp at h1
    | none =>
      rw [read_of_miss w count hf] at h1
      cases hrf : ReadFile (SetFilePointerEx w fd ((offset / PAGE_SIZE * PAGE_SIZE : Nat) : Int)
        FILE_BEGIN).2 fd c.alignedBuffer PAGE_SIZE with
      | none =>
        rw [readMiss_of_fail count hrf] at h1
        simp only [Option.some.injEq, Prod.mk.injEq] at h1
        rw [← h1.2.2.1]; exact ⟨rfl, hb⟩
      | some x =>
        obtain ⟨n, scratch, w3⟩ := x
        rw [readMiss_of_ok count hrf] at h1
        split at h1
        · simp only [Option.some.injEq, Prod.mk.injEq] at h1
          rw [← h1.2.2.1]
          exact hins _ _ _ _ _ rfl rfl
        · simp at h1
  | write fd buf count offset =>
    simp only [Event.run, Option.map_eq_some'] at hr
    obtain ⟨⟨r, c2, w2⟩, h1, h2⟩ := hr
    simp only [Prod.mk.injEq] at h2
    rw [← h2.1]
    clear h2
    cases hf : findIter c.cacheMap fd (offset / PAGE_SIZE * PAGE_SIZE) with
    | some it =>
      cases hd : deref c.cache it with
      | none => rw [write_of_dangling w buf count hf hd] at h1; simp at h1
      | some blk =>
        rw [write_of_hit w buf count hf hd] at h1
        split at h1
        · simp only [Option.some.injEq, Prod.mk.injEq] at h1
          rw [← h1.2.1]
          exact ⟨rfl, by simpa using hb⟩
        · simp at h1
    | none =>
      rw [write_of_miss w buf count hf] at h1
      cases hrf : ReadFile (SetFilePointerEx w fd ((offset / PAGE_SIZE * PAGE_SIZE : Nat) : Int)
        FILE_BEGIN).2 fd c.alignedBuffer PAGE_SIZE with
      | none =>
        rw [writeMiss_of_fail buf count hrf] at h1
        simp only [Option.some.injEq, Prod.mk.injEq] at h1
        rw [← h1.2.1]; exact ⟨rfl, hb⟩
      | some x =>
        obtain ⟨n, scratch, w3⟩ := x
        rw [writeMiss_of_ok buf count hrf] at h1
        split at h1
        · simp only [Option.some.injEq, Prod.mk.injEq] at h1
          rw [← h1.2.1]
          exact hins _ _ _ _ _ rfl rfl
        · simp at h1
  | sync fd =>
    have hs : ∀ {c1 : BlockCache} {w1 : World}, c.sync w fd = some (c1, w1) →
        c1.cacheSize = c.cacheSize ∧ c1.cache.length ≤ max c.cacheSize 1 := by
      intro c1 w1 hs
      unfold BlockCache.sync at hs
      split at hs
      · simp only [Option.some.injEq, Prod.mk.injEq] at hs
        rw [← hs.1]; exact ⟨rfl, hb⟩
      · split at hs
        · simp at hs
        · rename_i l w2 hl
          simp only [Option.some.injEq, Prod.mk.injEq] at hs
          rw [← hs.1]
          refine ⟨rfl, ?_⟩
          simp only
          rw [syncLoop_cache hl]
          exact le_trans (List.length_filter_le _ _) hb
    exact hs hr
  | close fd =>
    have hs : ∀ {c1 : BlockCache} {w1 : World}, c.sync w fd = some (c1, w1) →
        c1.cacheSize = c.cacheSize ∧ c1.cache.length ≤ max c.cacheSize 1 := by
      intro c1 w1 hs
      unfold BlockCache.sync at hs
      split at hs
      · simp only [Option.some.injEq, Prod.mk.injEq] at hs
        rw [← hs.1]; exact ⟨rfl, hb⟩
      · split at hs
        · simp at hs
        · rename_i l w2 hl
          simp only [Option.some.injEq, Prod.mk.injEq] at hs
          rw [← hs.1]
          refine ⟨rfl, ?_⟩
          simp only
          rw [syncLoop_cache hl]
          exact le_trans (List.length_filter_le _ _) hb
    exact hs hr
  | environment w2 =>
    simp only [Event.run, Option.some.injEq, Prod.mk.injEq] at hr
    rw [← hr.1]; exact ⟨rfl, hb⟩

theorem runEvents_bound {es : List Event} {c c1 : BlockCache} {w w1 : World}
    (hr : runEvents es c w = some (c1, w1)) (hb : c.cache.length ≤ max c.cacheSize 1) :
    c1.cacheSize = c.cacheSize ∧ c1.cache.length ≤ max c.cacheSize 1 := by
  induction es generalizing c w with
  | nil =>
    simp only [runEvents, Option.some.injEq, Prod.mk.injEq] at hr
    rw [← hr.1]; exact ⟨rfl, hb⟩
  | cons e es ih =>
    simp only [runEvents] at hr
    cases he : e.run c w with
    | none => rw [he] at hr; simp at hr
    | some r =>
      obtain ⟨c2, w2⟩ := r
      rw [he] at hr
      obtain ⟨h1, h2⟩ := event_bound he hb
      rw [← h1] at h2
      obtain ⟨h3, h4⟩ := ih hr h2
      rw [h1] at h3 h4
      exact ⟨h3, h4⟩

theorem Reachable.bound {cacheSize : Nat} {c : BlockCache} {w : World}
    (h : Reachable cacheSize c w) : c.cacheSize = cacheSize ∧ c.cache.length ≤ max cacheSize 1 := by
  obtain ⟨scratch, w0, es, hr⟩ := h
  exact runEvents_bound hr (by simp [BlockCache.init])

/-- C6 as stated fails for capacity 0: `evict` finds nothing to remove in an
empty list and the miss inserts its block all the same, so one read leaves one
resident block in a cache of capacity 0. -/
theorem capacity_bound_fails_for_zero :
    Reachable 0 (exRun 0 [.read 3 1 0]).1 (exRun 0 [.read 3 1 0]).2 ∧
      ¬ ((exRun 0 [.read 3 1 0]).1.cache.length ≤ 0) :=
  ⟨⟨fun _ => 0, exWorld, [.read 3 1 0], rfl⟩, by decide⟩

/-- C6, amended (capacity bound).  For every capacity `N >= 1` and every
sequence of read, write, sync and close calls from the empty cache (with the
environment doing anything in between), the number of resident blocks is at most
`N` after every call. -/
theorem capacity_bound (cacheSize : Nat) (c : BlockCache) (w : World)
    (hN : 1 ≤ cacheSize) (h : Reachable cacheSize c w) : c.cache.length ≤ cacheSize := by
  have := h.bound.2
  omega

/-- Witness of the amended C6: three blocks written through a cache of
capacity 2. -/
theorem capacity_bound_witness :
    (exRun 2 [.write 3 [1] 1 0, .write 3 [2] 1 4096, .write 3 [3] 1 8192]).1.cache.length ≤ 2 :=
  capacity_bound 2 _ (exRun 2 [.write 3 [1] 1 0, .write 3 [2] 1 4096, .write 3 [3] 1 8192]).2
    (by decide)
    ⟨fun _ => 0, exWorld, [.write 3 [1] 1 0, .write 3 [2] 1 4096, .write 3 [3] 1 8192], rfl⟩

/-! ## C3: the eviction victim -/

theorem eraseNode_append_cons {l1 l2 : List Node} {v : Node}
    (hnd : ((l1 ++ v :: l2).map Prod.fst).Nodup) : eraseNode (l1 ++ v :: l2) v.1 = l1 ++ l2 := by
  rw [List.map_append, List.map_cons] at hnd
  have h1 : ∀ n ∈ l1, n.1 ≠ v.1 := by
    intro n hn e
    have := (List.nodup_append.mp hnd).2.2
    exact this (List.mem_map.mpr ⟨n, hn, rfl⟩) (by rw [e]; exact List.mem_cons_self _ _)
  have h2 : ∀ n ∈ l2, n.1 ≠ v.1 := by
    intro n hn e
    have := (List.nodup_cons.mp (List.nodup_append.mp hnd).2.1).1
    exact this (by rw [← e]; exact List.mem_map.mpr ⟨n, hn, rfl⟩)
  unfold eraseNode
  rw [List.filter_append, List.filter_cons]
  simp only [ne_eq, not_true_eq_false, decide_False, Bool.false_eq_true, if_false]
  rw [List.filter_eq_self.mpr, List.filter_eq_self.mpr]
  · intro n hn; simpa using h2 n hn
  · intro n hn; simpa using h1 n hn

theorem insertBlock_evictsMin {c : BlockCache} (h : c.WF) (w : World) {fd : Int} {a : Nat}
    (d : Bool) (hcap : 1 ≤ c.cacheSize) (hfull : c.cache.length = c.cacheSize)
    (hmiss : findIter c.cacheMap fd a = none) :
    EvictsMin c.cache (c.insertBlock w fd a d).1.cache := by
  cases hm : minElement c.cache with
  | none =>
    have := minElement_eq_none.mp hm
    rw [this] at hfull
    simp at hfull
    omega
  | some v =>
    rw [insertBlock_of_full w fd a d (by omega) hm]
    obtain ⟨hv, hmin⟩ := minElement_spec hm
    obtain ⟨l1, l2, hl⟩ := List.append_of_mem hv
    have hnd := h.nodupNodes
    rw [hl] at hnd
    refine ⟨l1, v, l2, (freshNode (eraseNode c.cache v.1),
      { data := c.alignedBuffer, fd := fd, offset := a, dirty := d }), hl, ?_, ?_, hmin⟩
    · simp only
      rw [hl, eraseNode_append_cons hnd]
    · intro m hm2 htag
      simp only at hm2
      rcases List.mem_cons.mp hm2 with e | hm3
      · subst e
        simp only at htag
        exact h.not_resident hmiss v hv htag.1.symm htag.2.symm
      · obtain ⟨hm4, hne⟩ := mem_eraseNode.mp hm3
        apply hne
        rw [h.same_key hm4 hv htag.1 htag.2]

/-- C3 as stated fails for a miss whose physical read fails.  The cache of
capacity 1 holds one block (of descriptor 3); descriptor 5 is no open handle, so
a read on it misses, `ReadFile` fails, and `read` returns false before `evict` is
called: the cache is the same as before, its one block is still resident. -/
theorem eviction_skipped_on_failed_read :
    Reachable 1 (exRun 1 [.read 3 1 0]).1 (exRun 1 [.read 3 1 0]).2 ∧
    (exRun 1 [.read 3 1 0]).1.cache.length = (exRun 1 [.read 3 1 0]).1.cacheSize ∧
    1 ≤ (exRun 1 [.read 3 1 0]).1.cacheSize ∧
    findIter (exRun 1 [.read 3 1 0]).1.cacheMap 5 (0 / PAGE_SIZE * PAGE_SIZE) = none ∧
    (exRun 1 [.read 3 1 0]).1.read (exRun 1 [.read 3 1 0]).2 5 1 0 =
      some (false, [], (exRun 1 [.read 3 1 0]).1, (exRun 1 [.read 3 1 0]).2) ∧
    ¬ EvictsMin (exRun 1 [.read 3 1 0]).1.cache (exRun 1 [.read 3 1 0]).1.cache := by
  refine ⟨⟨fun _ => 0, exWorld, [.read 3 1 0], rfl⟩, by decide, by decide, by decide, rfl, ?_⟩
  rintro ⟨l1, victim, l2, inserted, hold, _, hgone, _⟩
  apply hgone victim _ ⟨rfl, rfl⟩
  rw [hold]
  exact List.mem_append_right _ (List.mem_cons_self _ _)

/-- C3, amended (eviction victim).  When a reachable cache of capacity at least
1 holds capacity-many blocks and a read or a write misses and its physical read
of the block succeeds (the call returns true), exactly one previously resident
block is removed, and its stored offset is less than or equal to the stored
offset of every block that was resident, whatever the descriptors of the blocks
and the order of their last accesses. -/
theorem eviction_victim (c : BlockCache) (w : World) (fd : Int) (buf : List Byte)
    (count offset : Nat) (h : Reachable c.cacheSize c w) (hcap : 1 ≤ c.cacheSize)
    (hfull : c.cache.length = c.cacheSize)
    (hmiss : findIter c.cacheMap fd (offset / PAGE_SIZE * PAGE_SIZE) = none) :
    (∀ out c1 w1, c.read w fd count offset = some (true, out, c1, w1) →
      EvictsMin c.cache c1.cache) ∧
    (∀ c1 w1, c.write w fd buf count offset = some (true, c1, w1) →
      EvictsMin c.cache c1.cache) := by
  constructor
  · intro out c1 w1 hr
    rw [read_of_miss w count hmiss] at hr
    cases hrf : ReadFile (SetFilePointerEx w fd ((offset / PAGE_SIZE * PAGE_SIZE : Nat) : Int)
      FILE_BEGIN).2 fd c.alignedBuffer PAGE_SIZE with
    | none => rw [readMiss_of_fail count hrf] at hr; simp at hr
    | some x =>
      obtain ⟨n, scratch, w3⟩ := x
      rw [readMiss_of_ok count hrf] at hr
      split at hr
      · simp only [Option.some.injEq, Prod.mk.injEq] at hr
        rw [← hr.2.2.1]
        have h1 : ({ c with alignedBuffer := scratch } : BlockCache).WF :=
          h.wf.of_same_blocks rfl rfl
        exact insertBlock_evictsMin h1 _ _ hcap hfull hmiss
      · simp at hr
  · intro c1 w1 hr
    rw [write_of_miss w buf count hmiss] at hr
    cases hrf : ReadFile (SetFilePointerEx w fd ((offset / PAGE_SIZE * PAGE_SIZE : Nat) : Int)
      FILE_BEGIN).2 fd c.alignedBuffer PAGE_SIZE with
    | none => rw [writeMiss_of_fail buf count hrf] at hr; simp at hr
    | some x =>
      obtain ⟨n, scratch, w3⟩ := x
      rw [writeMiss_of_ok buf count hrf] at hr
      split at hr
      · simp only [Option.some.injEq, Prod.mk.injEq] at hr
        rw [← hr.2.1]
        have h1 : ({ c with alignedBuffer := copyIn scratch (offset % PAGE_SIZE) buf count } :
          BlockCache).WF := h.wf.of_same_blocks rfl rfl
        exact insertBlock_evictsMin h1 _ _ hcap hfull hmiss
      · simp at hr

/-- Witness of the amended C3, the scenario of the specification: capacity 2 and writes at
offsets 0, 4096 and 8192 on descriptor 3.  The third write evicts the block at
offset 0, which reaches the file with the value written to it. -/
theorem eviction_victim_witness :
    EvictsMin (exRun 2 [.write 3 [1] 1 0, .write 3 [2] 1 4096]).1.cache
        (exRun 2 [.write 3 [1] 1 0, .write 3 [2] 1 4096, .write 3 [3] 1 8192]).1.cache ∧
      (exRun 2 [.write 3 [1] 1 0, .write 3 [2] 1 4096]).1.cache.map (fun n => n.2.offset)
        = [4096, 0] ∧
      (exRun 2 [.write 3 [1] 1 0, .write 3 [2] 1 4096, .write 3 [3] 1 8192]).1.cache.map
        (fun n => n.2.offset) = [8192, 4096] ∧
      ((exRun 2 [.write 3 [1] 1 0, .write 3 [2] 1 4096, .write 3 [3] 1 8192]).2.disk "a.bin").bytes 0
        = 1 :=
  ⟨(eviction_victim (exRun 2 [.write 3 [1] 1 0, .write 3 [2] 1 4096]).1
      (exRun 2 [.write 3 [1] 1 0, .write 3 [2] 1 4096]).2 3 [3] 1 8192
      ⟨fun _ => 0, exWorld, [.write 3 [1] 1 0, .write 3 [2] 1 4096], rfl⟩
      (by decide) (by decide) (by decide)).2 _
      (exRun 2 [.write 3 [1] 1 0, .write 3 [2] 1 4096, .write 3 [3] 1 8192]).2 rfl,
    by decide, by decide, by decide⟩

/-! ## The Win32 calls -/

theorem World.Evolves.refl (w : World) : w.Evolves w :=
  ⟨rfl, rfl, rfl, rfl, rfl, fun _ => rfl⟩

theorem World.Evolves.trans {w w1 w2 : World} (h1 : w.Evolves w1) (h2 : w1.Evolves w2) :
    w.Evolves w2 := by
  unfold World.Evolves
  rw [h2.1, h2.2.1, h2.2.2.1, h2.2.2.2.1, h2.2.2.2.2.1]
  refine ⟨h1.1, h1.2.1, h1.2.2.1, h1.2.2.2.1, h1.2.2.2.2.1, ?_⟩
  intro fd
  rw [h2.2.2.2.2.2 fd]
  exact h1.2.2.2.2.2 fd

theorem World.Evolves.handle {w w1 : World} (h : w.Evolves w1) {fd : Int} {hd : Handle}
    (hh : w.handles fd = some hd) : ∃ hd1, w1.handles fd = some hd1 ∧ hd1.path = hd.path := by
  have := h.2.2.2.2.2 fd
  rw [hh] at this
  cases h1 : w1.handles fd with
  | none => rw [h1] at this; simp at this
  | some hd1 =>
    rw [h1] at this
    simp only [Option.map_some', Option.some.injEq] at this
    exact ⟨hd1, rfl, this⟩

theorem World.Evolves.noFaults {w w1 : World} (h : w.Evolves w1) (hn : w.NoFaults) :
    w1.NoFaults := by
  obtain ⟨a1, a2, a3, a4, a5, _⟩ := h
  obtain ⟨b1, b2, b3, b4, b5⟩ := hn
  refine ⟨?_, ?_, ?_, ?_, ?_⟩
  · intro h p; rw [a1]; exact b1 h p
  · intro h p; rw [a2]; exact b2 h p
  · intro h p; rw [a3]; exact b3 h p
  · intro h; rw [a4]; exact b4 h
  · intro h; rw [a5]; exact b5 h

theorem setPos_evolves (w : World) {fd : Int} {hd : Handle} (p : Nat)
    (hh : w.handles fd = some hd) : w.Evolves (w.setPos fd hd p) := by
  refine ⟨rfl, rfl, rfl, rfl, rfl, ?_⟩
  intro h
  simp only [World.setPos]
  by_cases e : h = fd
  · subst e; simp [hh]
  · simp [Function.update_noteq e]

theorem setPos_disk (w : World) (fd : Int) (hd : Handle) (p : Nat) :
    (w.setPos fd hd p).disk = w.disk := rfl

theorem setPos_handles_self (w : World) (fd : Int) (hd : Handle) (p : Nat) :
    (w.setPos fd hd p).handles fd = some { path := hd.path, pos := p } := by
  simp [World.setPos]

theorem seek_begin_ok {w : World} {fd : Int} {hd : Handle} (p : Nat)
    (hh : w.handles fd = some hd) (hs : w.seekFails fd p = false) :
    SetFilePointerEx w fd (p : Int) FILE_BEGIN = (some p, w.setPos fd hd p) := by
  simp [SetFilePointerEx, hh, FILE_BEGIN, FILE_END, hs]

theorem seek_invalid {w : World} {fd : Int} (dist : Int) (method : Nat)
    (hh : w.handles fd = none) : SetFilePointerEx w fd dist method = (none, w) := by
  simp [SetFilePointerEx, hh]

theorem seek_cases (w : World) (fd : Int) (dist : Int) (method : Nat) :
    SetFilePointerEx w fd dist method = (none, w) ∨
    ∃ hd p, w.handles fd = some hd ∧
      SetFilePointerEx w fd dist method = (some p, w.setPos fd hd p) := by
  unfold SetFilePointerEx
  cases hh : w.handles fd with
  | none => exact Or.inl rfl
  | some hd =>
    simp only
    split_ifs <;> first | exact Or.inl rfl | exact Or.inr ⟨_, _, rfl, rfl⟩

theorem seek_evolves (w : World) (fd : Int) (dist : Int) (method : Nat) :
    w.Evolves (SetFilePointerEx w fd dist method).2 := by
  rcases seek_cases w fd dist method with h | ⟨hd, p, hh, h⟩
  · rw [h]; exact World.Evolves.refl w
  · rw [h]; exact setPos_evolves w _ hh

theorem seek_disk (w : World) (fd : Int) (dist : Int) (method : Nat) :
    (SetFilePointerEx w fd dist method).2.disk = w.disk := by
  rcases seek_cases w fd dist method with h | ⟨hd, p, hh, h⟩
  · rw [h]
  · rw [h]; rfl

theorem readFile_ok {w : World} {fd : Int} {hd : Handle} (buf : Buffer) (n : Nat)
    (hh : w.handles fd = some hd) (hr : w.readFails fd hd.pos = false) :
    ReadFile w fd buf n =
      some (min n ((w.disk hd.path).size - hd.pos),
        (fun i => if i < min n ((w.disk hd.path).size - hd.pos)
          then (w.disk hd.path).bytes (hd.pos + i) else buf i),
        w.setPos fd hd (hd.pos + min n ((w.disk hd.path).size - hd.pos))) := by
  simp [ReadFile, hh, hr]

theorem readFile_evolves {w w1 : World} {fd : Int} {buf buf1 : Buffer} {n got : Nat}
    (h : ReadFile w fd buf n = some (got, buf1, w1)) : w.Evolves w1 ∧ w1.disk = w.disk := by
  unfold ReadFile at h
  cases hh : w.handles fd with
  | none => rw [hh] at h; simp at h
  | some hd =>
    rw [hh] at h
    simp only at h
    split at h
    · simp at h
    · simp only [Option.some.injEq, Prod.mk.injEq] at h
      rw [← h.2.2]
      exact ⟨setPos_evolves w _ hh, rfl⟩

/-- The world after a write-back whose positioning and write succeed. -/
theorem writeBlockToDisk_ok {w : World} {blk : CacheBlock} {hd : Handle}
    (hh : w.handles blk.fd = some hd) (hs : w.seekFails blk.fd blk.offset = false)
    (hw : w.writeFails blk.fd blk.offset = false) :
    writeBlockToDisk w blk =
      { w with
        handles := Function.update w.handles blk.fd
          (some { path := hd.path, pos := blk.offset + PAGE_SIZE })
        disk := Function.update w.disk hd.path
          { size := max (w.disk hd.path).size (blk.offset + PAGE_SIZE)
            bytes := fun i =>
              if blk.offset ≤ i ∧ i < blk.offset + PAGE_SIZE then blk.data (i - blk.offset)
              else if i < (w.disk hd.path).size then (w.disk hd.path).bytes i else 0 } } := by
  unfold writeBlockToDisk
  rw [seek_begin_ok _ hh hs]
  simp only [WriteFile, setPos_handles_self]
  have : (w.setPos blk.fd hd blk.offset).writeFails = w.writeFails := rfl
  simp only [this, hw, World.setPos, Function.update_idem]
  rfl

theorem writeFile_evolves {w w1 : World} {fd : Int} {buf : Buffer} {n k : Nat}
    (h : WriteFile w fd buf n = some (k, w1)) : w.Evolves w1 := by
  unfold WriteFile at h
  cases hh : w.handles fd with
  | none => rw [hh] at h; simp at h
  | some hd =>
    rw [hh] at h
    simp only at h
    split at h
    · simp at h
    · simp only [Option.some.injEq, Prod.mk.injEq] at h
      have := setPos_evolves w (hd.pos + n) hh
      rw [← h.2]
      exact ⟨this.1, this.2.1, this.2.2.1, this.2.2.2.1, this.2.2.2.2.1, this.2.2.2.2.2⟩

theorem writeBlockToDisk_evolves (w : World) (blk : CacheBlock) :
    w.Evolves (writeBlockToDisk w blk) := by
  simp only [writeBlockToDisk]
  have h1 := seek_evolves w blk.fd (blk.offset : Int) FILE_BEGIN
  cases hw : WriteFile (SetFilePointerEx w blk.fd (blk.offset : Int) FILE_BEGIN).2 blk.fd
      blk.data PAGE_SIZE with
  | none => exact h1
  | some r =>
    obtain ⟨n, w2⟩ := r
    exact h1.trans (writeFile_evolves hw)

theorem aligned_disjoint {a b : Nat} (ha : a % PAGE_SIZE = 0) (hb : b % PAGE_SIZE = 0)
    (hne : a ≠ b) : a + PAGE_SIZE ≤ b ∨ b + PAGE_SIZE ≤ a := by
  simp only [PAGE_SIZE] at *
  omega

/-- A write-back whose positioning and write succeed leaves the block in the
file. -/
theorem writeBlockToDisk_holds {w : World} {blk : CacheBlock} {hd : Handle}
    (hh : w.handles blk.fd = some hd) (hs : w.seekFails blk.fd blk.offset = false)
    (hw : w.writeFails blk.fd blk.offset = false) :
    (writeBlockToDisk w blk).holdsBlock blk.fd blk.offset blk.data := by
  rw [writeBlockToDisk_ok hh hs hw]
  unfold World.holdsBlock World.file
  simp only [Function.update_same, Option.map_some', Option.some.injEq, exists_eq_left']
  refine ⟨by omega, ?_⟩
  intro i hi
  rw [if_pos ⟨by omega, by omega⟩]
  congr 1
  omega

/-- A write-back that is positioned correctly leaves every other block of the
files as it was. -/
theorem writeBlockToDisk_preserves {w : World} {blk : CacheBlock} {fd : Int} {off : Nat}
    {data : Buffer} (h : w.holdsBlock fd off data)
    (hs : w.seekFails blk.fd blk.offset = false)
    (hdis : off + PAGE_SIZE ≤ blk.offset ∨ blk.offset + PAGE_SIZE ≤ off) :
    (writeBlockToDisk w blk).holdsBlock fd off data := by
  obtain ⟨f, hf, hsize, hbytes⟩ := h
  cases hh : w.handles blk.fd with
  | none =>
    have : writeBlockToDisk w blk = w := by
      unfold writeBlockToDisk
      rw [seek_invalid _ _ hh]
      simp [WriteFile, hh]
    rw [this]
    exact ⟨f, hf, hsize, hbytes⟩
  | some hd =>
    by_cases hw : w.writeFails blk.fd blk.offset = true
    · have : writeBlockToDisk w blk = w.setPos blk.fd hd blk.offset := by
        unfold writeBlockToDisk
        rw [seek_begin_ok _ hh hs]
        simp only [WriteFile, setPos_handles_self]
        have e : (w.setPos blk.fd hd blk.offset).writeFails = w.writeFails := rfl
        simp only [e, hw, if_true]
      rw [this]
      refine ⟨f, ?_, hsize, hbytes⟩
      rw [← hf]
      simp only [World.file, World.setPos]
      by_cases e : fd = blk.fd
      · subst e; simp [hh]
      · simp [Function.update_noteq e]
    · rw [writeBlockToDisk_ok hh hs (by simpa using hw)]
      simp only [World.file] at hf ⊢
      cases hfd : w.handles fd with
      | none => rw [hfd] at hf; simp at hf
      | some hd0 =>
        rw [hfd] at hf
        simp only [Option.map_some', Option.some.injEq] at hf
        have hpath : (((Function.update w.handles blk.fd
            (some ({ path := hd.path, pos := blk.offset + PAGE_SIZE } : Handle))) fd).map
            Handle.path) = some hd0.path := by
          by_cases e : fd = blk.fd
          · subst e
            rw [hh] at hfd
            simp only [Option.some.injEq] at hfd
            simp [hfd]
          · simp [Function.update_noteq e, hfd]
        cases hx : (Function.update w.handles blk.fd
            (some ({ path := hd.path, pos := blk.offset + PAGE_SIZE } : Handle))) fd with
        | none => rw [hx] at hpath; simp at hpath
        | some hd1 =>
          rw [hx] at hpath
          simp only [Option.map_some', Option.some.injEq] at hpath
          unfold World.holdsBlock World.file
          simp only [hx, Option.map_some', Option.some.injEq, exists_eq_left']
          rw [hpath]
          by_cases ep : hd0.path = hd.path
          · rw [ep, Function.update_same]
            rw [ep] at hf
            subst hf
            refine ⟨by simp only; omega, ?_⟩
            intro i hi
            simp only
            rw [if_neg (by omega), if_pos (by omega)]
            exact hbytes i hi
          · rw [Function.update_noteq ep]
            subst hf
            exact ⟨hsize, hbytes⟩

/-! ## What `sync` and `evict` do to the files -/

theorem deref_eraseNode_ne (l : List Node) {it it2 : Nat} (hne : it2 ≠ it) :
    deref (eraseNode l it) it2 = deref l it2 :=
  assocFind_assocErase_ne it it2 l hne

theorem syncLoop_evolves {inner : OffsetMap} {l l1 : List Node} {w w1 : World}
    (h : syncLoop inner l w = some (l1, w1)) : w.Evolves w1 := by
  induction inner generalizing l w with
  | nil =>
    simp only [syncLoop, Option.some.injEq, Prod.mk.injEq] at h
    rw [← h.2]; exact World.Evolves.refl w
  | cons e rest ih =>
    obtain ⟨off, it⟩ := e
    simp only [syncLoop] at h
    cases hd : deref l it with
    | none => rw [hd] at h; simp at h
    | some blk =>
      rw [hd] at h
      simp only at h
      refine World.Evolves.trans ?_ (ih h)
      split
      · exact writeBlockToDisk_evolves w blk
      · exact World.Evolves.refl w

/-- The loop of `sync` leaves a block of the files alone when none of the blocks
it writes back has that block's offset (all offsets being aligned and all
positionings on `fd` succeeding). -/
theorem syncLoop_preserves {inner : OffsetMap} {l l1 : List Node} {w w1 : World} {fd : Int}
    {fd0 : Int} {off0 : Nat} {data0 : Buffer}
    (h : syncLoop inner l w = some (l1, w1))
    (hl : ∀ e ∈ inner, ∀ b, (e.2, b) ∈ l →
      b.fd = fd ∧ b.offset % PAGE_SIZE = 0 ∧ b.offset ≠ off0)
    (hs : ∀ p, w.seekFails fd p = false) (h0 : off0 % PAGE_SIZE = 0)
    (hold : w.holdsBlock fd0 off0 data0) : w1.holdsBlock fd0 off0 data0 := by
  induction inner generalizing l w with
  | nil =>
    simp only [syncLoop, Option.some.injEq, Prod.mk.injEq] at h
    rw [← h.2]; exact hold
  | cons e rest ih =>
    obtain ⟨off, it⟩ := e
    simp only [syncLoop] at h
    cases hd : deref l it with
    | none => rw [hd] at h; simp at h
    | some blk =>
      rw [hd] at h
      simp only at h
      obtain ⟨hb1, hb2, hb3⟩ := hl (off, it) (List.mem_cons_self _ _) blk (mem_of_assocFind hd)
      have hev : w.Evolves (if blk.dirty = true then writeBlockToDisk w blk else w) := by
        split
        · exact writeBlockToDisk_evolves w blk
        · exact World.Evolves.refl w
      apply ih h
      · intro e he b hb
        exact hl e (List.mem_cons_of_mem _ he) b (mem_eraseNode.mp hb).1
      · intro p; rw [hev.1]; exact hs p
      · split
        · apply writeBlockToDisk_preserves hold
          · rw [hb1]; exact hs _
          · exact aligned_disjoint h0 hb2 (Ne.symm hb3)
        · exact hold

/-- The loop of `sync` leaves every dirty block it visits in the file, provided
the handle is valid and positioning and writing on it succeed. -/
theorem syncLoop_holds {inner : OffsetMap} {l l1 : List Node} {w w1 : World} {fd : Int}
    {hd : Handle}
    (h : syncLoop inner l w = some (l1, w1))
    (hk : (inner.map Prod.fst).Nodup) (hnd : (l.map Prod.fst).Nodup)
    (hl : ∀ e ∈ inner, ∀ b, (e.2, b) ∈ l →
      b.fd = fd ∧ b.offset = e.1 ∧ e.1 % PAGE_SIZE = 0)
    (hh : w.handles fd = some hd)
    (hs : ∀ p, w.seekFails fd p = false) (hw : ∀ p, w.writeFails fd p = false) :
    ∀ e ∈ inner, ∀ b, (e.2, b) ∈ l → b.dirty = true → w1.holdsBlock fd e.1 b.data := by
  induction inner generalizing l w hd with
  | nil => intro e he; simp at he
  | cons e0 rest ih =>
    obtain ⟨off, it⟩ := e0
    simp only [syncLoop] at h
    rw [List.map_cons, List.nodup_cons] at hk
    cases hdr : deref l it with
    | none => rw [hdr] at h; simp at h
    | some blk =>
      rw [hdr] at h
      simp only at h
      have hblk := mem_of_assocFind hdr
      obtain ⟨hb1, hb2, hb3⟩ := hl (off, it) (List.mem_cons_self _ _) blk hblk
      have hev : w.Evolves (if blk.dirty = true then writeBlockToDisk w blk else w) := by
        split
        · exact writeBlockToDisk_evolves w blk
        · exact World.Evolves.refl w
      obtain ⟨hd1, hh1, _⟩ := hev.handle hh
      have hs1 : ∀ p, (if blk.dirty = true then writeBlockToDisk w blk else w).seekFails fd p
          = false := by
        intro p; rw [hev.1]; exact hs p
      have hw1 : ∀ p, (if blk.dirty = true then writeBlockToDisk w blk else w).writeFails fd p
          = false := by
        intro p; rw [hev.2.2.1]; exact hw p
      have hrest : ∀ e ∈ rest, ∀ b, (e.2, b) ∈ l → (e.2, b) ∈ eraseNode l it := by
        intro e he b hb
        refine mem_eraseNode.mpr ⟨hb, ?_⟩
        intro e2
        simp only at e2
        rw [e2] at hb
        have := assoc_unique hnd hb hblk
        subst this
        apply hk.1
        have := (hl e (List.mem_cons_of_mem _ he) b (by rw [e2]; exact hblk)).2.1
        rw [← hb2, this]
        exact List.mem_map.mpr ⟨e, he, rfl⟩
      intro e he b hb hdirty
      rcases List.mem_cons.mp he with e1 | e1
      · subst e1
        simp only at hb ⊢
        have := assoc_unique hnd hb hblk
        subst this
        rw [if_pos hdirty] at h
        have h1 : (writeBlockToDisk w b).holdsBlock fd off b.data := by
          have := @writeBlockToDisk_holds w b hd (by rw [hb1]; exact hh)
            (by rw [hb1]; exact hs _) (by rw [hb1]; exact hw _)
          rw [hb1, hb2] at this
          exact this
        refine @syncLoop_preserves _ _ _ _ _ fd _ _ _ h ?_ ?_ hb3 h1
        · intro e2 he2 b2 hb2m
          obtain ⟨x1, x2, x3⟩ := hl e2 (List.mem_cons_of_mem _ he2) b2 (mem_eraseNode.mp hb2m).1
          refine ⟨x1, by rw [x2]; exact x3, ?_⟩
          rw [x2]
          intro e3
          apply hk.1
          rw [← e3]
          exact List.mem_map.mpr ⟨e2, he2, rfl⟩
        · intro p
          rw [(writeBlockToDisk_evolves w b).1]
          exact hs p
      · exact ih h hk.2 (nodup_eraseNode _ hnd)
          (fun e2 he2 b2 hb2m => hl e2 (List.mem_cons_of_mem _ he2) b2 (mem_eraseNode.mp hb2m).1)
          hh1 hs1 hw1 e e1 b (hrest e e1 b hb) hdirty

/-- In a consistent cache `sync(fd)` leaves every dirty block of `fd` in the
file, provided the handle is valid and positioning and writing on it succeed. -/
theorem BlockCache.WF.sync_holds {c c1 : BlockCache} (h : c.WF) {w w1 : World} {fd : Int}
    {hd : Handle} (hsync : c.sync w fd = some (c1, w1)) (hh : w.handles fd = some hd)
    (hs : ∀ p, w.seekFails fd p = false) (hw : ∀ p, w.writeFails fd p = false)
    {n : Node} (hn : n ∈ c.cache) (hfd : n.2.fd = fd) (hdirty : n.2.dirty = true) :
    w1.holdsBlock fd n.2.offset n.2.data := by
  obtain ⟨inner, hi, ho⟩ := h.listed n.1 n.2 hn
  rw [hfd] at hi
  unfold BlockCache.sync at hsync
  rw [h.find_inner hi] at hsync
  simp only at hsync
  cases hl : syncLoop inner c.cache w with
  | none => rw [hl] at hsync; simp at hsync
  | some r =>
    obtain ⟨l1, w2⟩ := r
    rw [hl] at hsync
    simp only [Option.some.injEq, Prod.mk.injEq] at hsync
    rw [← hsync.2]
    refine syncLoop_holds hl (h.nodupOffsets _ hi) h.nodupNodes ?_ hh hs hw
      (n.2.offset, n.1) ho n.2 hn hdirty
    intro e he b hb
    obtain ⟨b0, hb0, x1, x2⟩ := h.indexed fd inner e.1 e.2 hi he
    have := assoc_unique h.nodupNodes hb hb0
    subst this
    refine ⟨x1, x2, ?_⟩
    rw [← x2]
    exact h.aligned _ hb

theorem insertBlock_evolves (c : BlockCache) (w : World) (fd : Int) (a : Nat) (d : Bool) :
    w.Evolves (c.insertBlock w fd a d).2 := by
  by_cases hc : c.cacheSize ≤ c.cache.length
  · cases hm : minElement c.cache with
    | none =>
      simp only [BlockCache.insertBlock, evict_of_nil w (minElement_eq_none.mp hm), ite_self]
      exact World.Evolves.refl w
    | some v =>
      rw [insertBlock_of_full w fd a d hc hm]
      simp only
      split
      · exact writeBlockToDisk_evolves w v.2
      · exact World.Evolves.refl w
  · rw [insertBlock_of_room w fd a d hc]
    exact World.Evolves.refl w

/-- A dirty block that an insertion removes from a consistent cache is in its
file afterwards, provided its write-back succeeds. -/
theorem BlockCache.WF.insertBlock_flush {c : BlockCache} (h : c.WF) (w : World) (fd : Int)
    (a : Nat) (d : Bool) {n : Node} (hn : n ∈ c.cache) (hdirty : n.2.dirty = true)
    (hgone : ∀ m ∈ (c.insertBlock w fd a d).1.cache,
      ¬ (m.2.fd = n.2.fd ∧ m.2.offset = n.2.offset))
    {hd : Handle} (hh : w.handles n.2.fd = some hd)
    (hs : w.seekFails n.2.fd n.2.offset = false)
    (hw : w.writeFails n.2.fd n.2.offset = false) :
    (c.insertBlock w fd a d).2.holdsBlock n.2.fd n.2.offset n.2.data := by
  by_cases hc : c.cacheSize ≤ c.cache.length
  · cases hm : minElement c.cache with
    | none =>
      rw [minElement_eq_none.mp hm] at hn
      simp at hn
    | some v =>
      rw [insertBlock_of_full w fd a d hc hm] at hgone ⊢
      simp only at hgone ⊢
      by_cases e : n.1 = v.1
      · have hv := (minElement_spec hm).1
        have hn1 : (v.1, n.2) ∈ c.cache := by rw [← e]; exact hn
        have : n.2 = v.2 := assoc_unique h.nodupNodes hn1 hv
        rw [← this, if_pos hdirty]
        exact writeBlockToDisk_holds hh hs hw
      · exfalso
        exact hgone n (List.mem_cons_of_mem _ (mem_eraseNode.mpr ⟨hn, e⟩)) ⟨rfl, rfl⟩
  · rw [insertBlock_of_room w fd a d hc] at hgone
    exfalso
    exact hgone n (List.mem_cons_of_mem _ hn) ⟨rfl, rfl⟩

/-! ## C4: flush before discard -/

/-- C4 (flush before discard).  Whenever a call of read, write, sync or close
removes a dirty block from a reachable cache (in read and write: by eviction) and
the physical write-back works (the owning handle is valid, positioning and
writing on it do not fail), the file of the owning descriptor holds, after the
call, at the block's offset, the 4096 bytes the block's buffer held. -/
theorem flush_before_discard (e : Event) (c c1 : BlockCache) (w w1 : World) (n : Node)
    (hd : Handle) (hreach : Reachable c.cacheSize c w)
    (hrun : e.run c w = some (c1, w1))
    (hn : n ∈ c.cache) (hdirty : n.2.dirty = true)
    (hgone : ∀ m ∈ c1.cache, ¬ (m.2.fd = n.2.fd ∧ m.2.offset = n.2.offset))
    (hh : w.handles n.2.fd = some hd)
    (hs : ∀ p, w.seekFails n.2.fd p = false) (hw : ∀ p, w.writeFails n.2.fd p = false) :
    w1.holdsBlock n.2.fd n.2.offset n.2.data := by
  have hwf := hreach.wf
  -- the miss paths: the world in which the block is inserted
  have hins : ∀ (c0 : BlockCache) (w0 : World) (fd : Int) (a : Nat) (d : Bool),
      c0.WF → c0.cache = c.cache → w.Evolves w0 →
      (c0.insertBlock w0 fd a d).1 = c1 → (c0.insertBlock w0 fd a d).2 = w1 →
      w1.holdsBlock n.2.fd n.2.offset n.2.data := by
    intro c0 w0 fd a d h0 hc0 hev e1 e2
    obtain ⟨hd0, hh0, _⟩ := hev.handle hh
    rw [← e2]
    apply h0.insertBlock_flush w0 fd a d (by rw [hc0]; exact hn) hdirty (by rw [e1]; exact hgone)
      hh0
    · rw [hev.1]; exact hs _
    · rw [hev.2.2.1]; exact hw _
  cases e with
  | read fd count offset =>
    simp only [Event.run, Option.map_eq_some'] at hrun
    obtain ⟨⟨r, out, c2, w2⟩, h1, h2⟩ := hrun
    simp only [Prod.mk.injEq] at h2
    obtain ⟨e1, e2⟩ := h2
    subst e1 e2
    cases hf : findIter c.cacheMap fd (offset / PAGE_SIZE * PAGE_SIZE) with
    | some it =>
      cases hdr : deref c.cache it with
      | none => rw [read_of_dangling w count hf hdr] at h1; simp at h1
      | some blk =>
        rw [read_of_hit w count hf hdr] at h1
        split at h1
        · simp only [Option.some.injEq, Prod.mk.injEq] at h1
          rw [← h1.2.2.1] at hgone
          exact absurd ⟨rfl, rfl⟩ (hgone n hn)
        · simp at h1
    | none =>
      rw [read_of_miss w count hf] at h1
      cases hrf : ReadFile (SetFilePointerEx w fd ((offset / PAGE_SIZE * PAGE_SIZE : Nat) : Int)
        FILE_BEGIN).2 fd c.alignedBuffer PAGE_SIZE with
      | none =>
        rw [readMiss_of_fail count hrf] at h1
        simp only [Option.some.injEq, Prod.mk.injEq] at h1
        rw [← h1.2.2.1] at hgone
        exact absurd ⟨rfl, rfl⟩ (hgone n hn)
      | some x =>
        obtain ⟨k, scratch, w3⟩ := x
        rw [readMiss_of_ok count hrf] at h1
        split at h1
        · simp only [Option.some.injEq, Prod.mk.injEq] at h1
          exact hins { c with alignedBuffer := scratch } _ _ _ _ (hwf.of_same_blocks rfl rfl) rfl
            ((seek_evolves w fd _ _).trans (readFile_evolves hrf).1) h1.2.2.1 h1.2.2.2
        · simp at h1
  | write fd buf count offset =>
    simp only [Event.run, Option.map_eq_some'] at hrun
    obtain ⟨⟨r, c2, w2⟩, h1, h2⟩ := hrun
    simp only [Prod.mk.injEq] at h2
    obtain ⟨e1, e2⟩ := h2
    subst e1 e2
    cases hf : findIter c.cacheMap fd (offset / PAGE_SIZE * PAGE_SIZE) with
    | some it =>
      cases hdr : deref c.cache it with
      | none => rw [write_of_dangling w buf count hf hdr] at h1; simp at h1
      | some blk =>
        rw [write_of_hit w buf count hf hdr] at h1
        split at h1
        · simp only [Option.some.injEq, Prod.mk.injEq] at h1
          rw [← h1.2.1] at hgone
          exfalso
          by_cases e : n.1 = it
          · exact hgone (n.1, n.2.store (offset % PAGE_SIZE) buf count)
              (List.mem_map.mpr ⟨n, hn, by simp [e]⟩) ⟨rfl, rfl⟩
          · exact hgone n (List.mem_map.mpr ⟨n, hn, by simp [e]⟩) ⟨rfl, rfl⟩
        · simp at h1
    | none =>
      rw [write_of_miss w buf count hf] at h1
      cases hrf : ReadFile (SetFilePointerEx w fd ((offset / PAGE_SIZE * PAGE_SIZE : Nat) : Int)
        FILE_BEGIN).2 fd c.alignedBuffer PAGE_SIZE with
      | none =>
        rw [writeMiss_of_fail buf count hrf] at h1
        simp only [Option.some.injEq, Prod.mk.injEq] at h1
        rw [← h1.2.1] at hgone
        exact absurd ⟨rfl, rfl⟩ (hgone n hn)
      | some x =>
        obtain ⟨k, scratch, w3⟩ := x
        rw [writeMiss_of_ok buf count hrf] at h1
        split at h1
        · simp only [Option.some.injEq, Prod.mk.injEq] at h1
          exact hins { c with alignedBuffer := copyIn scratch (offset % PAGE_SIZE) buf count }
            _ _ _ _ (hwf.of_same_blocks rfl rfl) rfl
            ((seek_evolves w fd _ _).trans (readFile_evolves hrf).1) h1.2.1 h1.2.2
        · simp at h1
  | sync fd =>
    have hsync : c.sync w fd = some (c1, w1) := hrun
    obtain ⟨w2, h2⟩ := hwf.sync_eq w fd
    by_cases hfd : n.2.fd = fd
    · subst hfd
      exact hwf.sync_holds hsync hh hs hw hn rfl hdirty
    · rw [h2] at hsync
      simp only [Option.some.injEq, Prod.mk.injEq] at hsync
      rw [← hsync.1] at hgone
      exfalso
      exact hgone n (List.mem_filter.mpr ⟨hn, by simpa using hfd⟩) ⟨rfl, rfl⟩
  | close fd =>
    have hsync : c.sync w fd = some (c1, w1) := hrun
    obtain ⟨w2, h2⟩ := hwf.sync_eq w fd
    by_cases hfd : n.2.fd = fd
    · subst hfd
      exact hwf.sync_holds hsync hh hs hw hn rfl hdirty
    · rw [h2] at hsync
      simp only [Option.some.injEq, Prod.mk.injEq] at hsync
      rw [← hsync.1] at hgone
      exfalso
      exact hgone n (List.mem_filter.mpr ⟨hn, by simpa using hfd⟩) ⟨rfl, rfl⟩
  | environment w2 =>
    simp only [Event.run, Option.some.injEq, Prod.mk.injEq] at hrun
    rw [← hrun.1] at hgone
    exact absurd ⟨rfl, rfl⟩ (hgone n hn)

/-- Witness of C4: with capacity 2, the write at offset 8192 evicts the dirty
block at offset 0, whose byte 0 is the 1 written before; the file `a.bin` holds
that block afterwards. -/
theorem flush_before_discard_witness :
    (exRun 2 [.write 3 [1] 1 0, .write 3 [2] 1 4096, .write 3 [3] 1 8192]).2.holdsBlock
        exVictim.2.fd exVictim.2.offset exVictim.2.data ∧
      (exVictim.2.fd, exVictim.2.offset, exVictim.2.dirty, exVictim.2.data 0) = (3, 0, true, 1) :=
  ⟨flush_before_discard (.write 3 [3] 1 8192)
      (exRun 2 [.write 3 [1] 1 0, .write 3 [2] 1 4096]).1
      (exRun 2 [.write 3 [1] 1 0, .write 3 [2] 1 4096, .write 3 [3] 1 8192]).1
      (exRun 2 [.write 3 [1] 1 0, .write 3 [2] 1 4096]).2
      (exRun 2 [.write 3 [1] 1 0, .write 3 [2] 1 4096, .write 3 [3] 1 8192]).2
      exVictim { path := "a.bin", pos := 4096 }
      ⟨fun _ => 0, exWorld, [.write 3 [1] 1 0, .write 3 [2] 1 4096], rfl⟩
      rfl
      (List.mem_cons_of_mem _ (List.mem_cons_self _ _))
      rfl
      (by
        intro m hm h3
        have hoff : (exRun 2 [.write 3 [1] 1 0, .write 3 [2] 1 4096,
            .write 3 [3] 1 8192]).1.cache.map (fun n => n.2.offset) = [8192, 4096] := by decide
        have h2 := List.mem_map_of_mem (fun n => n.2.offset) hm
        rw [hoff] at h2
        have h4 : exVictim.2.offset = 0 := by decide
        rw [h4] at h3
        simp only [List.mem_cons, List.mem_singleton, List.not_mem_nil, or_false] at h2
        omega)
      rfl (fun _ => rfl) (fun _ => rfl),
    by decide⟩

/-! ## The round trip: writing -/

theorem in_block_add {offset count j : Nat} (hin : offset % PAGE_SIZE + count ≤ PAGE_SIZE)
    (hj : j < count) :
    (offset + j) / PAGE_SIZE * PAGE_SIZE = offset / PAGE_SIZE * PAGE_SIZE ∧
      (offset + j) % PAGE_SIZE = offset % PAGE_SIZE + j := by
  simp only [PAGE_SIZE] at *
  omega

theorem outside_range {offset count x : Nat}
    (hb : x / PAGE_SIZE * PAGE_SIZE = offset / PAGE_SIZE * PAGE_SIZE)
    (hx : x < offset ∨ offset + count ≤ x) :
    ¬ (offset % PAGE_SIZE ≤ x % PAGE_SIZE ∧ x % PAGE_SIZE < offset % PAGE_SIZE + count) := by
  simp only [PAGE_SIZE] at *
  omega

theorem block_add_mod (x : Nat) : x / PAGE_SIZE * PAGE_SIZE + x % PAGE_SIZE = x := by
  simp only [PAGE_SIZE]
  omega

theorem holdsBlock_congr {w w1 : World} (hev : w.Evolves w1) (hd : w1.disk = w.disk) {fd : Int}
    {off : Nat} {data : Buffer} (h : w.holdsBlock fd off data) : w1.holdsBlock fd off data := by
  obtain ⟨f, hf, h1, h2⟩ := h
  refine ⟨f, ?_, h1, h2⟩
  unfold World.file at hf ⊢
  cases hh : w.handles fd with
  | none => rw [hh] at hf; simp at hf
  | some hd0 =>
    obtain ⟨hd1, hh1, hp⟩ := hev.handle hh
    rw [hh] at hf
    rw [hh1, hd]
    simp only [Option.map_some', Option.some.injEq] at hf ⊢
    rw [hp]; exact hf

theorem Known.of_same_files {c c1 : BlockCache} {w w1 : World} {fd : Int} {x : Nat} {v : Byte}
    (h : Known c w fd x v) (hc : c1.cache = c.cache) (hev : w.Evolves w1)
    (hd : w1.disk = w.disk) : Known c1 w1 fd x v := by
  unfold Known at h ⊢
  rw [hc]
  rcases h with h | ⟨h1, data, h2, h3⟩
  · exact Or.inl h
  · exact Or.inr ⟨h1, data, holdsBlock_congr hev hd h2, h3⟩

theorem WritePhase.of_same_cache {fd : Int} {path : String} {c c1 : BlockCache} {w w1 : World}
    (h : WritePhase fd path c w) (hc : c1.cache = c.cache) (hm : c1.cacheMap = c.cacheMap)
    (hs : c1.cacheSize = c.cacheSize) (hev : w.Evolves w1) : WritePhase fd path c1 w1 := by
  refine ⟨h.wf.of_same_blocks hc hm, by rw [hs]; exact h.capacity, by rw [hc]; exact h.blocks, ?_,
    hev.noFaults h.noFaults⟩
  obtain ⟨hd, hh, hp⟩ := h.handle
  obtain ⟨hd1, hh1, hp1⟩ := hev.handle hh
  exact ⟨hd1, hh1, hp1.trans hp⟩

/-- The two shapes of the state after an insertion into a cache of capacity at
least 1. -/
theorem insertBlock_cases (c : BlockCache) (w : World) (fd : Int) (a : Nat) (d : Bool)
    (hcap : 1 ≤ c.cacheSize) :
    (∃ it, (c.insertBlock w fd a d).1.cache =
        (it, { data := c.alignedBuffer, fd := fd, offset := a, dirty := d }) :: c.cache ∧
      (c.insertBlock w fd a d).2 = w) ∨
    (∃ it v, v ∈ c.cache ∧ (∀ n ∈ c.cache, v.2.offset ≤ n.2.offset) ∧
      (c.insertBlock w fd a d).1.cache =
        (it, { data := c.alignedBuffer, fd := fd, offset := a, dirty := d }) ::
          eraseNode c.cache v.1 ∧
      (c.insertBlock w fd a d).2 = if v.2.dirty = true then writeBlockToDisk w v.2 else w) := by
  by_cases hc : c.cacheSize ≤ c.cache.length
  · cases hm : minElement c.cache with
    | none =>
      have := minElement_eq_none.mp hm
      rw [this] at hc
      simp at hc
      omega
    | some v =>
      right
      rw [insertBlock_of_full w fd a d hc hm]
      exact ⟨_, v, (minElement_spec hm).1, (minElement_spec hm).2, rfl, rfl⟩
  · left
    rw [insertBlock_of_room w fd a d hc]
    exact ⟨_, rfl, rfl⟩

/-- Inserting a dirty block of `fd` during the write phase: the phase goes on,
the new block is the only one at its offset, what was known about bytes of other
blocks stays known, and the block of the file at the new offset is untouched. -/
theorem WritePhase.insert {fd : Int} {path : String} {c : BlockCache} {w : World}
    (hp : WritePhase fd path c w) {a : Nat}
    (hmiss : findIter c.cacheMap fd a = none) (ha : a % PAGE_SIZE = 0) :
    WritePhase fd path (c.insertBlock w fd a true).1 (c.insertBlock w fd a true).2 ∧
    (∃ n ∈ (c.insertBlock w fd a true).1.cache, n.2.offset = a ∧ n.2.data = c.alignedBuffer) ∧
    (∀ x v, x / PAGE_SIZE * PAGE_SIZE ≠ a → Known c w fd x v →
      Known (c.insertBlock w fd a true).1 (c.insertBlock w fd a true).2 fd x v) := by
  have hnr := hp.wf.not_resident hmiss
  have hev := insertBlock_evolves c w fd a true
  obtain ⟨hd, hh, hpath⟩ := hp.handle
  refine ⟨⟨hp.wf.insertBlock w hmiss ha true, by rw [insertBlock_cacheSize]; exact hp.capacity,
    ?_, ?_, hev.noFaults hp.noFaults⟩, ?_, ?_⟩
  · intro n hn
    rcases insertBlock_cases c w fd a true hp.capacity with ⟨it, h1, _⟩ | ⟨it, v, _, _, h1, _⟩
    · rw [h1] at hn
      rcases List.mem_cons.mp hn with e | hn1
      · subst e; exact ⟨rfl, rfl⟩
      · exact hp.blocks n hn1
    · rw [h1] at hn
      rcases List.mem_cons.mp hn with e | hn1
      · subst e; exact ⟨rfl, rfl⟩
      · exact hp.blocks n (mem_eraseNode.mp hn1).1
  · obtain ⟨hd1, hh1, hp1⟩ := hev.handle hh
    exact ⟨hd1, hh1, hp1.trans hpath⟩
  · rcases insertBlock_cases c w fd a true hp.capacity with ⟨it, h1, _⟩ | ⟨it, v, _, _, h1, _⟩
    · exact ⟨_, by rw [h1]; exact List.mem_cons_self _ _, rfl, rfl⟩
    · exact ⟨_, by rw [h1]; exact List.mem_cons_self _ _, rfl, rfl⟩
  · intro x v hx hk
    rcases insertBlock_cases c w fd a true hp.capacity with ⟨it, h1, h2⟩ | ⟨it, vic, hv, _, h1, h2⟩
    · rw [h2]
      rcases hk with ⟨n, hn, ho, hdv⟩ | ⟨hno, data, hb, hdv⟩
      · exact Or.inl ⟨n, by rw [h1]; exact List.mem_cons_of_mem _ hn, ho, hdv⟩
      · refine Or.inr ⟨?_, data, hb, hdv⟩
        intro n hn
        rw [h1] at hn
        rcases List.mem_cons.mp hn with e | hn1
        · subst e; exact fun e2 => hx e2.symm
        · exact hno n hn1
    · have hvd := (hp.blocks vic hv).2
      have hvfd := (hp.blocks vic hv).1
      rw [h2, if_pos hvd]
      rcases hk with ⟨n, hn, ho, hdv⟩ | ⟨hno, data, hb, hdv⟩
      · by_cases e : n.1 = vic.1
        · -- the block that was known is the victim: it is in the file now
          have hnv : n = vic :=
            hp.wf.same_key hn hv ((hp.blocks n hn).1.trans hvfd.symm)
              (by
                have h3 := hp.wf.indexConsistent.2 n hn
                have h4 := hp.wf.indexConsistent.2 vic hv
                rw [(hp.blocks n hn).1] at h3
                rw [hvfd] at h4
                have e3 : (n.1, n.2) ∈ c.cache := hn
                rw [e] at e3
                exact congrArg CacheBlock.offset (assoc_unique hp.wf.nodupNodes e3 hv))
          subst hnv
          refine Or.inr ⟨?_, n.2.data, ?_, hdv⟩
          · intro m hm
            rw [h1] at hm
            rcases List.mem_cons.mp hm with e2 | hm1
            · subst e2; exact fun e3 => hx e3.symm
            · intro e3
              obtain ⟨hm2, hm3⟩ := mem_eraseNode.mp hm1
              apply hm3
              have := hp.wf.same_key hm2 hn ((hp.blocks m hm2).1.trans hvfd.symm)
                (e3.trans ho.symm)
              rw [this]
          · have := @writeBlockToDisk_holds w n.2 hd
              (by rw [hvfd]; exact hh) (hp.noFaults.1 _ _) (hp.noFaults.2.2.1 _ _)
            rw [hvfd, ho] at this
            exact this
        · exact Or.inl ⟨n, by rw [h1]; exact List.mem_cons_of_mem _ (mem_eraseNode.mpr ⟨hn, e⟩),
            ho, hdv⟩
      · refine Or.inr ⟨?_, data, ?_, hdv⟩
        · intro n hn
          rw [h1] at hn
          rcases List.mem_cons.mp hn with e | hn1
          · subst e; exact fun e2 => hx e2.symm
          · exact hno n (mem_eraseNode.mp hn1).1
        · apply writeBlockToDisk_preserves hb (hp.noFaults.1 _ _)
          exact aligned_disjoint (aligned_mod x) (hp.wf.aligned vic hv) (Ne.symm (hno vic hv))

theorem holdsBlock_iff {w : World} {fd : Int} {hd : Handle} (hh : w.handles fd = some hd)
    (off : Nat) (data : Buffer) :
    w.holdsBlock fd off data ↔ (w.disk hd.path).hasBlock off data := by
  unfold World.holdsBlock World.file FileData.hasBlock
  rw [hh]
  simp only [Option.map_some', Option.some.injEq, exists_eq_left']

theorem copyIn_inside (d : Buffer) (k : Nat) (buf : List Byte) {count j : Nat} (hj : j < count) :
    copyIn d k buf count (k + j) = buf.getD j 0 := by
  unfold copyIn
  rw [if_pos ⟨by omega, by omega⟩]
  congr 1
  omega

theorem copyIn_outside (d : Buffer) (k : Nat) (buf : List Byte) {count i : Nat}
    (hi : ¬ (k ≤ i ∧ i < k + count)) : copyIn d k buf count i = d i := by
  unfold copyIn
  rw [if_neg hi]

/-- The physical read of a block on a valid handle, when positioning and
reading do not fail: it transfers as much of the block as the file has. -/
theorem read_block_ok {w : World} {fd : Int} {hd : Handle} (a : Nat) (buf : Buffer)
    (hh : w.handles fd = some hd) (hs : w.seekFails fd a = false)
    (hr : w.readFails fd a = false) :
    ∃ got scratch w2,
      ReadFile (SetFilePointerEx w fd (a : Int) FILE_BEGIN).2 fd buf PAGE_SIZE
        = some (got, scratch, w2) ∧
      w.Evolves w2 ∧ w2.disk = w.disk ∧
      w2.handles fd = some { path := hd.path, pos := a + got } ∧
      (a + PAGE_SIZE ≤ (w.disk hd.path).size →
        got = PAGE_SIZE ∧ ∀ i, i < PAGE_SIZE → scratch i = (w.disk hd.path).bytes (a + i)) := by
  have hh0 := setPos_handles_self w fd hd a
  refine ⟨_, _, _, by rw [seek_begin_ok a hh hs]; exact readFile_ok buf PAGE_SIZE hh0 hr,
    (setPos_evolves w _ hh).trans (setPos_evolves _ _ hh0), rfl, setPos_handles_self _ _ _ _, ?_⟩
  intro hsz
  have hmin : min PAGE_SIZE ((w.disk hd.path).size - a) = PAGE_SIZE := by
    apply Nat.min_eq_left
    omega
  refine ⟨hmin, ?_⟩
  intro i hi
  simp only [setPos_disk]
  rw [if_pos (by rw [hmin]; exact hi)]

/-- One in-block write during the write phase succeeds, the phase goes on, the
bytes written are known, and what was known outside the written range stays
known. -/
theorem WritePhase.write_step {fd : Int} {path : String} {c : BlockCache} {w : World}
    (hp : WritePhase fd path c w) {buf : List Byte} {count offset : Nat}
    (hlen : count ≤ buf.length) (hin : offset % PAGE_SIZE + count ≤ PAGE_SIZE) :
    ∃ c1 w1, c.write w fd buf count offset = some (true, c1, w1) ∧
      WritePhase fd path c1 w1 ∧
      (∀ j, j < count → Known c1 w1 fd (offset + j) (buf.getD j 0)) ∧
      (∀ x v, Known c w fd x v → (x < offset ∨ offset + count ≤ x) → Known c1 w1 fd x v) := by
  cases hf : findIter c.cacheMap fd (offset / PAGE_SIZE * PAGE_SIZE) with
  | some it =>
    obtain ⟨blk, hdr, hm, hfd, hoff⟩ := hp.wf.resident hf
    refine ⟨_, w, by rw [write_of_hit w buf count hf hdr, if_pos ⟨hin, hlen⟩], ?_, ?_, ?_⟩
    · refine ⟨hp.wf.store _ _ _ _, hp.capacity, ?_, hp.handle, hp.noFaults⟩
      intro n hn
      simp only [List.mem_map] at hn
      obtain ⟨n0, hn0, e⟩ := hn
      by_cases e1 : n0.1 = it
      · rw [if_pos e1] at e
        subst e
        exact ⟨(hp.blocks n0 hn0).1, rfl⟩
      · rw [if_neg e1] at e
        subst e
        exact hp.blocks n0 hn0
    · intro j hj
      left
      refine ⟨(it, blk.store (offset % PAGE_SIZE) buf count),
        List.mem_map.mpr ⟨(it, blk), hm, by simp⟩, ?_, ?_⟩
      · simp only [CacheBlock.store]
        rw [hoff, (in_block_add hin hj).1]
      · simp only [CacheBlock.store]
        rw [(in_block_add hin hj).2]
        exact copyIn_inside _ _ _ hj
    · intro x v hk hx
      rcases hk with ⟨n, hn, ho, hdv⟩ | ⟨hno, data, hb, hdv⟩
      · left
        by_cases e : n.1 = it
        · have hnb : n.2 = blk := by
            have e3 : (n.1, n.2) ∈ c.cache := hn
            rw [e] at e3
            exact assoc_unique hp.wf.nodupNodes e3 hm
          refine ⟨(n.1, n.2.store (offset % PAGE_SIZE) buf count),
            List.mem_map.mpr ⟨n, hn, by simp [e]⟩, ho, ?_⟩
          simp only [CacheBlock.store]
          rw [copyIn_outside _ _ _ (outside_range (by rw [← ho, hnb, hoff]) hx)]
          exact hdv
        · exact ⟨n, List.mem_map.mpr ⟨n, hn, by simp [e]⟩, ho, hdv⟩
      · right
        refine ⟨?_, data, hb, hdv⟩
        intro n hn
        simp only [List.mem_map] at hn
        obtain ⟨n0, hn0, e⟩ := hn
        by_cases e1 : n0.1 = it
        · rw [if_pos e1] at e
          subst e
          exact hno n0 hn0
        · rw [if_neg e1] at e
          subst e
          exact hno n0 hn0
  | none =>
    obtain ⟨hd, hh, hpath⟩ := hp.handle
    obtain ⟨got, scratch, w2, hrf, hev, hdisk, _, hfull⟩ :=
      read_block_ok (offset / PAGE_SIZE * PAGE_SIZE) c.alignedBuffer hh (hp.noFaults.1 _ _)
        (hp.noFaults.2.1 _ _)
    have hp0 : WritePhase fd path
        { c with alignedBuffer := copyIn scratch (offset % PAGE_SIZE) buf count } w2 :=
      hp.of_same_cache rfl rfl rfl hev
    obtain ⟨hp1, ⟨n, hn, hno, hnd⟩, hk1⟩ := hp0.insert hf (aligned_mod offset)
    refine ⟨_, _, by rw [write_of_miss w buf count hf, writeMiss_of_ok buf count hrf,
      if_pos ⟨hin, hlen⟩], hp1, ?_, ?_⟩
    · intro j hj
      left
      refine ⟨n, hn, by rw [hno, (in_block_add hin hj).1], ?_⟩
      rw [hnd, (in_block_add hin hj).2]
      exact copyIn_inside _ _ _ hj
    · intro x v hk hx
      by_cases hxa : x / PAGE_SIZE * PAGE_SIZE = offset / PAGE_SIZE * PAGE_SIZE
      · rcases hk with ⟨n0, hn0, ho, hdv⟩ | ⟨_, data, hb, hdv⟩
        · exfalso
          exact hp.wf.not_resident hf n0 hn0 (hp.blocks n0 hn0).1 (ho.trans hxa)
        · left
          refine ⟨n, hn, by rw [hno, hxa], ?_⟩
          rw [hnd]
          simp only
          rw [copyIn_outside _ _ _ (outside_range hxa hx)]
          obtain ⟨hsz, hby⟩ := (holdsBlock_iff hh _ _).mp hb
          rw [hxa] at hsz hby
          have hlt : x % PAGE_SIZE < PAGE_SIZE := Nat.mod_lt _ (by decide)
          rw [(hfull hsz).2 _ hlt, hby _ hlt]
          exact hdv
      · exact hk1 x v hxa (hk.of_same_files rfl hev hdisk)

theorem element_in_block (i : Nat) :
    (i * ELEMENT_SIZE) % PAGE_SIZE + ELEMENT_SIZE ≤ PAGE_SIZE := by
  simp only [ELEMENT_SIZE, PAGE_SIZE]
  omega

theorem lab2_write_ok {c c1 : BlockCache} {w w1 : World} {fd : Int} {buf : List Byte}
    {count offset : Nat} (h : c.write w fd buf count offset = some (true, c1, w1)) :
    lab2_write c w fd buf count offset = some ((count : Int), c1, w1) := by
  simp only [lab2_write, h]

/-- The loop of `create_file` during the write phase: every call succeeds, and
every byte of every value is known afterwards. -/
theorem WritePhase.writeValues {fd : Int} {path : String} (vs : List (List Byte))
    (hlen : ∀ v ∈ vs, v.length = ELEMENT_SIZE) (i : Nat) {c : BlockCache} {w : World}
    (hp : WritePhase fd path c w) :
    ∃ c1 w1, writeValues fd vs i c w = some (true, c1, w1) ∧ WritePhase fd path c1 w1 ∧
      (∀ k j, k < vs.length → j < ELEMENT_SIZE →
        Known c1 w1 fd ((i + k) * ELEMENT_SIZE + j) ((vs.getD k []).getD j 0)) ∧
      (∀ x v, Known c w fd x v → x < i * ELEMENT_SIZE → Known c1 w1 fd x v) := by
  induction vs generalizing i c w with
  | nil =>
    refine ⟨c, w, rfl, hp, ?_, fun x v h _ => h⟩
    intro k j hk
    simp at hk
  | cons v vs ih =>
    have hv : v.length = ELEMENT_SIZE := hlen v (List.mem_cons_self _ _)
    obtain ⟨c1, w1, hw, hp1, hnew, hkeep⟩ :=
      @WritePhase.write_step _ _ _ _ hp v ELEMENT_SIZE (i * ELEMENT_SIZE)
        (by rw [hv]) (element_in_block i)
    obtain ⟨c2, w2, hw2, hp2, hnew2, hkeep2⟩ :=
      ih (fun u hu => hlen u (List.mem_cons_of_mem _ hu)) (i + 1) hp1
    refine ⟨c2, w2, ?_, hp2, ?_, ?_⟩
    · simp only [PageCache.writeValues, lab2_write_ok hw, if_true]
      exact hw2
    · intro k j hk hj
      cases k with
      | zero =>
        simp only [Nat.add_zero, List.getD_cons_zero]
        apply hkeep2 _ _ (hnew j hj)
        simp only [ELEMENT_SIZE] at hj ⊢
        omega
      | succ k =>
        simp only [List.getD_cons_succ]
        have := hnew2 k j (by simpa using hk) hj
        rw [show i + (k + 1) = i + 1 + k by omega]
        exact this
    · intro x u hk hx
      apply hkeep2 _ _ (hkeep x u hk (Or.inl hx))
      simp only [ELEMENT_SIZE] at hx ⊢
      omega

/-! ## The round trip: closing -/

/-- In a consistent cache `sync(fd)` leaves alone every block of the files at an
offset where `fd` has no resident block (positioning on `fd` succeeding). -/
theorem BlockCache.WF.sync_preserves {c c1 : BlockCache} (h : c.WF) {w w1 : World} {fd : Int}
    (hsync : c.sync w fd = some (c1, w1)) (hs : ∀ p, w.seekFails fd p = false)
    {fd0 : Int} {off0 : Nat} {data0 : Buffer} (h0 : off0 % PAGE_SIZE = 0)
    (hno : ∀ n ∈ c.cache, n.2.fd = fd → n.2.offset ≠ off0)
    (hold : w.holdsBlock fd0 off0 data0) : w1.holdsBlock fd0 off0 data0 := by
  unfold BlockCache.sync at hsync
  cases hf : assocFind fd c.cacheMap with
  | none =>
    rw [hf] at hsync
    simp only [Option.some.injEq, Prod.mk.injEq] at hsync
    rw [← hsync.2]; exact hold
  | some inner =>
    rw [hf] at hsync
    simp only at hsync
    have hi := mem_of_assocFind hf
    cases hl : syncLoop inner c.cache w with
    | none => rw [hl] at hsync; simp at hsync
    | some r =>
      obtain ⟨l1, w2⟩ := r
      rw [hl] at hsync
      simp only [Option.some.injEq, Prod.mk.injEq] at hsync
      rw [← hsync.2]
      refine syncLoop_preserves hl ?_ hs h0 hold
      intro e he b hb
      obtain ⟨b0, hb0, x1, _⟩ := h.indexed fd inner e.1 e.2 hi he
      have := assoc_unique h.nodupNodes hb hb0
      subst this
      exact ⟨x1, h.aligned _ hb, hno _ hb x1⟩

theorem sync_evolves {c c1 : BlockCache} {w w1 : World} {fd : Int}
    (hsync : c.sync w fd = some (c1, w1)) : w.Evolves w1 := by
  unfold BlockCache.sync at hsync
  split at hsync
  · simp only [Option.some.injEq, Prod.mk.injEq] at hsync
    rw [← hsync.2]; exact World.Evolves.refl w
  · split at hsync
    · simp at hsync
    · rename_i l w2 hl
      simp only [Option.some.injEq, Prod.mk.injEq] at hsync
      rw [← hsync.2]
      exact syncLoop_evolves hl

theorem closeHandle_ok {w : World} {fd : Int} {hd : Handle} (hh : w.handles fd = some hd)
    (hc : w.closeFails fd = false) :
    CloseHandle w fd = (true, { w with handles := Function.update w.handles fd none }) := by
  simp [CloseHandle, hh, hc]

/-- Closing at the end of the write phase: `lab2_close` returns 0, the cache is
empty, and every byte that was known is in the file. -/
theorem WritePhase.close {fd : Int} {path : String} {c : BlockCache} {w : World}
    (hp : WritePhase fd path c w) (hfd : fd ≠ INVALID_HANDLE_VALUE) :
    ∃ c2 w2, lab2_close c w fd = some (0, c2, w2) ∧
      c2.WF ∧ c2.cache = [] ∧ 1 ≤ c2.cacheSize ∧ w2.NoFaults ∧
      (∀ x v, Known c w fd x v →
        ∃ data, (w2.disk path).hasBlock (x / PAGE_SIZE * PAGE_SIZE) data ∧
          data (x % PAGE_SIZE) = v) := by
  obtain ⟨w1, hs⟩ := hp.wf.sync_eq w fd
  obtain ⟨hd, hh, hpath⟩ := hp.handle
  have hev := sync_evolves hs
  obtain ⟨hd1, hh1, hp1⟩ := hev.handle hh
  have hnf1 := hev.noFaults hp.noFaults
  have hnil : c.cache.filter (fun n => decide (n.2.fd ≠ fd)) = [] := by
    rw [List.filter_eq_nil_iff]
    intro n hn
    simp [(hp.blocks n hn).1]
  refine ⟨_, { w1 with handles := Function.update w1.handles fd none }, ?_, hp.wf.dropFd fd,
    hnil, hp.capacity, ?_, ?_⟩
  · simp only [lab2_close, hfd, ne_eq, not_false_eq_true, if_true, BlockCache.close, hs,
      closeHandle_ok hh1 (hnf1.2.2.2.2 fd)]
  · exact ⟨hnf1.1, hnf1.2.1, hnf1.2.2.1, hnf1.2.2.2.1, hnf1.2.2.2.2⟩
  · intro x v hk
    have hkey : ∃ data, w1.holdsBlock fd (x / PAGE_SIZE * PAGE_SIZE) data ∧
        data (x % PAGE_SIZE) = v := by
      rcases hk with ⟨n, hn, ho, hdv⟩ | ⟨hno, data, hb, hdv⟩
      · refine ⟨n.2.data, ?_, hdv⟩
        have := hp.wf.sync_holds hs hh (fun p => hp.noFaults.1 _ _)
          (fun p => hp.noFaults.2.2.1 _ _) hn (hp.blocks n hn).1 (hp.blocks n hn).2
        rw [ho] at this
        exact this
      · exact ⟨data, hp.wf.sync_preserves hs (fun p => hp.noFaults.1 _ _) (aligned_mod x)
          (fun n hn _ => hno n hn) hb, hdv⟩
    obtain ⟨data, hb, hdv⟩ := hkey
    refine ⟨data, ?_, hdv⟩
    have := (holdsBlock_iff hh1 _ _).mp hb
    rw [hp1, hpath] at this
    exact this

/-! ## The round trip: reading back -/

theorem seek_current_ok {w : World} {fd : Int} {hd : Handle}
    (hh : w.handles fd = some hd) (hs : w.seekFails fd hd.pos = false) :
    SetFilePointerEx w fd 0 FILE_CURRENT = (some hd.pos, w.setPos fd hd hd.pos) := by
  simp [SetFilePointerEx, hh, FILE_BEGIN, FILE_CURRENT, FILE_END, hs]

theorem copyOut_drop_take (src : Buffer) {k m n : Nat} (h : k + m ≤ n) :
    ((copyOut src 0 n).drop k).take m = copyOut src k m := by
  apply List.ext_getElem
  · simp [copyOut]; omega
  · intro j h1 h2
    simp [copyOut]

theorem copyOut_congr {src1 src2 : Buffer} (k m : Nat)
    (h : ∀ j, j < m → src1 (k + j) = src2 (k + j)) : copyOut src1 k m = copyOut src2 k m := by
  unfold copyOut
  apply List.map_congr_left
  intro j hj
  exact h j (List.mem_range.mp hj)

theorem ReadPhase.of_same_disk {fd : Int} {path : String} {f : FileData} {c c1 : BlockCache}
    {w w1 : World} (h : ReadPhase fd path f c w) (hc : c1.cache = c.cache)
    (hm : c1.cacheMap = c.cacheMap) (hev : w.Evolves w1) (hd : w1.disk = w.disk) :
    ReadPhase fd path f c1 w1 := by
  refine ⟨h.wf.of_same_blocks hc hm, by rw [hc]; exact h.blocks, ?_, by rw [hd]; exact h.disk,
    hev.noFaults h.noFaults⟩
  obtain ⟨hd0, hh, hp⟩ := h.handle
  obtain ⟨hd1, hh1, hp1⟩ := hev.handle hh
  exact ⟨hd1, hh1, hp1.trans hp⟩

/-- Reading a whole block that the file has, during the read phase: the call
succeeds and delivers the block of the file, and the phase goes on. -/
theorem ReadPhase.read_block {fd : Int} {path : String} {f : FileData} {c : BlockCache}
    {w : World} (hp : ReadPhase fd path f c w) (hcap : 1 ≤ c.cacheSize) {a : Nat}
    (ha : a % PAGE_SIZE = 0) (hsz : a + PAGE_SIZE ≤ f.size) :
    ∃ c1 w1, c.read w fd PAGE_SIZE a =
        some (true, copyOut (fun i => f.bytes (a + i)) 0 PAGE_SIZE, c1, w1) ∧
      ReadPhase fd path f c1 w1 ∧ c1.cacheSize = c.cacheSize := by
  have haa : a / PAGE_SIZE * PAGE_SIZE = a := by
    simp only [PAGE_SIZE] at *
    omega
  have hin : a % PAGE_SIZE + PAGE_SIZE ≤ PAGE_SIZE := by rw [ha]; omega
  cases hf : findIter c.cacheMap fd (a / PAGE_SIZE * PAGE_SIZE) with
  | some it =>
    obtain ⟨blk, hdr, hm, hfd, hoff⟩ := hp.wf.resident hf
    refine ⟨c, w, ?_, hp, rfl⟩
    rw [read_of_hit w PAGE_SIZE hf hdr, if_pos hin, ha]
    have hb := (hp.blocks _ hm).2.2
    simp only at hb
    rw [hoff, haa] at hb
    rw [copyOut_congr 0 PAGE_SIZE (fun j hj => by
      simp only [Nat.zero_add]; exact (hb.2 j hj).symm)]
  | none =>
    obtain ⟨hd, hh, hpath⟩ := hp.handle
    obtain ⟨got, scratch, w2, hrf, hev, hdisk, _, hfull⟩ :=
      read_block_ok (a / PAGE_SIZE * PAGE_SIZE) c.alignedBuffer hh (hp.noFaults.1 _ _)
        (hp.noFaults.2.1 _ _)
    have hfd : w.disk hd.path = f := by rw [hpath]; exact hp.disk
    rw [hfd, haa] at hfull
    obtain ⟨_, hscr⟩ := hfull hsz
    have hp0 : ReadPhase fd path f { c with alignedBuffer := scratch } w2 :=
      hp.of_same_disk rfl rfl hev hdisk
    refine ⟨(({ c with alignedBuffer := scratch } : BlockCache).insertBlock w2 fd
        (a / PAGE_SIZE * PAGE_SIZE) false).1,
      (({ c with alignedBuffer := scratch } : BlockCache).insertBlock w2 fd
        (a / PAGE_SIZE * PAGE_SIZE) false).2,
      by rw [read_of_miss w PAGE_SIZE hf, readMiss_of_ok PAGE_SIZE hrf, if_pos hin,
        ha, copyOut_congr 0 PAGE_SIZE (fun j hj => by simp only [Nat.zero_add]; exact hscr j hj)],
      ?_, insertBlock_cacheSize _ _ _ _ _⟩
    have hev2 := insertBlock_evolves { c with alignedBuffer := scratch } w2 fd
      (a / PAGE_SIZE * PAGE_SIZE) false
    have hcases := insertBlock_cases { c with alignedBuffer := scratch } w2 fd
      (a / PAGE_SIZE * PAGE_SIZE) false hcap
    have hnew : f.hasBlock (a / PAGE_SIZE * PAGE_SIZE) scratch := by
      rw [haa]; exact ⟨hsz, fun i hi => (hscr i hi).symm⟩
    refine ⟨hp0.wf.insertBlock w2 hf (aligned_mod a) false, ?_, ?_, ?_, hev2.noFaults hp0.noFaults⟩
    · intro n hn
      rcases hcases with ⟨it, h1, _⟩ | ⟨it, v, _, _, h1, _⟩
      · rw [h1] at hn
        rcases List.mem_cons.mp hn with e | hn1
        · subst e; exact ⟨rfl, rfl, hnew⟩
        · exact hp.blocks n hn1
      · rw [h1] at hn
        rcases List.mem_cons.mp hn with e | hn1
        · subst e; exact ⟨rfl, rfl, hnew⟩
        · exact hp.blocks n (mem_eraseNode.mp hn1).1
    · obtain ⟨hd0, hh0, hp00⟩ := hp0.handle
      obtain ⟨hd1, hh1, hp1⟩ := hev2.handle hh0
      exact ⟨hd1, hh1, hp1.trans hp00⟩
    · rcases hcases with ⟨it, _, h2⟩ | ⟨it, v, hv, _, _, h2⟩
      · rw [h2]; exact hp0.disk
      · rw [h2, if_neg (by rw [(hp.blocks v hv).2.1]; simp)]
        exact hp0.disk

theorem lab2_lseek_set_ok {w : World} {fd : Int} {hd : Handle} (p : Nat)
    (hh : w.handles fd = some hd) (hs : w.seekFails fd p = false) :
    lab2_lseek w fd (p : Int) SEEK_SET =
      ((p : Int), (w.setPos fd hd p).setPos fd { path := hd.path, pos := p } p) := by
  have h1 : SetFilePointerEx w fd (p : Int) SEEK_SET = (some p, w.setPos fd hd p) :=
    seek_begin_ok p hh hs
  have h2 := seek_current_ok (w := w.setPos fd hd p) (setPos_handles_self w fd hd p) hs
  simp only [lab2_lseek, h1, h2]

/-- `lab2_read` of a whole block that the file has, with the cursor at the start
of the block, during the read phase. -/
theorem ReadPhase.lab2_read_block {fd : Int} {path : String} {f : FileData} {c : BlockCache}
    {w : World} (hp : ReadPhase fd path f c w) (hcap : 1 ≤ c.cacheSize) {hd : Handle}
    (hh : w.handles fd = some hd)
    (ha : hd.pos % PAGE_SIZE = 0) (hsz : hd.pos + PAGE_SIZE ≤ f.size) :
    ∃ c1 w1, lab2_read c w fd PAGE_SIZE =
        some ((PAGE_SIZE : Int), copyOut (fun i => f.bytes (hd.pos + i)) 0 PAGE_SIZE, c1, w1) ∧
      ReadPhase fd path f c1 w1 ∧ c1.cacheSize = c.cacheSize := by
  have h1 := seek_current_ok hh (hp.noFaults.1 _ _)
  have hev1 := setPos_evolves w hd.pos hh
  have hp1 : ReadPhase fd path f c (w.setPos fd hd hd.pos) := hp.of_same_disk rfl rfl hev1 rfl
  obtain ⟨c1, w1, hr, hp2, hcs⟩ := hp1.read_block hcap ha hsz
  obtain ⟨hd2, hh2, _⟩ := hp2.handle
  have h3 := seek_begin_ok (hd.pos + PAGE_SIZE) hh2 (hp2.noFaults.1 _ _)
  refine ⟨c1, w1.setPos fd hd2 (hd.pos + PAGE_SIZE), ?_,
    hp2.of_same_disk rfl rfl (setPos_evolves w1 _ hh2) rfl, hcs⟩
  simp only [lab2_read, h1, hr, h3]

/-- One `get_element` during the read phase, for an element whose block the
file has: it succeeds and delivers the bytes of the file at the element. -/
theorem ReadPhase.get_element {fd : Int} {path : String} {f : FileData} {c : BlockCache}
    {w : World} (hp : ReadPhase fd path f c w) (hcap : 1 ≤ c.cacheSize) (i : Nat)
    (hsz : (i * ELEMENT_SIZE) / PAGE_SIZE * PAGE_SIZE + PAGE_SIZE ≤ f.size) :
    ∃ c1 w1, get_element c w fd i =
        some (true, (List.range ELEMENT_SIZE).map (fun j => f.bytes (i * ELEMENT_SIZE + j)),
          c1, w1) ∧
      ReadPhase fd path f c1 w1 ∧ c1.cacheSize = c.cacheSize := by
  obtain ⟨hd, hh, hpath⟩ := hp.handle
  have hseek := lab2_lseek_set_ok ((i * ELEMENT_SIZE) / PAGE_SIZE * PAGE_SIZE) hh
    (hp.noFaults.1 _ _)
  have hev : w.Evolves ((w.setPos fd hd ((i * ELEMENT_SIZE) / PAGE_SIZE * PAGE_SIZE)).setPos fd
      { path := hd.path, pos := (i * ELEMENT_SIZE) / PAGE_SIZE * PAGE_SIZE }
      ((i * ELEMENT_SIZE) / PAGE_SIZE * PAGE_SIZE)) :=
    (setPos_evolves w _ hh).trans (setPos_evolves _ _ (setPos_handles_self _ _ _ _))
  have hp1 := @ReadPhase.of_same_disk _ _ _ c c w _ hp rfl rfl hev rfl
  obtain ⟨c1, w1, hr, hp2, hcs⟩ := @ReadPhase.lab2_read_block _ _ _ _ _ hp1 hcap
    ⟨hd.path, (i * ELEMENT_SIZE) / PAGE_SIZE * PAGE_SIZE⟩
    (setPos_handles_self _ _ _ _) (aligned_mod _) hsz
  refine ⟨c1, w1, ?_, hp2, hcs⟩
  have hne : ¬ (((i * ELEMENT_SIZE / PAGE_SIZE * PAGE_SIZE : Nat) : Int) = -1) := by
    intro h
    have := Int.natCast_nonneg (i * ELEMENT_SIZE / PAGE_SIZE * PAGE_SIZE)
    rw [h] at this
    exact absurd this (by decide)
  simp only [PageCache.get_element, SECTOR_SIZE] at *
  simp only [PAGE_SIZE] at hseek hr hne
  simp only [hseek, hne, if_false, hr, ne_eq, not_true_eq_false]
  have h4 : i * ELEMENT_SIZE % 4096 + ELEMENT_SIZE ≤ 4096 := element_in_block i
  have := copyOut_drop_take (fun j => f.bytes (i * ELEMENT_SIZE / 4096 * 4096 + j)) h4
  simp only [Option.some.injEq, Prod.mk.injEq, true_and, and_true]
  rw [this]
  unfold copyOut
  apply List.map_congr_left
  intro j _
  simp only
  congr 1
  have := Nat.div_add_mod (i * ELEMENT_SIZE) 4096
  omega

/-- Successive `get_element` calls during the read phase, for elements whose
blocks the file has: all succeed and deliver the bytes of the file. -/
theorem ReadPhase.getElements {fd : Int} {path : String} {f : FileData} (is : List Nat)
    (his : ∀ i ∈ is, (i * ELEMENT_SIZE) / PAGE_SIZE * PAGE_SIZE + PAGE_SIZE ≤ f.size)
    {c : BlockCache} {w : World} (hp : ReadPhase fd path f c w) (hcap : 1 ≤ c.cacheSize) :
    ∃ c1 w1, getElements fd is c w =
      some (true,
        is.map (fun i => (List.range ELEMENT_SIZE).map (fun j => f.bytes (i * ELEMENT_SIZE + j))),
        c1, w1) := by
  induction is generalizing c w with
  | nil => exact ⟨c, w, rfl⟩
  | cons i is ih =>
    obtain ⟨c1, w1, h1, hp1, hcs⟩ := hp.get_element hcap i (his i (List.mem_cons_self _ _))
    obtain ⟨c2, w2, h2⟩ := ih (fun k hk => his k (List.mem_cons_of_mem _ hk)) hp1
      (by rw [hcs]; exact hcap)
    exact ⟨c2, w2, by simp only [PageCache.getElements, h1, h2, if_true, List.map_cons]⟩

/-! ## C2: the round trip through close and reopen -/

/-- C2 (round trip through close and reopen).  For every list of 4-byte values
and every cache capacity at least 1, starting from the empty cache on an open
descriptor, in a world where no physical call fails: the `lab2_write` calls of
values `i` at byte offsets `4 * i` all return 4, `lab2_close` returns 0, the file
then holds every value at its offset, and after the file is opened again (on any
handle) `get_element` returns exactly the value written, for the indices read in
any order and any number of times. -/
theorem close_reopen_round_trip (cacheSize : Nat) (scratch : Buffer) (w : World) (fd : Int)
    (hd : Handle) (vs : List (List Byte)) (hcap : 1 ≤ cacheSize)
    (hlen : ∀ v ∈ vs, v.length = ELEMENT_SIZE) (hfd : fd ≠ INVALID_HANDLE_VALUE)
    (hh : w.handles fd = some hd) (hok : w.NoFaults) :
    ∃ c1 w1 c2 w2,
      writeValues fd vs 0 (BlockCache.init cacheSize scratch) w = some (true, c1, w1) ∧
      lab2_close c1 w1 fd = some (0, c2, w2) ∧
      (∀ i j, i < vs.length → j < ELEMENT_SIZE →
        i * ELEMENT_SIZE + j < (w2.disk hd.path).size ∧
        (w2.disk hd.path).bytes (i * ELEMENT_SIZE + j) = (vs.getD i []).getD j 0) ∧
      ∀ (hFile : Int) (is : List Nat), hFile ≠ INVALID_HANDLE_VALUE →
        (∀ i ∈ is, i < vs.length) →
        ∃ c3 w3, getElements (lab2_open w2 hd.path hFile).1 is c2
            (lab2_open w2 hd.path hFile).2 =
          some (true, is.map (fun i => vs.getD i []), c3, w3) := by
  have hp0 : WritePhase fd hd.path (BlockCache.init cacheSize scratch) w :=
    ⟨WF_init _ _, hcap, by intro n hn; simp [BlockCache.init] at hn, ⟨hd, hh, rfl⟩, hok⟩
  obtain ⟨c1, w1, hw, hp1, hknown, _⟩ := hp0.writeValues vs hlen 0
  obtain ⟨c2, w2, hclose, hwf2, hnil2, hcap2, hnf2, hdisk⟩ := hp1.close hfd
  -- what the file holds
  have hfile : ∀ i j, i < vs.length → j < ELEMENT_SIZE →
      (i * ELEMENT_SIZE) / PAGE_SIZE * PAGE_SIZE + PAGE_SIZE ≤ (w2.disk hd.path).size ∧
      (w2.disk hd.path).bytes (i * ELEMENT_SIZE + j) = (vs.getD i []).getD j 0 := by
    intro i j hi hj
    have hk := hknown i j hi hj
    rw [Nat.zero_add] at hk
    obtain ⟨data, ⟨hsz, hby⟩, hdv⟩ := hdisk _ _ hk
    have hin := in_block_add (element_in_block i) hj
    have hlt : (i * ELEMENT_SIZE + j) % PAGE_SIZE < PAGE_SIZE := Nat.mod_lt _ (by decide)
    refine ⟨by rw [← hin.1]; exact hsz, ?_⟩
    have := hby _ hlt
    rw [block_add_mod] at this
    rw [this]; exact hdv
  refine ⟨c1, w1, c2, w2, hw, hclose, ?_, ?_⟩
  · intro i j hi hj
    obtain ⟨h1, h2⟩ := hfile i j hi hj
    refine ⟨?_, h2⟩
    have := (in_block_add (element_in_block i) hj).2
    simp only [PAGE_SIZE, ELEMENT_SIZE] at *
    omega
  · intro hFile is hne his
    have hopen : lab2_open w2 hd.path hFile = (hFile,
        { w2 with handles := Function.update w2.handles hFile (some ⟨hd.path, 0⟩) }) := by
      simp only [lab2_open, hne, if_false]
    rw [hopen]
    have hp3 : ReadPhase hFile hd.path (w2.disk hd.path) c2
        { w2 with handles := Function.update w2.handles hFile (some ⟨hd.path, 0⟩) } := by
      refine ⟨hwf2, by rw [hnil2]; intro n hn; simp at hn, ⟨_, Function.update_same _ _ _, rfl⟩,
        rfl, ?_⟩
      exact ⟨hnf2.1, hnf2.2.1, hnf2.2.2.1, hnf2.2.2.2.1, hnf2.2.2.2.2⟩
    obtain ⟨c3, w3, hg⟩ := hp3.getElements is
      (fun i hi => (hfile i 0 (his i hi) (by decide)).1) hcap2
    refine ⟨c3, w3, ?_⟩
    rw [hg]
    have hval : is.map (fun i => (List.range ELEMENT_SIZE).map
        (fun j => (w2.disk hd.path).bytes (i * ELEMENT_SIZE + j)))
        = is.map (fun i => vs.getD i []) := by
      apply List.map_congr_left
      intro i hi
      have hil := his i hi
      have hvl : (vs.getD i []).length = ELEMENT_SIZE := by
        apply hlen
        rw [List.getD_eq_getElem _ _ hil]
        exact List.getElem_mem _
      apply List.ext_getElem
      · rw [hvl]; simp
      · intro j h1 h2
        simp only [List.length_map, List.length_range] at h1
        simp only [List.getElem_map, List.getElem_range]
        rw [(hfile i j hil h1).2, List.getD_eq_getElem _ _ h2]
    rw [hval]

/-- Witness of C2: 2048 values (two blocks) written through a cache of capacity
1 to descriptor 3 of the example machine, so that the second block evicts the
first. -/
theorem close_reopen_round_trip_witness :
    ∃ c1 w1 c2 w2,
      writeValues 3 (List.replicate 2048 [1, 2, 3, 4]) 0 (BlockCache.init 1 (fun _ => 0)) exWorld
        = some (true, c1, w1) ∧
      lab2_close c1 w1 3 = some (0, c2, w2) ∧
      (∀ i j, i < (List.replicate 2048 [1, 2, 3, 4]).length → j < ELEMENT_SIZE →
        i * ELEMENT_SIZE + j < (w2.disk "a.bin").size ∧
        (w2.disk "a.bin").bytes (i * ELEMENT_SIZE + j) =
          ((List.replicate 2048 [1, 2, 3, 4]).getD i []).getD j 0) ∧
      ∀ (hFile : Int) (is : List Nat), hFile ≠ INVALID_HANDLE_VALUE →
        (∀ i ∈ is, i < (List.replicate 2048 [1, 2, 3, 4]).length) →
        ∃ c3 w3, getElements (lab2_open w2 "a.bin" hFile).1 is c2
            (lab2_open w2 "a.bin" hFile).2 =
          some (true, is.map (fun i => (List.replicate 2048 [1, 2, 3, 4]).getD i []), c3, w3) :=
  close_reopen_round_trip 1 (fun _ => 0) exWorld 3 { path := "a.bin", pos := 0 }
    (List.replicate 2048 [1, 2, 3, 4]) (by decide)
    (by intro v hv; rw [List.eq_of_mem_replicate hv]; rfl) (by decide) rfl
    ⟨fun _ _ => rfl, fun _ _ => rfl, fun _ _ => rfl, fun _ => rfl, fun _ => rfl⟩

/-! ## C9: clean blocks and storage -/

/-- C9 fails on the code.  Descriptor 4 is open on an empty file.  After a read
of descriptor 3 has left a block of `a.bin` (all sevens) in the shared scratch
buffer, a read of descriptor 4 at offset 0 misses, `ReadFile` succeeds with 0
bytes transferred, and the code, which never looks at `bytesRead`, returns the
stale byte 7 and inserts the scratch buffer as a clean block of descriptor 4,
although the file of descriptor 4 holds no byte at all. -/
theorem clean_block_differs_from_storage :
    Reachable 2 (exRun 2 [.read 3 1 0, .read 4 1 0]).1 (exRun 2 [.read 3 1 0, .read 4 1 0]).2 ∧
    (exRun 2 [.read 3 1 0]).1.read (exRun 2 [.read 3 1 0]).2 4 1 0 =
      some (true, [7], (exRun 2 [.read 3 1 0, .read 4 1 0]).1,
        (exRun 2 [.read 3 1 0, .read 4 1 0]).2) ∧
    exStale ∈ (exRun 2 [.read 3 1 0, .read 4 1 0]).1.cache ∧
    (exStale.2.fd, exStale.2.offset, exStale.2.dirty, exStale.2.data 0) = (4, 0, false, 7) ∧
    ((exRun 2 [.read 3 1 0, .read 4 1 0]).2.file 4).map FileData.size = some 0 ∧
    ¬ CleanBlocksMatchStorage (exRun 2 [.read 3 1 0, .read 4 1 0]).1
        (exRun 2 [.read 3 1 0, .read 4 1 0]).2 := by
  have hmem : exStale ∈ (exRun 2 [.read 3 1 0, .read 4 1 0]).1.cache :=
    List.mem_cons_self _ _
  have hsize : ((exRun 2 [.read 3 1 0, .read 4 1 0]).2.file 4).map FileData.size = some 0 := by
    decide
  refine ⟨⟨fun _ => 0, exWorld, [.read 3 1 0, .read 4 1 0], rfl⟩, rfl, hmem, by decide, hsize, ?_⟩
  intro h
  obtain ⟨f, hf, hsz, _⟩ := h exStale hmem (by decide)
  have e1 : exStale.2.fd = 4 := by decide
  have e2 : exStale.2.offset = 0 := by decide
  rw [e1] at hf
  rw [hf] at hsize
  simp only [Option.map_some', Option.some.injEq] at hsize
  rw [e2, hsize] at hsz
  simp [PAGE_SIZE] at hsz

/-! ## C10: what a write leaves in the rest of the block -/

/-- C10 fails on the code.  Descriptor 4 is open on an empty file and the
scratch buffer holds a block of `a.bin` (all sevens).  A write of the one byte 1
at offset 0 of descriptor 4 misses, `ReadFile` transfers 0 bytes, and the new
block is the stale scratch buffer with byte 0 replaced: its byte 1 is 7, which is
no byte of the file of descriptor 4; the following sync stores it in that
file. -/
theorem write_miss_keeps_stale_bytes :
    (exRun 2 [.read 3 1 0]).1.write (exRun 2 [.read 3 1 0]).2 4 [1] 1 0 =
      some (true, (exRun 2 [.read 3 1 0, .write 4 [1] 1 0]).1,
        (exRun 2 [.read 3 1 0, .write 4 [1] 1 0]).2) ∧
    ((exRun 2 [.read 3 1 0]).2.file 4).map FileData.size = some 0 ∧
    ((exRun 2 [.read 3 1 0, .write 4 [1] 1 0]).1.cache.map
      (fun n => (n.2.fd, n.2.offset, n.2.dirty, n.2.data 0, n.2.data 1, n.2.data 4095))) =
      [(4, 0, true, 1, 7, 7), (3, 0, false, 7, 7, 7)] ∧
    ((exRun 2 [.read 3 1 0, .write 4 [1] 1 0, .sync 4]).2.file 4).map
      (fun f => (f.size, f.bytes 0, f.bytes 1, f.bytes 4095)) = some (4096, 1, 7, 7) ∧
    ¬ WritePreservesRest (exRun 2 [.read 3 1 0]).1 (exRun 2 [.read 3 1 0]).2 4 [1] 1 0
        (exRun 2 [.read 3 1 0, .write 4 [1] 1 0]).1 := by
  refine ⟨rfl, by decide, by decide, by decide, ?_⟩
  rintro ⟨it, blk, _, _, h⟩
  have h1 := h 1 (by decide)
  rw [if_neg (by decide)] at h1
  have h2 : logicalByte (exRun 2 [.read 3 1 0]).1 (exRun 2 [.read 3 1 0]).2 4
      (0 / PAGE_SIZE * PAGE_SIZE) 1 = none := by decide
  rw [h2] at h1
  cases h1

/-- What does hold of C10: the buffer of the covering block after a successful
in-block write is its previous contents with the written range replaced when the
write hits, and also when it misses on a valid handle, positioning and reading
do not fail, and the file has the whole block. -/
theorem write_preserves_rest (c : BlockCache) (w : World) (fd : Int) (buf : List Byte)
    (count offset : Nat) (c1 : BlockCache) (w1 : World) (hwf : c.WF)
    (hw : c.write w fd buf count offset = some (true, c1, w1))
    (hfull : findIter c.cacheMap fd (offset / PAGE_SIZE * PAGE_SIZE) = none →
      ∃ hd, w.handles fd = some hd ∧
        w.seekFails fd (offset / PAGE_SIZE * PAGE_SIZE) = false ∧
        w.readFails fd (offset / PAGE_SIZE * PAGE_SIZE) = false ∧
        offset / PAGE_SIZE * PAGE_SIZE + PAGE_SIZE ≤ (w.disk hd.path).size) :
    WritePreservesRest c w fd buf count offset c1 := by
  cases hf : findIter c.cacheMap fd (offset / PAGE_SIZE * PAGE_SIZE) with
  | some it =>
    obtain ⟨blk, hdr, hm, _, _⟩ := hwf.resident hf
    rw [write_of_hit w buf count hf hdr] at hw
    split at hw
    · simp only [Option.some.injEq, Prod.mk.injEq, true_and] at hw
      rw [← hw.1]
      have h3 := deref_map_update c.cache it
        (fun n2 => n2.store (offset % PAGE_SIZE) buf count)
      rw [hdr, Option.map_some'] at h3
      refine ⟨it, _, hf, h3, ?_⟩
      intro i _
      simp only [CacheBlock.store, copyIn, logicalByte, hf, hdr, Option.map_some']
      split <;> rfl
    · simp at hw
  | none =>
    obtain ⟨hd, hh, hs, hr, hsz⟩ := hfull hf
    obtain ⟨got, scratch, w2, hrf, _, _, _, hscr⟩ :=
      read_block_ok (offset / PAGE_SIZE * PAGE_SIZE) c.alignedBuffer hh hs hr
    rw [write_of_miss w buf count hf, writeMiss_of_ok buf count hrf] at hw
    split at hw
    · simp only [Option.some.injEq, Prod.mk.injEq, true_and] at hw
      obtain ⟨it, rest, m, h1, h2⟩ := insertBlock_head
        { c with alignedBuffer := copyIn scratch (offset % PAGE_SIZE) buf count } w2 fd
        (offset / PAGE_SIZE * PAGE_SIZE) true
      rw [hw.1] at h1 h2
      refine ⟨it,
        ⟨copyIn scratch (offset % PAGE_SIZE) buf count, fd, offset / PAGE_SIZE * PAGE_SIZE, true⟩,
        by rw [h2]; exact findIter_setIter_self _ _ _ _,
        by rw [h1]; simp [deref, assocFind_cons], ?_⟩
      intro i hi
      simp only [copyIn, logicalByte, hf, World.file, hh, Option.map_some']
      split
      · rfl
      · rw [if_pos (by omega), (hscr hsz).2 i hi]
    · simp at hw

/-! ## The entry points `lab2_read` and `lab2_write` -/

theorem setPos_self {w : World} {fd : Int} {hd : Handle} (hh : w.handles fd = some hd) :
    w.setPos fd hd hd.pos = w := by
  unfold World.setPos
  have : Function.update w.handles fd (some { hd with pos := hd.pos }) = w.handles := by
    rw [← hh]; exact Function.update_eq_self fd w.handles
  rw [this]

theorem lab2_read_seek_fail (c : BlockCache) {w : World} {fd : Int} {hd : Handle} (count : Nat)
    (hh : w.handles fd = some hd) (hs : w.seekFails fd hd.pos = true) :
    lab2_read c w fd count = some (-1, [], c, w) := by
  have h : SetFilePointerEx w fd 0 FILE_CURRENT = (none, w) := by
    simp [SetFilePointerEx, hh, FILE_BEGIN, FILE_CURRENT, FILE_END, hs]
  simp only [lab2_read, h]

theorem lab2_read_eq (c : BlockCache) {w : World} {fd : Int} {hd : Handle} (count : Nat)
    (hh : w.handles fd = some hd) (hs : w.seekFails fd hd.pos = false) :
    lab2_read c w fd count =
      (c.read w fd count hd.pos).bind (fun r =>
        if r.1 = true then
          if (SetFilePointerEx r.2.2.2 fd ((hd.pos + count : Nat) : Int) FILE_BEGIN).1.isSome
          then some ((count : Int), r.2.1, r.2.2.1,
            (SetFilePointerEx r.2.2.2 fd ((hd.pos + count : Nat) : Int) FILE_BEGIN).2)
          else some (-1, r.2.1, r.2.2.1,
            (SetFilePointerEx r.2.2.2 fd ((hd.pos + count : Nat) : Int) FILE_BEGIN).2)
        else some (-1, r.2.1, r.2.2.1, r.2.2.2)) := by
  have h := seek_current_ok hh hs
  rw [setPos_self hh] at h
  simp only [lab2_read, h]
  cases hr : c.read w fd count hd.pos with
  | none => rfl
  | some r =>
    obtain ⟨b, out, c1, w1⟩ := r
    cases b with
    | false => simp
    | true =>
      simp only [Option.some_bind, if_true]
      cases hsk : SetFilePointerEx w1 fd ((hd.pos + count : Nat) : Int) FILE_BEGIN with
      | mk a w2 =>
        cases a with
        | none => simp
        | some p => simp

/-! ## C12: the hit path of `read` -/

/-- C12: in a reachable state where a block for (fd, aligned offset) is resident,
an in-block `BlockCache::read` returns true with the `count` bytes of that
block's buffer from `offset - aligned` on, and the cache and the world after the
call are the cache and the world before it. -/
theorem read_hit_is_pure (c : BlockCache) (w : World) (fd : Int) (count offset : Nat)
    (n : Node) (hreach : Reachable c.cacheSize c w) (hn : n ∈ c.cache) (hfd : n.2.fd = fd)
    (hoff : n.2.offset = offset / PAGE_SIZE * PAGE_SIZE)
    (hin : offset - offset / PAGE_SIZE * PAGE_SIZE + count ≤ PAGE_SIZE) :
    c.read w fd count offset =
      some (true, copyOut n.2.data (offset - offset / PAGE_SIZE * PAGE_SIZE) count, c, w) := by
  have hwf := hreach.wf
  have hf := hwf.indexConsistent.2 n hn
  rw [hfd, hoff] at hf
  obtain ⟨b, hdr, hm, _, _⟩ := hwf.resident hf
  have hb : b = n.2 := assoc_unique hwf.nodupNodes hm (show (n.1, n.2) ∈ c.cache from hn)
  rw [sub_aligned] at hin ⊢
  rw [read_of_hit w count hf hdr, if_pos hin, hb]

theorem read_hit_is_pure_witness :
    (exRun 2 [.write 3 [1] 1 0]).1.read (exRun 2 [.write 3 [1] 1 0]).2 3 2 0 =
      some (true, [1, 7], (exRun 2 [.write 3 [1] 1 0]).1, (exRun 2 [.write 3 [1] 1 0]).2) :=
  read_hit_is_pure (exRun 2 [.write 3 [1] 1 0]).1 (exRun 2 [.write 3 [1] 1 0]).2 3 2 0
    ((exRun 2 [.write 3 [1] 1 0]).1.cache.getD 0
      (0, { data := fun _ => 0, fd := 0, offset := 0, dirty := false }))
    ⟨fun _ => 0, exWorld, [.write 3 [1] 1 0], rfl⟩ (List.mem_cons_self _ _) rfl rfl
    (by decide)

/-! ## C18: close and sync -/

/-- C18: `BlockCache::close(fd)` returns the very cache state and world that
`BlockCache::sync(fd)` returns from the same state. -/
theorem close_equals_sync (c : BlockCache) (w : World) (fd : Int) :
    c.close w fd = c.sync w fd := rfl

/-! ## C16: a failed physical read -/

/-- C16: when the block for (fd, aligned offset) is not resident and the
`ReadFile` of the miss path reports an error, `BlockCache::read` and
`BlockCache::write` return false and `lab2_write` returns -1, with the cache
exactly as it was and the contents of every file as they were; `lab2_read`
called with the cursor at `offset` returns -1 in the same way. -/
theorem failed_read_is_atomic (c : BlockCache) (w : World) (fd : Int) (buf : List Byte)
    (count offset : Nat)
    (hmiss : findIter c.cacheMap fd (offset / PAGE_SIZE * PAGE_SIZE) = none)
    (hfail : ReadFile (SetFilePointerEx w fd ((offset / PAGE_SIZE * PAGE_SIZE : Nat) : Int)
      FILE_BEGIN).2 fd c.alignedBuffer PAGE_SIZE = none) :
    (∃ w1, w1.disk = w.disk ∧
      c.read w fd count offset = some (false, [], c, w1) ∧
      c.write w fd buf count offset = some (false, c, w1) ∧
      lab2_write c w fd buf count offset = some (-1, c, w1)) ∧
    (w.cursor fd = some offset →
      ∃ w1, w1.disk = w.disk ∧ lab2_read c w fd count = some (-1, [], c, w1)) := by
  have hr : c.read w fd count offset = some (false, [], c,
      (SetFilePointerEx w fd ((offset / PAGE_SIZE * PAGE_SIZE : Nat) : Int) FILE_BEGIN).2) := by
    rw [read_of_miss w count hmiss, readMiss_of_fail count hfail]
  have hw : c.write w fd buf count offset = some (false, c,
      (SetFilePointerEx w fd ((offset / PAGE_SIZE * PAGE_SIZE : Nat) : Int) FILE_BEGIN).2) := by
    rw [write_of_miss w buf count hmiss, writeMiss_of_fail buf count hfail]
  refine ⟨⟨_, seek_disk w fd _ FILE_BEGIN, hr, hw, ?_⟩, ?_⟩
  · simp only [lab2_write, hw]
  · intro hcur
    unfold World.cursor at hcur
    cases hh : w.handles fd with
    | none => rw [hh] at hcur; cases hcur
    | some hd =>
      rw [hh] at hcur
      have hp : hd.pos = offset := Option.some.inj hcur
      cases hs : w.seekFails fd hd.pos with
      | true => exact ⟨w, rfl, lab2_read_seek_fail c count hh hs⟩
      | false =>
        refine ⟨(SetFilePointerEx w fd ((offset / PAGE_SIZE * PAGE_SIZE : Nat) : Int)
          FILE_BEGIN).2, seek_disk w fd _ FILE_BEGIN, ?_⟩
        rw [lab2_read_eq c count hh hs, hp, hr]
        rfl

theorem failed_read_is_atomic_witness :
    (∃ w1, w1.disk = exReadFault.disk ∧
      (BlockCache.init 2 (fun _ => 0)).read exReadFault 3 1 0 =
        some (false, [], BlockCache.init 2 (fun _ => 0), w1) ∧
      (BlockCache.init 2 (fun _ => 0)).write exReadFault 3 [1] 1 0 =
        some (false, BlockCache.init 2 (fun _ => 0), w1) ∧
      lab2_write (BlockCache.init 2 (fun _ => 0)) exReadFault 3 [1] 1 0 =
        some (-1, BlockCache.init 2 (fun _ => 0), w1)) ∧
    ∃ w1, w1.disk = exReadFault.disk ∧
      lab2_read (BlockCache.init 2 (fun _ => 0)) exReadFault 3 1 =
        some (-1, [], BlockCache.init 2 (fun _ => 0), w1) :=
  ⟨(failed_read_is_atomic (BlockCache.init 2 (fun _ => 0)) exReadFault 3 [1] 1 0 rfl rfl).1,
    (failed_read_is_atomic (BlockCache.init 2 (fun _ => 0)) exReadFault 3 [1] 1 0 rfl rfl).2 rfl⟩

/-! ## Which bytes of the disk a write-back changes -/

theorem writeBlockToDisk_invalid {w : World} {blk : CacheBlock} (hh : w.handles blk.fd = none) :
    writeBlockToDisk w blk = w := by
  unfold writeBlockToDisk
  rw [seek_invalid _ _ hh]
  simp [WriteFile, hh]

theorem writeBlockToDisk_fail {w : World} {blk : CacheBlock} {hd : Handle}
    (hh : w.handles blk.fd = some hd) (hs : w.seekFails blk.fd blk.offset = false)
    (hw : w.writeFails blk.fd blk.offset = true) :
    writeBlockToDisk w blk = w.setPos blk.fd hd blk.offset := by
  unfold writeBlockToDisk
  rw [seek_begin_ok _ hh hs]
  simp only [WriteFile, setPos_handles_self]
  have : (w.setPos blk.fd hd blk.offset).writeFails = w.writeFails := rfl
  simp only [this, hw, if_true]

theorem writeBlockToDisk_frame (w : World) (blk : CacheBlock)
    (hs : w.seekFails blk.fd blk.offset = false) (q : String) (x : Nat)
    (hx : x < (w.disk q).size) :
    w.keepsByte (writeBlockToDisk w blk) q x ∨ w.storageOf blk q x := by
  cases hh : w.handles blk.fd with
  | none =>
    left
    rw [writeBlockToDisk_invalid hh]
    exact ⟨hx, rfl⟩
  | some hd =>
    cases hw : w.writeFails blk.fd blk.offset with
    | true =>
      left
      rw [writeBlockToDisk_fail hh hs hw]
      exact ⟨hx, rfl⟩
    | false =>
      rw [writeBlockToDisk_ok hh hs hw]
      by_cases hq : q = hd.path
      · by_cases hr : blk.offset ≤ x ∧ x < blk.offset + PAGE_SIZE
        · right
          exact ⟨hd, hh, hq.symm, hr.1, hr.2⟩
        · left
          subst hq
          simp only [World.keepsByte, Function.update_same, if_neg hr, if_pos hx]
          exact ⟨lt_of_lt_of_le hx (le_max_left _ _), trivial⟩
      · left
        simp only [World.keepsByte, Function.update_noteq hq]
        exact ⟨hx, trivial⟩

theorem insertBlock_world_cases (c : BlockCache) (w : World) (fd : Int) (a : Nat) (d : Bool) :
    (c.insertBlock w fd a d).2 = w ∨
    ∃ v, v ∈ c.cache ∧ v.2.dirty = true ∧
      (c.insertBlock w fd a d).2 = writeBlockToDisk w v.2 ∧
      (c.insertBlock w fd a d).1.cache =
        (freshNode (eraseNode c.cache v.1),
          { data := c.alignedBuffer, fd := fd, offset := a, dirty := d }) ::
          eraseNode c.cache v.1 := by
  by_cases hc : c.cacheSize ≤ c.cache.length
  · cases hm : minElement c.cache with
    | none =>
      left
      simp only [BlockCache.insertBlock, evict_of_nil w (minElement_eq_none.mp hm), ite_self]
    | some v =>
      rw [insertBlock_of_full w fd a d hc hm]
      cases hdirty : v.2.dirty with
      | false => left; simp
      | true =>
        right
        exact ⟨v, (minElement_spec hm).1, hdirty, by simp, rfl⟩
  · left
    rw [insertBlock_of_room w fd a d hc]

theorem keepsByte_of_disk {w w1 : World} (h : w1.disk = w.disk) {q : String} {x : Nat}
    (hx : x < (w.disk q).size) : w.keepsByte w1 q x := by
  unfold World.keepsByte
  rw [h]
  exact ⟨hx, rfl⟩

/-- What a successful `write` does: the covering block is resident and dirty
afterwards, and the disk is the one before the call unless a dirty block was
evicted, in which case the world is the result of `writeBlockToDisk` of that
block on a world with the disk before the call. -/
theorem write_effect {c c1 : BlockCache} {w w1 : World} {fd : Int} {buf : List Byte}
    {count offset : Nat} (hwf : c.WF)
    (hw : c.write w fd buf count offset = some (true, c1, w1)) :
    (∃ n ∈ c1.cache, n.2.fd = fd ∧ n.2.offset = offset / PAGE_SIZE * PAGE_SIZE ∧
      n.2.dirty = true) ∧
    (w1.disk = w.disk ∨
      ∃ v w2, EvictedDirty c c1 v ∧ w.Evolves w2 ∧ w2.disk = w.disk ∧
        w1 = writeBlockToDisk w2 v.2) := by
  cases hf : findIter c.cacheMap fd (offset / PAGE_SIZE * PAGE_SIZE) with
  | some it =>
    obtain ⟨blk, hdr, hm, hbfd, hboff⟩ := hwf.resident hf
    rw [write_of_hit w buf count hf hdr] at hw
    split at hw
    · simp only [Option.some.injEq, Prod.mk.injEq, true_and] at hw
      obtain ⟨hc1, hw1⟩ := hw
      refine ⟨⟨(it, blk.store (offset % PAGE_SIZE) buf count), ?_, hbfd, hboff, rfl⟩,
        Or.inl (by rw [hw1])⟩
      rw [← hc1]
      simp only [List.mem_map]
      exact ⟨(it, blk), hm, by simp⟩
    · simp at hw
  | none =>
    rw [write_of_miss w buf count hf] at hw
    cases hrf : ReadFile (SetFilePointerEx w fd ((offset / PAGE_SIZE * PAGE_SIZE : Nat) : Int)
        FILE_BEGIN).2 fd c.alignedBuffer PAGE_SIZE with
    | none =>
      rw [writeMiss_of_fail buf count hrf] at hw
      simp at hw
    | some r =>
      obtain ⟨got, scratch, w2⟩ := r
      rw [writeMiss_of_ok buf count hrf] at hw
      split at hw
      · simp only [Option.some.injEq, Prod.mk.injEq, true_and] at hw
        obtain ⟨hc1, hw1⟩ := hw
        have hev : w.Evolves w2 :=
          (seek_evolves w fd _ FILE_BEGIN).trans (readFile_evolves hrf).1
        have hdisk : w2.disk = w.disk :=
          (readFile_evolves hrf).2.trans (seek_disk w fd _ FILE_BEGIN)
        obtain ⟨it, rest, m, h1, _⟩ := insertBlock_head
          { c with alignedBuffer := copyIn scratch (offset % PAGE_SIZE) buf count } w2 fd
          (offset / PAGE_SIZE * PAGE_SIZE) true
        rw [hc1] at h1
        refine ⟨⟨_, by rw [h1]; exact List.mem_cons_self _ _, rfl, rfl, rfl⟩, ?_⟩
        rcases insertBlock_world_cases
          { c with alignedBuffer := copyIn scratch (offset % PAGE_SIZE) buf count } w2 fd
          (offset / PAGE_SIZE * PAGE_SIZE) true with h | ⟨v, hv, hdirty, h2, h3⟩
        · left
          rw [← hw1, h, hdisk]
        · right
          rw [hw1] at h2
          rw [hc1] at h3
          refine ⟨v, w2, ⟨hv, hdirty, ?_⟩, hev, hdisk, h2⟩
          intro m1 hm1 htag
          rw [h3] at hm1
          rcases List.mem_cons.mp hm1 with e | hm3
          · subst e
            exact hwf.not_resident hf v hv htag.1.symm htag.2.symm
          · obtain ⟨hm4, hne⟩ := mem_eraseNode.mp hm3
            apply hne
            rw [hwf.same_key hm4 hv htag.1 htag.2]
      · simp at hw

theorem storageOf_of_evolves {w w2 : World} (hev : w.Evolves w2) {b : CacheBlock} {q : String}
    {x : Nat} (h : w2.storageOf b q x) : w.storageOf b q x := by
  obtain ⟨hd2, hh2, hp, h1, h2⟩ := h
  have := hev.2.2.2.2.2 b.fd
  rw [hh2] at this
  cases hh : w.handles b.fd with
  | none => rw [hh] at this; simp at this
  | some hd =>
    rw [hh] at this
    simp only [Option.map_some', Option.some.injEq] at this
    exact ⟨hd, hh, this ▸ hp, h1, h2⟩

/-! ## C11: deferred write-back -/

/-- C11: after a successful `BlockCache::write` in a reachable state the
covering block is resident with its dirty flag set.  The disk is the one before
the call unless the call evicted a dirty block, and then the world is what
`writeBlockToDisk` of that block makes of a world with the disk before the call.
When positioning a handle at the offset of a resident dirty block does not fail,
every byte of every file either is what it was or lies in the storage of the
dirty block the call evicted; and when no other handle is open on the file of
`fd`, the bytes of the written block are what they were. -/
theorem deferred_write_back (c c1 : BlockCache) (w w1 : World) (fd : Int) (buf : List Byte)
    (count offset : Nat) (hreach : Reachable c.cacheSize c w)
    (hw : c.write w fd buf count offset = some (true, c1, w1)) :
    (∃ n ∈ c1.cache, n.2.fd = fd ∧ n.2.offset = offset / PAGE_SIZE * PAGE_SIZE ∧
      n.2.dirty = true) ∧
    (w1.disk = w.disk ∨
      ∃ v w2, EvictedDirty c c1 v ∧ w.Evolves w2 ∧ w2.disk = w.disk ∧
        w1 = writeBlockToDisk w2 v.2) ∧
    ((∀ n ∈ c.cache, n.2.dirty = true → w.seekFails n.2.fd n.2.offset = false) →
      (∀ q x, x < (w.disk q).size →
        w.keepsByte w1 q x ∨ ∃ v, EvictedDirty c c1 v ∧ w.storageOf v.2 q x) ∧
      (∀ hd, w.handles fd = some hd →
        (∀ h hd2, w.handles h = some hd2 → hd2.path = hd.path → h = fd) →
        ∀ x, offset / PAGE_SIZE * PAGE_SIZE ≤ x → x < offset / PAGE_SIZE * PAGE_SIZE + PAGE_SIZE →
          x < (w.disk hd.path).size → w.keepsByte w1 hd.path x)) := by
  have hwf := hreach.wf
  obtain ⟨hA, hB⟩ := write_effect hwf hw
  refine ⟨hA, hB, ?_⟩
  intro hpos
  have h3 : ∀ q x, x < (w.disk q).size →
      w.keepsByte w1 q x ∨ ∃ v, EvictedDirty c c1 v ∧ w.storageOf v.2 q x := by
    intro q x hx
    rcases hB with hd | ⟨v, w2, hv, hev, hdisk, hw1⟩
    · exact Or.inl (keepsByte_of_disk hd hx)
    · have hs : w2.seekFails v.2.fd v.2.offset = false := by
        rw [hev.1]; exact hpos v hv.1 hv.2.1
      have hx2 : x < (w2.disk q).size := by rw [hdisk]; exact hx
      rcases writeBlockToDisk_frame w2 v.2 hs q x hx2 with hk | hst
      · left
        unfold World.keepsByte at hk ⊢
        rw [hw1, ← hdisk]
        exact hk
      · exact Or.inr ⟨v, hv, storageOf_of_evolves hev hst⟩
  refine ⟨h3, ?_⟩
  intro hd hh hex x hx1 hx2 hx3
  rcases h3 hd.path x hx3 with hk | ⟨v, hv, hd2, hh2, hp2, hv1, hv2⟩
  · exact hk
  · exfalso
    have hfd : v.2.fd = fd := hex _ hd2 hh2 hp2
    obtain ⟨n, hn, hnfd, hnoff, _⟩ := hA
    have hne : v.2.offset ≠ offset / PAGE_SIZE * PAGE_SIZE := by
      intro e
      exact hv.2.2 n hn ⟨hnfd.trans hfd.symm, hnoff.trans e.symm⟩
    have hal := hwf.aligned v hv.1
    rcases aligned_disjoint hal (aligned_mod offset) hne with h | h <;> omega

theorem deferred_write_back_witness :
    (∃ n ∈ (exRun 1 [.write 3 [1] 1 0, .write 4 [2] 1 0]).1.cache,
      n.2.fd = 4 ∧ n.2.offset = 0 / PAGE_SIZE * PAGE_SIZE ∧ n.2.dirty = true) ∧
    (∀ q x, x < ((exRun 1 [.write 3 [1] 1 0]).2.disk q).size →
      (exRun 1 [.write 3 [1] 1 0]).2.keepsByte (exRun 1 [.write 3 [1] 1 0, .write 4 [2] 1 0]).2 q x ∨
      ∃ v, EvictedDirty (exRun 1 [.write 3 [1] 1 0]).1
          (exRun 1 [.write 3 [1] 1 0, .write 4 [2] 1 0]).1 v ∧
        (exRun 1 [.write 3 [1] 1 0]).2.storageOf v.2 q x) :=
  ⟨(deferred_write_back (exRun 1 [.write 3 [1] 1 0]).1
      (exRun 1 [.write 3 [1] 1 0, .write 4 [2] 1 0]).1 (exRun 1 [.write 3 [1] 1 0]).2
      (exRun 1 [.write 3 [1] 1 0, .write 4 [2] 1 0]).2 4 [2] 1 0
      ⟨fun _ => 0, exWorld, [.write 3 [1] 1 0], rfl⟩ rfl).1,
    ((deferred_write_back (exRun 1 [.write 3 [1] 1 0]).1
      (exRun 1 [.write 3 [1] 1 0, .write 4 [2] 1 0]).1 (exRun 1 [.write 3 [1] 1 0]).2
      (exRun 1 [.write 3 [1] 1 0, .write 4 [2] 1 0]).2 4 [2] 1 0
      ⟨fun _ => 0, exWorld, [.write 3 [1] 1 0], rfl⟩ rfl).2.2 (fun _ _ _ => rfl)).1⟩

/-! ## Worlds that differ in the failures of `WriteFile` -/

theorem seek_withWriteFails (w : World) (g : Int → Nat → Bool) (h : Int) (dist : Int)
    (method : Nat) :
    SetFilePointerEx (w.withWriteFails g) h dist method =
      ((SetFilePointerEx w h dist method).1,
        (SetFilePointerEx w h dist method).2.withWriteFails g) := by
  have h1 : (w.withWriteFails g).handles = w.handles := rfl
  have h2 : (w.withWriteFails g).disk = w.disk := rfl
  have h3 : (w.withWriteFails g).seekFails = w.seekFails := rfl
  unfold SetFilePointerEx
  rw [h1, h2, h3]
  cases hh : w.handles h with
  | none => rfl
  | some hd =>
    simp only
    generalize (if method = FILE_BEGIN then (0 : Int) else if method = FILE_CURRENT then
      (hd.pos : Int) else ((w.disk hd.path).size : Int)) = base
    by_cases hc : FILE_END < method ∨ base + dist < 0 ∨ w.seekFails h (base + dist).toNat = true
    · rw [if_pos hc, if_pos hc]
    · rw [if_neg hc, if_neg hc]
      rfl

theorem readFile_withWriteFails (w : World) (g : Int → Nat → Bool) (h : Int) (buf : Buffer)
    (n : Nat) :
    ReadFile (w.withWriteFails g) h buf n =
      (ReadFile w h buf n).map (fun r => (r.1, r.2.1, r.2.2.withWriteFails g)) := by
  unfold ReadFile
  cases hh : w.handles h with
  | none =>
    have : (w.withWriteFails g).handles h = none := hh
    simp only [this, Option.map_none']
  | some hd =>
    have h1 : (w.withWriteFails g).handles h = some hd := hh
    have h2 : (w.withWriteFails g).readFails = w.readFails := rfl
    simp only [h1, h2]
    split
    · rfl
    · rfl

theorem insertBlock_cache_indep (c : BlockCache) (w w1 : World) (fd : Int) (a : Nat) (d : Bool) :
    (c.insertBlock w fd a d).1 = (c.insertBlock w1 fd a d).1 := by
  by_cases hc : c.cacheSize ≤ c.cache.length
  · cases hm : minElement c.cache with
    | none =>
      simp only [BlockCache.insertBlock, evict_of_nil _ (minElement_eq_none.mp hm), ite_self]
    | some v =>
      rw [insertBlock_of_full w fd a d hc hm, insertBlock_of_full w1 fd a d hc hm]
  · rw [insertBlock_of_room w fd a d hc, insertBlock_of_room w1 fd a d hc]

theorem read_withWriteFails (c : BlockCache) (w : World) (g : Int → Nat → Bool) (fd : Int)
    (count offset : Nat) :
    (c.read (w.withWriteFails g) fd count offset).map (fun r => (r.1, r.2.1, r.2.2.1)) =
      (c.read w fd count offset).map (fun r => (r.1, r.2.1, r.2.2.1)) := by
  cases hf : findIter c.cacheMap fd (offset / PAGE_SIZE * PAGE_SIZE) with
  | some it =>
    cases hdr : deref c.cache it with
    | none => rw [read_of_dangling _ count hf hdr, read_of_dangling _ count hf hdr]
    | some blk =>
      rw [read_of_hit _ count hf hdr, read_of_hit _ count hf hdr]
      split <;> rfl
  | none =>
    rw [read_of_miss _ count hf, read_of_miss _ count hf]
    have hrw := readFile_withWriteFails
      (SetFilePointerEx w fd ((offset / PAGE_SIZE * PAGE_SIZE : Nat) : Int) FILE_BEGIN).2 g fd
      c.alignedBuffer PAGE_SIZE
    have hsk : (SetFilePointerEx (w.withWriteFails g) fd
        ((offset / PAGE_SIZE * PAGE_SIZE : Nat) : Int) FILE_BEGIN).2 =
        (SetFilePointerEx w fd ((offset / PAGE_SIZE * PAGE_SIZE : Nat) : Int)
          FILE_BEGIN).2.withWriteFails g := by
      rw [seek_withWriteFails]
    cases hrf : ReadFile (SetFilePointerEx w fd ((offset / PAGE_SIZE * PAGE_SIZE : Nat) : Int)
        FILE_BEGIN).2 fd c.alignedBuffer PAGE_SIZE with
    | none =>
      rw [hrf, Option.map_none', ← hsk] at hrw
      rw [readMiss_of_fail count hrf, readMiss_of_fail count hrw]
      rfl
    | some r =>
      obtain ⟨got, scratch, w2⟩ := r
      rw [hrf, Option.map_some', ← hsk] at hrw
      rw [readMiss_of_ok count hrf, readMiss_of_ok count hrw]
      split
      · simp only [Option.map_some', Option.some.injEq, Prod.mk.injEq, true_and]
        exact insertBlock_cache_indep _ _ _ _ _ _
      · rfl

theorem write_withWriteFails (c : BlockCache) (w : World) (g : Int → Nat → Bool) (fd : Int)
    (buf : List Byte) (count offset : Nat) :
    (c.write (w.withWriteFails g) fd buf count offset).map (fun r => (r.1, r.2.1)) =
      (c.write w fd buf count offset).map (fun r => (r.1, r.2.1)) := by
  cases hf : findIter c.cacheMap fd (offset / PAGE_SIZE * PAGE_SIZE) with
  | some it =>
    cases hdr : deref c.cache it with
    | none => simp only [BlockCache.write, hf, hdr]
    | some blk =>
      rw [write_of_hit _ buf count hf hdr, write_of_hit _ buf count hf hdr]
      split <;> rfl
  | none =>
    rw [write_of_miss _ buf count hf, write_of_miss _ buf count hf]
    have hrw := readFile_withWriteFails
      (SetFilePointerEx w fd ((offset / PAGE_SIZE * PAGE_SIZE : Nat) : Int) FILE_BEGIN).2 g fd
      c.alignedBuffer PAGE_SIZE
    have hsk : (SetFilePointerEx (w.withWriteFails g) fd
        ((offset / PAGE_SIZE * PAGE_SIZE : Nat) : Int) FILE_BEGIN).2 =
        (SetFilePointerEx w fd ((offset / PAGE_SIZE * PAGE_SIZE : Nat) : Int)
          FILE_BEGIN).2.withWriteFails g := by
      rw [seek_withWriteFails]
    cases hrf : ReadFile (SetFilePointerEx w fd ((offset / PAGE_SIZE * PAGE_SIZE : Nat) : Int)
        FILE_BEGIN).2 fd c.alignedBuffer PAGE_SIZE with
    | none =>
      rw [hrf, Option.map_none', ← hsk] at hrw
      rw [writeMiss_of_fail buf count hrf, writeMiss_of_fail buf count hrw]
      rfl
    | some r =>
      obtain ⟨got, scratch, w2⟩ := r
      rw [hrf, Option.map_some', ← hsk] at hrw
      rw [writeMiss_of_ok buf count hrf, writeMiss_of_ok buf count hrw]
      split
      · simp only [Option.map_some', Option.some.injEq, Prod.mk.injEq, true_and]
        exact insertBlock_cache_indep _ _ _ _ _ _
      · rfl

theorem flush_of_evolves {w w1 : World} (hev : w.Evolves w1) (fd : Int) :
    FlushFileBuffers w1 fd = FlushFileBuffers w fd := by
  have h := hev.2.2.2.2.2 fd
  unfold FlushFileBuffers
  rw [hev.2.2.2.1]
  cases h1 : w1.handles fd <;> cases h0 : w.handles fd <;> rw [h1, h0] at h <;> simp at h

theorem close_of_evolves {w w1 : World} (hev : w.Evolves w1) (fd : Int) :
    (CloseHandle w1 fd).1 = (CloseHandle w fd).1 := by
  have h := hev.2.2.2.2.2 fd
  unfold CloseHandle
  rw [hev.2.2.2.2.1]
  cases h1 : w1.handles fd <;> cases h0 : w.handles fd <;> rw [h1, h0] at h <;> simp at h
  simp only
  cases w.closeFails fd <;> rfl

theorem closeHandle_withWriteFails (w : World) (g : Int → Nat → Bool) (fd : Int) :
    (CloseHandle (w.withWriteFails g) fd).1 = (CloseHandle w fd).1 := by
  have h1 : (w.withWriteFails g).handles = w.handles := rfl
  have h2 : (w.withWriteFails g).closeFails = w.closeFails := rfl
  unfold CloseHandle
  rw [h1, h2]
  cases w.handles fd with
  | none => rfl
  | some hd =>
    simp only
    cases w.closeFails fd <;> rfl

/-! ## C13: a failed write-back -/

/-- C13 fails on the code.  On a machine where every `WriteFile` fails, one
byte is written to descriptor 3, so the cache holds a dirty block.  `lab2_fsync`
returns 0 and `lab2_close` returns 0, and a read of descriptor 4 that evicts the
block from a cache of capacity 1 returns true; each time the dirty block is gone
from the cache and byte 0 of `a.bin` is still 7, not the written 1. -/
theorem write_back_failure_unreported :
    (∀ h p, (exRunIn exWriteFault 2 [.write 3 [1] 1 0]).2.writeFails h p = true) ∧
    (exRunIn exWriteFault 2 [.write 3 [1] 1 0]).1.cache.map
      (fun n => (n.2.fd, n.2.offset, n.2.dirty, n.2.data 0)) = [(3, 0, true, 1)] ∧
    (lab2_fsync (exRunIn exWriteFault 2 [.write 3 [1] 1 0]).1
      (exRunIn exWriteFault 2 [.write 3 [1] 1 0]).2 3).map
      (fun r => (r.1, r.2.1.cache.length, (r.2.2.disk "a.bin").bytes 0)) = some (0, 0, 7) ∧
    (lab2_close (exRunIn exWriteFault 2 [.write 3 [1] 1 0]).1
      (exRunIn exWriteFault 2 [.write 3 [1] 1 0]).2 3).map
      (fun r => (r.1, r.2.1.cache.length, (r.2.2.disk "a.bin").bytes 0)) = some (0, 0, 7) ∧
    ((exRunIn exWriteFault 1 [.write 3 [1] 1 0]).1.read
      (exRunIn exWriteFault 1 [.write 3 [1] 1 0]).2 4 1 0).map
      (fun r => (r.1, r.2.2.1.cache.map (fun n => (n.2.fd, n.2.offset)),
        (r.2.2.2.disk "a.bin").bytes 0)) = some (true, [(4, 0)], 7) := by
  refine ⟨fun _ _ => rfl, by decide, by decide, by decide, by decide⟩

/-- C13, amended: a failed write-back is not reported and the block is dropped
all the same.  From a reachable state, whatever calls of `WriteFile` fail,
`lab2_fsync` returns 0 exactly when `FlushFileBuffers` succeeds and `lab2_close`
returns 0 exactly when `CloseHandle` succeeds, both leave the cache without any
block of `fd`, and `BlockCache::read` and `BlockCache::write` return the same
flag, the same bytes and the same cache as they do when no `WriteFile` fails
differently. -/
theorem write_back_failure_is_only_logged (c : BlockCache) (w : World) (fd : Int)
    (buf : List Byte) (count offset : Nat) (g : Int → Nat → Bool)
    (hreach : Reachable c.cacheSize c w) :
    (lab2_fsync c (w.withWriteFails g) fd).map (fun r => (r.1, r.2.1)) =
      some ((if FlushFileBuffers w fd = true then 0 else -1), c.drop fd) ∧
    (fd ≠ INVALID_HANDLE_VALUE →
      (lab2_close c (w.withWriteFails g) fd).map (fun r => (r.1, r.2.1)) =
        some ((if (CloseHandle w fd).1 = true then 0 else -1), c.drop fd)) ∧
    (c.read (w.withWriteFails g) fd count offset).map (fun r => (r.1, r.2.1, r.2.2.1)) =
      (c.read w fd count offset).map (fun r => (r.1, r.2.1, r.2.2.1)) ∧
    (c.write (w.withWriteFails g) fd buf count offset).map (fun r => (r.1, r.2.1)) =
      (c.write w fd buf count offset).map (fun r => (r.1, r.2.1)) := by
  obtain ⟨w1, hs⟩ := hreach.wf.sync_eq (w.withWriteFails g) fd
  have hev : (w.withWriteFails g).Evolves w1 := sync_evolves hs
  have hfl : FlushFileBuffers w1 fd = FlushFileBuffers w fd := flush_of_evolves hev fd
  have hc : (CloseHandle w1 fd).1 = (CloseHandle w fd).1 :=
    (close_of_evolves hev fd).trans (closeHandle_withWriteFails w g fd)
  refine ⟨?_, ?_, read_withWriteFails c w g fd count offset,
    write_withWriteFails c w g fd buf count offset⟩
  · simp only [lab2_fsync, hs, hfl]
    split <;> rfl
  · intro hfd
    simp only [lab2_close, hfd, BlockCache.close, hs, ne_eq, not_false_eq_true, if_true]
    cases hcl : CloseHandle w1 fd with
    | mk b w2 =>
      rw [hcl] at hc
      simp only at hc
      rw [← hc]
      cases b <;> rfl

theorem write_back_failure_is_only_logged_witness :
    (lab2_fsync (exRun 1 [.write 3 [1] 1 0]).1
      ((exRun 1 [.write 3 [1] 1 0]).2.withWriteFails (fun _ _ => true)) 3).map
      (fun r => (r.1, r.2.1)) =
      some ((if FlushFileBuffers (exRun 1 [.write 3 [1] 1 0]).2 3 = true then 0 else -1),
        (exRun 1 [.write 3 [1] 1 0]).1.drop 3) ∧
    ((exRun 1 [.write 3 [1] 1 0]).1.read
      ((exRun 1 [.write 3 [1] 1 0]).2.withWriteFails (fun _ _ => true)) 4 1 0).map
      (fun r => (r.1, r.2.1, r.2.2.1)) =
      ((exRun 1 [.write 3 [1] 1 0]).1.read (exRun 1 [.write 3 [1] 1 0]).2 4 1 0).map
        (fun r => (r.1, r.2.1, r.2.2.1)) :=
  ⟨(write_back_failure_is_only_logged (exRun 1 [.write 3 [1] 1 0]).1
      (exRun 1 [.write 3 [1] 1 0]).2 3 [] 0 0 (fun _ _ => true)
      ⟨fun _ => 0, exWorld, [.write 3 [1] 1 0], rfl⟩).1,
    (write_back_failure_is_only_logged (exRun 1 [.write 3 [1] 1 0]).1
      (exRun 1 [.write 3 [1] 1 0]).2 4 [] 1 0 (fun _ _ => true)
      ⟨fun _ => 0, exWorld, [.write 3 [1] 1 0], rfl⟩).2.2.1⟩

/-! ## C14: requests that cross a block boundary -/

/-- C14 fails on the code.  The block of descriptor 3 at offset 0 is resident.
A read and a write of 2 bytes at offset 4095 hit it and copy 2 bytes from
position 4095 of its 4096-byte buffer: the result is undefined behaviour, not the
failure value, for `BlockCache::read`, `BlockCache::write`, `lab2_write` and,
with the cursor at 4095, `lab2_read`.  The same holds on the miss path of
descriptor 4, whose physical read succeeds. -/
theorem boundary_crossing_not_rejected :
    PAGE_SIZE < 4095 % PAGE_SIZE + 2 ∧
    (exRun 2 [.read 3 1 0]).1.cache.map (fun n => (n.2.fd, n.2.offset)) = [(3, 0)] ∧
    (exRun 2 [.read 3 1 0]).1.read (exRun 2 [.read 3 1 0]).2 3 2 4095 = none ∧
    (exRun 2 [.read 3 1 0]).1.write (exRun 2 [.read 3 1 0]).2 3 [1, 1] 2 4095 = none ∧
    lab2_write (exRun 2 [.read 3 1 0]).1 (exRun 2 [.read 3 1 0]).2 3 [1, 1] 2 4095 = none ∧
    lab2_read (exRun 2 [.read 3 1 0]).1
      (lab2_lseek (exRun 2 [.read 3 1 0]).2 3 4095 SEEK_SET).2 3 2 = none ∧
    (exRun 2 [.read 3 1 0]).1.read (exRun 2 [.read 3 1 0]).2 4 2 4095 = none ∧
    (exRun 2 [.read 3 1 0]).1.write (exRun 2 [.read 3 1 0]).2 4 [1, 1] 2 4095 = none := by
  refine ⟨by decide, by decide, rfl, rfl, rfl, rfl, rfl, rfl⟩

/-- C14, amended: `BlockCache::read` and `BlockCache::write` do not check the
block boundary.  For a request with `offset mod 4096 + count > 4096` they have
undefined behaviour (the copy runs past the block buffer) on the hit path and on
the miss path when `ReadFile` succeeds; when the `ReadFile` of the miss fails
they return false with the cache unchanged. -/
theorem boundary_crossing_is_undefined (c : BlockCache) (w : World) (fd : Int) (buf : List Byte)
    (count offset : Nat) (hcross : PAGE_SIZE < offset % PAGE_SIZE + count) :
    (∀ it, findIter c.cacheMap fd (offset / PAGE_SIZE * PAGE_SIZE) = some it →
      c.read w fd count offset = none ∧ c.write w fd buf count offset = none ∧
      lab2_write c w fd buf count offset = none) ∧
    (findIter c.cacheMap fd (offset / PAGE_SIZE * PAGE_SIZE) = none →
      (∀ r, ReadFile (SetFilePointerEx w fd ((offset / PAGE_SIZE * PAGE_SIZE : Nat) : Int)
          FILE_BEGIN).2 fd c.alignedBuffer PAGE_SIZE = some r →
        c.read w fd count offset = none ∧ c.write w fd buf count offset = none ∧
        lab2_write c w fd buf count offset = none) ∧
      (ReadFile (SetFilePointerEx w fd ((offset / PAGE_SIZE * PAGE_SIZE : Nat) : Int)
          FILE_BEGIN).2 fd c.alignedBuffer PAGE_SIZE = none →
        ∃ w1, c.read w fd count offset = some (false, [], c, w1) ∧
          c.write w fd buf count offset = some (false, c, w1) ∧
          lab2_write c w fd buf count offset = some (-1, c, w1))) := by
  have hn : ¬ offset % PAGE_SIZE + count ≤ PAGE_SIZE := by omega
  have hn2 : ¬ (offset % PAGE_SIZE + count ≤ PAGE_SIZE ∧ count ≤ buf.length) := fun h => hn h.1
  refine ⟨?_, ?_⟩
  · intro it hf
    have hr : c.read w fd count offset = none := by
      cases hdr : deref c.cache it with
      | none => exact read_of_dangling w count hf hdr
      | some blk => rw [read_of_hit w count hf hdr, if_neg hn]
    have hw : c.write w fd buf count offset = none := by
      cases hdr : deref c.cache it with
      | none => exact write_of_dangling w buf count hf hdr
      | some blk => rw [write_of_hit w buf count hf hdr, if_neg hn2]
    exact ⟨hr, hw, by simp only [lab2_write, hw]⟩
  · intro hf
    refine ⟨?_, ?_⟩
    · rintro ⟨got, scratch, w2⟩ hrf
      have hr : c.read w fd count offset = none := by
        rw [read_of_miss w count hf, readMiss_of_ok count hrf, if_neg hn]
      have hw : c.write w fd buf count offset = none := by
        rw [write_of_miss w buf count hf, writeMiss_of_ok buf count hrf, if_neg hn2]
      exact ⟨hr, hw, by simp only [lab2_write, hw]⟩
    · intro hrf
      have hr := readMiss_of_fail count hrf
      have hw := writeMiss_of_fail buf count hrf
      rw [← read_of_miss w count hf] at hr
      rw [← write_of_miss w buf count hf] at hw
      exact ⟨_, hr, hw, by simp only [lab2_write, hw]⟩

theorem boundary_crossing_is_undefined_witness :
    (exRun 2 [.read 3 1 0]).1.read (exRun 2 [.read 3 1 0]).2 3 2 4095 = none ∧
    (exRun 2 [.read 3 1 0]).1.write (exRun 2 [.read 3 1 0]).2 3 [1, 1] 2 4095 = none ∧
    lab2_write (exRun 2 [.read 3 1 0]).1 (exRun 2 [.read 3 1 0]).2 3 [1, 1] 2 4095 = none :=
  (boundary_crossing_is_undefined (exRun 2 [.read 3 1 0]).1 (exRun 2 [.read 3 1 0]).2 3 [1, 1]
    2 4095 (by decide)).1 _ rfl

/-! ## C15: short transfers and positioning failures -/

/-- C15 fails on the code.  On a fresh cache, a read and a write of descriptor 4
(an empty file) miss; `ReadFile` transfers 0 of the 4096 bytes, yet `read` and
`write` return true and `lab2_read` and `lab2_write` return the count 1.  On the
machine where positioning descriptor 6 at 4096 fails, a read of that block
returns true with the byte 1 of the block at offset 0 (the file has 2 there),
`lab2_write` returns 1, and the inserted block of offset 4096 holds the bytes of
the block at offset 0. -/
theorem short_read_and_failed_seek_succeed :
    (ReadFile (SetFilePointerEx exWorld 4 ((0 / PAGE_SIZE * PAGE_SIZE : Nat) : Int)
      FILE_BEGIN).2 4 (fun _ => 0) PAGE_SIZE).map (fun r => r.1) = some 0 ∧
    ((BlockCache.init 2 (fun _ => 0)).read exWorld 4 1 0).map (fun r => (r.1, r.2.1)) =
      some (true, [0]) ∧
    ((BlockCache.init 2 (fun _ => 0)).write exWorld 4 [1] 1 0).map (fun r => r.1) = some true ∧
    (lab2_read (BlockCache.init 2 (fun _ => 0)) exWorld 4 1).map (fun r => (r.1, r.2.1)) =
      some (1, [0]) ∧
    (lab2_write (BlockCache.init 2 (fun _ => 0)) exWorld 4 [1] 1 0).map (fun r => r.1) =
      some 1 ∧
    (SetFilePointerEx exSeekFault 6 ((4096 / PAGE_SIZE * PAGE_SIZE : Nat) : Int)
      FILE_BEGIN).1 = none ∧
    (exSeekFault.file 6).map (fun f => (f.size, f.bytes 0, f.bytes 4096)) = some (8192, 1, 2) ∧
    ((BlockCache.init 2 (fun _ => 0)).read exSeekFault 6 1 4096).map
      (fun r => (r.1, r.2.1, r.2.2.1.cache.map (fun n => (n.2.fd, n.2.offset, n.2.data 0)))) =
      some (true, [1], [(6, 4096, 1)]) ∧
    (lab2_write (BlockCache.init 2 (fun _ => 0)) exSeekFault 6 [9] 1 4097).map
      (fun r => (r.1, r.2.1.cache.map (fun n => (n.2.fd, n.2.offset, n.2.data 0, n.2.data 1)))) =
      some (1, [(6, 4096, 1, 9)]) := by
  refine ⟨by decide, by decide, by decide, by decide, by decide, by decide, by decide,
    by decide, by decide⟩

/-! ## C17: reading at the cursor -/

/-- C17 fails on the code.  After a read of descriptor 3 the scratch buffer
holds sevens.  Descriptor 4 is open on an empty file with its cursor at 0 and
has no resident block.  `lab2_read(4, buf, 1)` returns 1, delivers the byte 7
and leaves the cursor at 1, but the file of descriptor 4 has no byte at
position 0: the delivered byte is not the logical contents. -/
theorem lab2_read_delivers_stale_byte :
    (exRun 2 [.read 3 1 0]).2.cursor 4 = some 0 ∧
    ((exRun 2 [.read 3 1 0]).2.file 4).map FileData.size = some 0 ∧
    (lab2_read (exRun 2 [.read 3 1 0]).1 (exRun 2 [.read 3 1 0]).2 4 1).map
      (fun r => (r.1, r.2.1, r.2.2.2.cursor 4)) = some (1, [7], some 1) ∧
    logicalByte (exRun 2 [.read 3 1 0]).1 (exRun 2 [.read 3 1 0]).2 4
      (0 / PAGE_SIZE * PAGE_SIZE) (0 % PAGE_SIZE + 0) = none ∧
    ¬ DeliversLogical (exRun 2 [.read 3 1 0]).1 (exRun 2 [.read 3 1 0]).2 4 0 [7] := by
  refine ⟨by decide, by decide, by decide, by decide, ?_⟩
  intro h
  have h0 := h 0 (by decide)
  have h1 : logicalByte (exRun 2 [.read 3 1 0]).1 (exRun 2 [.read 3 1 0]).2 4
      (0 / PAGE_SIZE * PAGE_SIZE) (0 % PAGE_SIZE + 0) = none := by decide
  rw [h1] at h0
  cases h0

/-! ## C19: `lab2_write` and the cursors -/

/-- C19 fails on the code.  With the cursor of descriptor 3 at 100, a
`lab2_write` of one byte at offset 0 of descriptor 3 misses, returns 1 and leaves
the cursor of descriptor 3 at 4096.  With a dirty block of descriptor 3 in a
cache of capacity 1 and the cursor of descriptor 3 at 100, a `lab2_write` on
descriptor 4 returns 1, evicts that block and leaves the cursor of descriptor 3
at 4096. -/
theorem lab2_write_moves_cursor :
    (lab2_lseek exWorld 3 100 SEEK_SET).2.cursor 3 = some 100 ∧
    (lab2_write (BlockCache.init 2 (fun _ => 0)) (lab2_lseek exWorld 3 100 SEEK_SET).2
      3 [1] 1 0).map (fun r => (r.1, r.2.2.cursor 3)) = some (1, some 4096) ∧
    (lab2_lseek (exRun 1 [.write 3 [1] 1 0]).2 3 100 SEEK_SET).2.cursor 3 = some 100 ∧
    (lab2_write (exRun 1 [.write 3 [1] 1 0]).1
      (lab2_lseek (exRun 1 [.write 3 [1] 1 0]).2 3 100 SEEK_SET).2 4 [2] 1 0).map
      (fun r => (r.1, r.2.2.cursor 3, r.2.2.cursor 4)) = some (1, some 4096, some 0) ∧
    (∀ c1 w1, lab2_write (BlockCache.init 2 (fun _ => 0))
        (lab2_lseek exWorld 3 100 SEEK_SET).2 3 [1] 1 0 = some (1, c1, w1) →
      ¬ CursorsKept (lab2_lseek exWorld 3 100 SEEK_SET).2 w1) := by
  refine ⟨by decide, by decide, by decide, by decide, ?_⟩
  intro c1 w1 h hk
  have h2 : (lab2_write (BlockCache.init 2 (fun _ => 0)) (lab2_lseek exWorld 3 100 SEEK_SET).2
      3 [1] 1 0).map (fun r => r.2.2.cursor 3) = some (some 4096) := by decide
  rw [h] at h2
  simp only [Option.map_some', Option.some.injEq] at h2
  have h3 := hk 3
  rw [h2] at h3
  revert h3
  decide

/-! ## C20: what a miss returns -/

/-- C20 fails on the code.  The fresh cache and the cache after a read of
descriptor 3 face the same disk and neither holds a block for (4, 0).  A read of
one byte at offset 0 of descriptor 4 (an empty file) misses in both, returns
the byte 0 and inserts a block of zeros in the first, and returns the byte 7 and
inserts a block of sevens in the second: the leftovers of the scratch buffer. -/
theorem miss_depends_on_history :
    (exRun 2 [.read 3 1 0]).2.disk = (exRun 2 []).2.disk ∧
    findIter (exRun 2 []).1.cacheMap 4 (0 / PAGE_SIZE * PAGE_SIZE) = none ∧
    findIter (exRun 2 [.read 3 1 0]).1.cacheMap 4 (0 / PAGE_SIZE * PAGE_SIZE) = none ∧
    ((exRun 2 []).1.read (exRun 2 []).2 4 1 0).map
      (fun r => (r.1, r.2.1, (r.2.2.1.cache.take 1).map
        (fun n => (n.2.fd, n.2.offset, n.2.data 0, n.2.data 4095)))) =
      some (true, [0], [(4, 0, 0, 0)]) ∧
    ((exRun 2 [.read 3 1 0]).1.read (exRun 2 [.read 3 1 0]).2 4 1 0).map
      (fun r => (r.1, r.2.1, (r.2.2.1.cache.take 1).map
        (fun n => (n.2.fd, n.2.offset, n.2.data 0, n.2.data 4095)))) =
      some (true, [7], [(4, 0, 7, 7)]) := by
  refine ⟨rfl, by decide, by decide, rfl, rfl⟩

/-! ## What a write-back leaves alone -/

theorem writeFile_other {w w1 : World} {h : Int} {buf : Buffer} {n k : Nat} {fd2 : Int}
    {q : String} (hw : WriteFile w h buf n = some (k, w1)) (hfd : h ≠ fd2)
    (hq : ∀ hd, w.handles h = some hd → hd.path ≠ q) :
    w1.disk q = w.disk q ∧ w1.handles fd2 = w.handles fd2 := by
  unfold WriteFile at hw
  cases hh : w.handles h with
  | none => rw [hh] at hw; simp at hw
  | some hd =>
    rw [hh] at hw
    simp only at hw
    split at hw
    · simp at hw
    · simp only [Option.some.injEq, Prod.mk.injEq] at hw
      rw [← hw.2]
      exact ⟨Function.update_noteq (Ne.symm (hq hd hh)) _ _,
        Function.update_noteq (Ne.symm hfd) _ _⟩

theorem seek_other (w : World) {h : Int} (dist : Int) (method : Nat) {fd2 : Int}
    (hfd : h ≠ fd2) : (SetFilePointerEx w h dist method).2.handles fd2 = w.handles fd2 := by
  rcases seek_cases w h dist method with e | ⟨hd, p, hh, e⟩
  · rw [e]
  · rw [e]
    exact Function.update_noteq (Ne.symm hfd) _ _

theorem writeBlockToDisk_other {w : World} {blk : CacheBlock} {fd2 : Int} {q : String}
    (hfd : blk.fd ≠ fd2) (hq : ∀ hd, w.handles blk.fd = some hd → hd.path ≠ q) :
    (writeBlockToDisk w blk).disk q = w.disk q ∧
    (writeBlockToDisk w blk).handles fd2 = w.handles fd2 := by
  have hev := seek_evolves w blk.fd (blk.offset : Int) FILE_BEGIN
  have h1 := seek_disk w blk.fd (blk.offset : Int) FILE_BEGIN
  have h2 := seek_other w (blk.offset : Int) FILE_BEGIN hfd
  cases hwf : WriteFile (SetFilePointerEx w blk.fd (blk.offset : Int) FILE_BEGIN).2 blk.fd
      blk.data PAGE_SIZE with
  | none =>
    have e : writeBlockToDisk w blk =
        (SetFilePointerEx w blk.fd (blk.offset : Int) FILE_BEGIN).2 := by
      simp only [writeBlockToDisk, hwf]
    rw [e]
    exact ⟨by rw [h1], h2⟩
  | some r =>
    obtain ⟨k, w2⟩ := r
    have e : writeBlockToDisk w blk = w2 := by
      simp only [writeBlockToDisk, hwf]
    rw [e]
    have h3 := @writeFile_other _ w2 blk.fd blk.data PAGE_SIZE k fd2 q hwf hfd (by
      intro hd1 hh1
      have := hev.2.2.2.2.2 blk.fd
      rw [hh1] at this
      cases hh : w.handles blk.fd with
      | none => rw [hh] at this; simp at this
      | some hd =>
        rw [hh] at this
        simp only [Option.map_some', Option.some.injEq] at this
        rw [this]
        exact hq hd hh)
    exact ⟨by rw [h3.1, h1], by rw [h3.2, h2]⟩

theorem syncLoop_other {inner : OffsetMap} {l l1 : List Node} {w w1 : World} {fd fd2 : Int}
    {q : String} (h : syncLoop inner l w = some (l1, w1))
    (hl : ∀ e ∈ inner, ∀ b, (e.2, b) ∈ l → b.fd = fd) (hfd : fd ≠ fd2)
    (hq : ∀ hd, w.handles fd = some hd → hd.path ≠ q) :
    w1.disk q = w.disk q ∧ w1.handles fd2 = w.handles fd2 := by
  induction inner generalizing l w with
  | nil =>
    simp only [syncLoop, Option.some.injEq, Prod.mk.injEq] at h
    rw [← h.2]; exact ⟨rfl, rfl⟩
  | cons e rest ih =>
    obtain ⟨off, it⟩ := e
    simp only [syncLoop] at h
    cases hd : deref l it with
    | none => rw [hd] at h; simp at h
    | some blk =>
      rw [hd] at h
      simp only at h
      have hb1 := hl (off, it) (List.mem_cons_self _ _) blk (mem_of_assocFind hd)
      have hev : w.Evolves (if blk.dirty = true then writeBlockToDisk w blk else w) := by
        split
        · exact writeBlockToDisk_evolves w blk
        · exact World.Evolves.refl w
      have hstep : (if blk.dirty = true then writeBlockToDisk w blk else w).disk q = w.disk q ∧
          (if blk.dirty = true then writeBlockToDisk w blk else w).handles fd2 =
            w.handles fd2 := by
        split
        · exact writeBlockToDisk_other (by rw [hb1]; exact hfd) (by rw [hb1]; exact hq)
        · exact ⟨rfl, rfl⟩
      have := ih h (fun e he b hb => hl e (List.mem_cons_of_mem _ he) b (mem_eraseNode.mp hb).1)
        (by
          intro hd1 hh1
          have := hev.2.2.2.2.2 fd
          rw [hh1] at this
          cases hh : w.handles fd with
          | none => rw [hh] at this; simp at this
          | some hd0 =>
            rw [hh] at this
            simp only [Option.map_some', Option.some.injEq] at this
            rw [this]
            exact hq hd0 hh)
      exact ⟨this.1.trans hstep.1, this.2.trans hstep.2⟩

/-! ## C21: the frame of `sync` -/

/-- C21: in a reachable state, for `fd ≠ fd2`, `BlockCache::sync(fd)` returns,
every resident block of `fd2` is still in the list as the same node (same buffer,
same dirty flag) and is still what the index finds under its tag, and, the handle
of `fd` not being open on the file of `fd2`, the file of `fd2` has the same
contents and the handle of `fd2` the same file pointer. -/
theorem sync_touches_only_its_descriptor (c : BlockCache) (w : World) (fd fd2 : Int)
    (hreach : Reachable c.cacheSize c w) (hne : fd ≠ fd2) :
    ∃ c1 w1, c.sync w fd = some (c1, w1) ∧
      (∀ n ∈ c.cache, n.2.fd = fd2 →
        n ∈ c1.cache ∧ findIter c1.cacheMap fd2 n.2.offset = some n.1) ∧
      (∀ hd2, w.handles fd2 = some hd2 →
        (∀ hd, w.handles fd = some hd → hd.path ≠ hd2.path) →
        w1.disk hd2.path = w.disk hd2.path ∧ w1.handles fd2 = some hd2) := by
  have hwf := hreach.wf
  obtain ⟨w1, hs⟩ := hwf.sync_eq w fd
  refine ⟨_, w1, hs, ?_, ?_⟩
  · intro n hn hfd2
    have hwf1 := hwf.sync hs
    have hm : n ∈ c.cache.filter (fun n => decide (n.2.fd ≠ fd)) := by
      rw [List.mem_filter]
      exact ⟨hn, by rw [hfd2]; exact decide_eq_true (Ne.symm hne)⟩
    refine ⟨hm, ?_⟩
    have := hwf1.indexConsistent.2 n hm
    rw [hfd2] at this
    exact this
  · intro hd2 hh2 hq
    unfold BlockCache.sync at hs
    cases hf : assocFind fd c.cacheMap with
    | none =>
      rw [hf] at hs
      simp only [Option.some.injEq, Prod.mk.injEq] at hs
      rw [← hs.2]
      exact ⟨rfl, hh2⟩
    | some inner =>
      rw [hf] at hs
      simp only at hs
      have hi := mem_of_assocFind hf
      cases hl : syncLoop inner c.cache w with
      | none => rw [hl] at hs; simp at hs
      | some r =>
        obtain ⟨l1, w2⟩ := r
        rw [hl] at hs
        simp only [Option.some.injEq, Prod.mk.injEq] at hs
        rw [← hs.2]
        have := @syncLoop_other inner c.cache l1 w w2 fd fd2 hd2.path hl (by
          intro e he b hb
          obtain ⟨b0, hb0, x1, _⟩ := hwf.indexed fd inner e.1 e.2 hi he
          have := assoc_unique hwf.nodupNodes hb hb0
          subst this
          exact x1) hne hq
        exact ⟨this.1, this.2.trans hh2⟩

theorem sync_touches_only_its_descriptor_witness :
    ∃ c1 w1, (exRun 2 [.write 3 [1] 1 0, .write 4 [2] 1 0]).1.sync
        (exRun 2 [.write 3 [1] 1 0, .write 4 [2] 1 0]).2 3 = some (c1, w1) ∧
      (∀ n ∈ (exRun 2 [.write 3 [1] 1 0, .write 4 [2] 1 0]).1.cache, n.2.fd = 4 →
        n ∈ c1.cache ∧ findIter c1.cacheMap 4 n.2.offset = some n.1) ∧
      (∀ hd2, (exRun 2 [.write 3 [1] 1 0, .write 4 [2] 1 0]).2.handles 4 = some hd2 →
        (∀ hd, (exRun 2 [.write 3 [1] 1 0, .write 4 [2] 1 0]).2.handles 3 = some hd →
          hd.path ≠ hd2.path) →
        w1.disk hd2.path = (exRun 2 [.write 3 [1] 1 0, .write 4 [2] 1 0]).2.disk hd2.path ∧
        w1.handles 4 = some hd2) :=
  sync_touches_only_its_descriptor (exRun 2 [.write 3 [1] 1 0, .write 4 [2] 1 0]).1
    (exRun 2 [.write 3 [1] 1 0, .write 4 [2] 1 0]).2 3 4
    ⟨fun _ => 0, exWorld, [.write 3 [1] 1 0, .write 4 [2] 1 0], rfl⟩ (by decide)

/-! ## The order of the block list -/

theorem minElementFrom_first (best : Node) (l : List Node) :
    (minElementFrom best l = best ∧ ∀ n ∈ l, best.2.offset ≤ n.2.offset) ∨
    ∃ l1 l2, l = l1 ++ minElementFrom best l :: l2 ∧
      (minElementFrom best l).2.offset < best.2.offset ∧
      (∀ n ∈ l1, (minElementFrom best l).2.offset < n.2.offset) ∧
      ∀ n ∈ l2, (minElementFrom best l).2.offset ≤ n.2.offset := by
  induction l generalizing best with
  | nil => left; simp [minElementFrom]
  | cons x t ih =>
    simp only [minElementFrom]
    by_cases hx : x.2.offset < best.2.offset
    · simp only [hx, if_true]
      right
      rcases ih x with ⟨h1, h2⟩ | ⟨l1, l2, h1, h2, h3, h4⟩
      · refine ⟨[], t, by rw [h1]; rfl, by rw [h1]; exact hx, by simp, ?_⟩
        rw [h1]; exact h2
      · refine ⟨x :: l1, l2, by rw [List.cons_append, ← h1], by omega, ?_, h4⟩
        intro n hn
        rcases List.mem_cons.mp hn with e | e
        · subst e; exact h2
        · exact h3 n e
    · simp only [hx, if_false]
      rcases ih best with ⟨h1, h2⟩ | ⟨l1, l2, h1, h2, h3, h4⟩
      · left
        refine ⟨h1, ?_⟩
        intro n hn
        rcases List.mem_cons.mp hn with e | e
        · subst e; omega
        · exact h2 n e
      · right
        refine ⟨x :: l1, l2, by rw [List.cons_append, ← h1], h2, ?_, h4⟩
        intro n hn
        rcases List.mem_cons.mp hn with e | e
        · subst e; omega
        · exact h3 n e

theorem minElement_first {l : List Node} {v : Node} (h : minElement l = some v) :
    ∃ l1 l2, l = l1 ++ v :: l2 ∧ (∀ n ∈ l1, v.2.offset < n.2.offset) ∧
      ∀ n ∈ l2, v.2.offset ≤ n.2.offset := by
  cases l with
  | nil => simp [minElement] at h
  | cons x t =>
    simp only [minElement, Option.some.injEq] at h
    subst h
    rcases minElementFrom_first x t with ⟨h1, h2⟩ | ⟨l1, l2, h1, h2, h3, h4⟩
    · exact ⟨[], t, by rw [h1]; rfl, by simp, by rw [h1]; exact h2⟩
    · refine ⟨x :: l1, l2, by rw [List.cons_append, ← h1], ?_, h4⟩
      intro n hn
      rcases List.mem_cons.mp hn with e | e
      · subst e; exact h2
      · exact h3 n e

theorem newestFirst_insertBlock {c : BlockCache} (h : NewestFirst c) (w : World) (fd : Int)
    (a : Nat) (d : Bool) : NewestFirst (c.insertBlock w fd a d).1 := by
  have hsub : ∀ it, ((eraseNode c.cache it).map Prod.fst).Pairwise (fun a b => b < a) :=
    fun it => List.Pairwise.sublist ((List.filter_sublist c.cache).map Prod.fst) h
  have hfresh : ∀ l : List Node, ∀ b ∈ l.map Prod.fst, b < freshNode l := by
    intro l b hb
    obtain ⟨n, hn, e⟩ := List.mem_map.mp hb
    rw [← e]; exact lt_freshNode hn
  unfold NewestFirst
  by_cases hc : c.cacheSize ≤ c.cache.length
  · cases hm : minElement c.cache with
    | none =>
      simp only [BlockCache.insertBlock, evict_of_nil w (minElement_eq_none.mp hm), ite_self,
        List.map_cons, List.pairwise_cons]
      exact ⟨hfresh c.cache, h⟩
    | some v =>
      rw [insertBlock_of_full w fd a d hc hm]
      simp only [List.map_cons, List.pairwise_cons]
      exact ⟨hfresh _, hsub v.1⟩
  · rw [insertBlock_of_room w fd a d hc]
    simp only [List.map_cons, List.pairwise_cons]
    exact ⟨hfresh c.cache, h⟩

theorem newestFirst_event {c c1 : BlockCache} (hwf : c.WF) (h : NewestFirst c) {w w1 : World}
    {e : Event} (hr : e.run c w = some (c1, w1)) : NewestFirst c1 := by
  have hsync : ∀ fd, c.sync w fd = some (c1, w1) → NewestFirst c1 := by
    intro fd hs
    obtain ⟨w2, h2⟩ := hwf.sync_eq w fd
    rw [h2] at hs
    simp only [Option.some.injEq, Prod.mk.injEq] at hs
    rw [← hs.1]
    exact List.Pairwise.sublist ((List.filter_sublist c.cache).map Prod.fst) h
  cases e with
  | read fd count offset =>
    simp only [Event.run, Option.map_eq_some'] at hr
    obtain ⟨⟨r, out, c2, w2⟩, h1, h2⟩ := hr
    simp only [Prod.mk.injEq] at h2
    rw [← h2.1]
    cases hf : findIter c.cacheMap fd (offset / PAGE_SIZE * PAGE_SIZE) with
    | some it =>
      cases hd : deref c.cache it with
      | none => rw [read_of_dangling w count hf hd] at h1; simp at h1
      | some blk =>
        rw [read_of_hit w count hf hd] at h1
        split at h1
        · simp only [Option.some.injEq, Prod.mk.injEq] at h1
          rw [← h1.2.2.1]; exact h
        · simp at h1
    | none =>
      rw [read_of_miss w count hf] at h1
      cases hrf : ReadFile (SetFilePointerEx w fd ((offset / PAGE_SIZE * PAGE_SIZE : Nat) : Int)
        FILE_BEGIN).2 fd c.alignedBuffer PAGE_SIZE with
      | none =>
        rw [readMiss_of_fail count hrf] at h1
        simp only [Option.some.injEq, Prod.mk.injEq] at h1
        rw [← h1.2.2.1]; exact h
      | some x =>
        obtain ⟨n, scratch, w3⟩ := x
        rw [readMiss_of_ok count hrf] at h1
        split at h1
        · simp only [Option.some.injEq, Prod.mk.injEq] at h1
          rw [← h1.2.2.1]
          exact newestFirst_insertBlock (c := { c with alignedBuffer := scratch }) h _ _ _ _
        · simp at h1
  | write fd buf count offset =>
    simp only [Event.run, Option.map_eq_some'] at hr
    obtain ⟨⟨r, c2, w2⟩, h1, h2⟩ := hr
    simp only [Prod.mk.injEq] at h2
    rw [← h2.1]
    cases hf : findIter c.cacheMap fd (offset / PAGE_SIZE * PAGE_SIZE) with
    | some it =>
      cases hd : deref c.cache it with
      | none => rw [write_of_dangling w buf count hf hd] at h1; simp at h1
      | some blk =>
        rw [write_of_hit w buf count hf hd] at h1
        split at h1
        · simp only [Option.some.injEq, Prod.mk.injEq] at h1
          rw [← h1.2.1]
          unfold NewestFirst
          have : (c.cache.map (fun n =>
              if n.1 = it then (n.1, n.2.store (offset % PAGE_SIZE) buf count) else n)).map
              Prod.fst = c.cache.map Prod.fst := by
            rw [List.map_map]
            apply List.map_congr_left
            intro n _
            simp only [Function.comp]
            split <;> rfl
          simp only [this]
          exact h
        · simp at h1
    | none =>
      rw [write_of_miss w buf count hf] at h1
      cases hrf : ReadFile (SetFilePointerEx w fd ((offset / PAGE_SIZE * PAGE_SIZE : Nat) : Int)
        FILE_BEGIN).2 fd c.alignedBuffer PAGE_SIZE with
      | none =>
        rw [writeMiss_of_fail buf count hrf] at h1
        simp only [Option.some.injEq, Prod.mk.injEq] at h1
        rw [← h1.2.1]; exact h
      | some x =>
        obtain ⟨n, scratch, w3⟩ := x
        rw [writeMiss_of_ok buf count hrf] at h1
        split at h1
        · simp only [Option.some.injEq, Prod.mk.injEq] at h1
          rw [← h1.2.1]
          exact newestFirst_insertBlock
            (c := { c with alignedBuffer := copyIn scratch (offset % PAGE_SIZE) buf count })
            h _ _ _ _
        · simp at h1
  | sync fd => exact hsync fd hr
  | close fd => exact hsync fd hr
  | environment w2 =>
    simp only [Event.run, Option.some.injEq, Prod.mk.injEq] at hr
    rw [← hr.1]; exact h

theorem Reachable.newestFirst {cacheSize : Nat} {c : BlockCache} {w : World}
    (h : Reachable cacheSize c w) : NewestFirst c := by
  obtain ⟨scratch, w0, es, hr⟩ := h
  have key : ∀ (es : List Event) (c0 : BlockCache) (w0 : World), c0.WF → NewestFirst c0 →
      runEvents es c0 w0 = some (c, w) → NewestFirst c := by
    intro es
    induction es with
    | nil =>
      intro c0 w0 _ h0 hr
      simp only [runEvents, Option.some.injEq, Prod.mk.injEq] at hr
      rw [← hr.1]; exact h0
    | cons e es ih =>
      intro c0 w0 hwf h0 hr
      simp only [runEvents] at hr
      cases he : e.run c0 w0 with
      | none => rw [he] at hr; simp at hr
      | some r =>
        obtain ⟨c2, w2⟩ := r
        rw [he] at hr
        exact ih c2 w2 (hwf.event he) (newestFirst_event hwf h0 he) hr
  exact key es _ w0 (WF_init cacheSize scratch) List.Pairwise.nil hr

/-! ## C22: ties between blocks of smallest offset -/

/-- C22: in a reachable state with a non-empty list, `BlockCache::evict` removes
the first node in list order whose stored offset is smallest: the nodes before
it have strictly larger offsets, the nodes after it offsets at least as large,
and the list afterwards is the list without it.  Every other resident block with
the same offset belongs to another descriptor and was inserted earlier (has a
smaller node identifier). -/
theorem eviction_tie_break (c : BlockCache) (w : World) (hreach : Reachable c.cacheSize c w)
    (hne : c.cache ≠ []) :
    ∃ l1 v l2, c.cache = l1 ++ v :: l2 ∧ (c.evict w).1.cache = l1 ++ l2 ∧
      (∀ n ∈ l1, v.2.offset < n.2.offset) ∧ (∀ n ∈ l2, v.2.offset ≤ n.2.offset) ∧
      ∀ n ∈ c.cache, n ≠ v → n.2.offset = v.2.offset → n.2.fd ≠ v.2.fd ∧ n.1 < v.1 := by
  have hwf := hreach.wf
  have hnf := hreach.newestFirst
  cases hm : minElement c.cache with
  | none => exact absurd (minElement_eq_none.mp hm) hne
  | some v =>
    obtain ⟨l1, l2, hl, h1, h2⟩ := minElement_first hm
    have hnd := hwf.nodupNodes
    rw [hl] at hnd
    refine ⟨l1, v, l2, hl, ?_, h1, h2, ?_⟩
    · rw [evict_of_min w hm]
      simp only
      rw [hl, eraseNode_append_cons hnd]
    · intro n hn hnv hoff
      refine ⟨fun hfd => hnv (hwf.same_key hn (minElement_spec hm).1 hfd hoff), ?_⟩
      unfold NewestFirst at hnf
      rw [hl, List.map_append, List.map_cons, List.pairwise_append, List.pairwise_cons] at hnf
      rw [hl] at hn
      rcases List.mem_append.mp hn with e | e
      · have := h1 n e
        omega
      · rcases List.mem_cons.mp e with e2 | e2
        · exact absurd e2 hnv
        · exact hnf.2.1.1 n.1 (List.mem_map.mpr ⟨n, e2, rfl⟩)

theorem eviction_tie_break_witness :
    ∃ l1 v l2, (exRun 2 [.read 3 1 0, .read 4 1 0]).1.cache = l1 ++ v :: l2 ∧
      ((exRun 2 [.read 3 1 0, .read 4 1 0]).1.evict
        (exRun 2 [.read 3 1 0, .read 4 1 0]).2).1.cache = l1 ++ l2 ∧
      (∀ n ∈ l1, v.2.offset < n.2.offset) ∧ (∀ n ∈ l2, v.2.offset ≤ n.2.offset) ∧
      ∀ n ∈ (exRun 2 [.read 3 1 0, .read 4 1 0]).1.cache, n ≠ v →
        n.2.offset = v.2.offset → n.2.fd ≠ v.2.fd ∧ n.1 < v.1 :=
  eviction_tie_break (exRun 2 [.read 3 1 0, .read 4 1 0]).1
    (exRun 2 [.read 3 1 0, .read 4 1 0]).2
    ⟨fun _ => 0, exWorld, [.read 3 1 0, .read 4 1 0], rfl⟩
    (fun h => absurd (congrArg List.length h) (by decide))

/-- The tie of C22 on the example machine: the blocks of descriptors 3 and 4
both have offset 0, the block of descriptor 4 was inserted last and is at the
head of the list, and `evict` removes it and keeps the block of descriptor 3. -/
theorem eviction_tie_break_example :
    (exRun 2 [.read 3 1 0, .read 4 1 0]).1.cache.map (fun n => (n.2.fd, n.2.offset)) =
      [(4, 0), (3, 0)] ∧
    ((exRun 2 [.read 3 1 0, .read 4 1 0]).1.evict
      (exRun 2 [.read 3 1 0, .read 4 1 0]).2).1.cache.map (fun n => (n.2.fd, n.2.offset)) =
      [(3, 0)] := by
  refine ⟨by decide, by decide⟩

/-! ## The sort phase: the cache under `get_element` and `set_element` -/

theorem insertBlock_shape (c : BlockCache) (w : World) (fd : Int) (a : Nat) (d : Bool) :
    (∃ it, (c.insertBlock w fd a d).1.cache =
        (it, { data := c.alignedBuffer, fd := fd, offset := a, dirty := d }) :: c.cache ∧
      (c.insertBlock w fd a d).2 = w) ∨
    (∃ it v, v ∈ c.cache ∧
      (c.insertBlock w fd a d).1.cache =
        (it, { data := c.alignedBuffer, fd := fd, offset := a, dirty := d }) ::
          eraseNode c.cache v.1 ∧
      (c.insertBlock w fd a d).2 = if v.2.dirty = true then writeBlockToDisk w v.2 else w) := by
  by_cases hc : c.cacheSize ≤ c.cache.length
  · cases hm : minElement c.cache with
    | none =>
      left
      have e := evict_of_nil w (minElement_eq_none.mp hm)
      exact ⟨freshNode c.cache, by simp only [BlockCache.insertBlock, e, ite_self],
        by simp only [BlockCache.insertBlock, e, ite_self]⟩
    | some v =>
      right
      rw [insertBlock_of_full w fd a d hc hm]
      exact ⟨_, v, (minElement_spec hm).1, rfl, rfl⟩
  · left
    rw [insertBlock_of_room w fd a d hc]
    exact ⟨_, rfl, rfl⟩

theorem read_block_part {w : World} {fd : Int} {hd : Handle} (a : Nat) (buf : Buffer)
    (hh : w.handles fd = some hd) (hs : w.seekFails fd a = false)
    (hr : w.readFails fd a = false) :
    ∃ got scratch w2,
      ReadFile (SetFilePointerEx w fd (a : Int) FILE_BEGIN).2 fd buf PAGE_SIZE
        = some (got, scratch, w2) ∧
      w.Evolves w2 ∧ w2.disk = w.disk ∧
      ∀ i, i < PAGE_SIZE → a + i < (w.disk hd.path).size →
        scratch i = (w.disk hd.path).bytes (a + i) := by
  have hh0 := setPos_handles_self w fd hd a
  refine ⟨_, _, _, by rw [seek_begin_ok a hh hs]; exact readFile_ok buf PAGE_SIZE hh0 hr,
    (setPos_evolves w _ hh).trans (setPos_evolves _ _ hh0), rfl, ?_⟩
  intro i hi hsz
  have : i < min PAGE_SIZE ((w.disk hd.path).size - a) := by
    rw [lt_min_iff]; exact ⟨hi, by omega⟩
  simp only [setPos_disk]
  rw [if_pos this]

/-- The file of a handle after a write-back on it, when nothing fails: the block
is in the file, the other bytes the file had are as they were, and the file has
not shrunk. -/
theorem writeBlockToDisk_bytes {w : World} {blk : CacheBlock} {hd : Handle}
    (hh : w.handles blk.fd = some hd) (hn : w.NoFaults) :
    (w.disk hd.path).size ≤ ((writeBlockToDisk w blk).disk hd.path).size ∧
    (∀ i, i < PAGE_SIZE →
      ((writeBlockToDisk w blk).disk hd.path).bytes (blk.offset + i) = blk.data i) ∧
    (∀ x, x < (w.disk hd.path).size → ¬ (blk.offset ≤ x ∧ x < blk.offset + PAGE_SIZE) →
      ((writeBlockToDisk w blk).disk hd.path).bytes x = (w.disk hd.path).bytes x) := by
  rw [writeBlockToDisk_ok hh (hn.1 _ _) (hn.2.2.1 _ _)]
  simp only [Function.update_same]
  refine ⟨le_max_left _ _, ?_, ?_⟩
  · intro i hi
    rw [if_pos ⟨by omega, by omega⟩]
    congr 1
    omega
  · intro x hx hout
    rw [if_neg hout, if_pos hx]

theorem SortPhase.of_same_bytes {fd : Int} {path : String} {N : Nat} {L L1 : Nat → Byte}
    {c : BlockCache} {w : World} (hp : SortPhase fd path N L c w)
    (h : ∀ x, x < N → L1 x = L x) : SortPhase fd path N L1 c w := by
  refine ⟨hp.wf, hp.blocks, hp.handle, hp.noFaults, hp.size, ?_, ?_⟩
  · intro n hn i hi hlt
    rw [h _ hlt]; exact hp.resident n hn i hi hlt
  · intro x hx hcl
    rw [h x hx]; exact hp.stored x hx hcl

theorem SortPhase.of_evolves {fd : Int} {path : String} {N : Nat} {L : Nat → Byte}
    {c : BlockCache} {w w1 : World} (hp : SortPhase fd path N L c w)
    (hev : w.Evolves w1) (hd : w1.disk = w.disk) : SortPhase fd path N L c w1 := by
  obtain ⟨hd0, hh0, hp0⟩ := hp.handle
  obtain ⟨hd1, hh1, hp1⟩ := hev.handle hh0
  refine ⟨hp.wf, hp.blocks, ⟨hd1, hh1, hp1.trans hp0⟩, hev.noFaults hp.noFaults, ?_,
    hp.resident, ?_⟩
  · rw [hd]; exact hp.size
  · rw [hd]; exact hp.stored

theorem block_of_mem {a x : Nat} (ha : a % PAGE_SIZE = 0) (h1 : a ≤ x) (h2 : x < a + PAGE_SIZE) :
    x / PAGE_SIZE * PAGE_SIZE = a := by
  simp only [PAGE_SIZE] at *
  omega

theorem block_le (x : Nat) : x / PAGE_SIZE * PAGE_SIZE ≤ x ∧ x < x / PAGE_SIZE * PAGE_SIZE + PAGE_SIZE ∧
    x / PAGE_SIZE * PAGE_SIZE + x % PAGE_SIZE = x ∧ x % PAGE_SIZE < PAGE_SIZE := by
  simp only [PAGE_SIZE]
  omega

/-- Inserting, on a miss, a clean block that has the bytes of `L`. -/
theorem SortPhase.insert_clean {fd : Int} {path : String} {N : Nat} {L : Nat → Byte}
    {c : BlockCache} {w : World} (hp : SortPhase fd path N L c w) {a : Nat}
    (ha : a % PAGE_SIZE = 0) (hmiss : findIter c.cacheMap fd a = none) {scratch : Buffer}
    (hscr : ∀ i, i < PAGE_SIZE → a + i < N → scratch i = L (a + i)) :
    SortPhase fd path N L
      (({ c with alignedBuffer := scratch } : BlockCache).insertBlock w fd a false).1
      (({ c with alignedBuffer := scratch } : BlockCache).insertBlock w fd a false).2 := by
  have hwf1 : ({ c with alignedBuffer := scratch } : BlockCache).WF :=
    hp.wf.of_same_blocks rfl rfl
  have hev := insertBlock_evolves ({ c with alignedBuffer := scratch } : BlockCache) w fd a false
  obtain ⟨hd, hh, hpath⟩ := hp.handle
  obtain ⟨hd1, hh1, hp1⟩ := hev.handle hh
  have hnr := hp.wf.not_resident hmiss
  rcases insertBlock_shape ({ c with alignedBuffer := scratch } : BlockCache) w fd a false with
    ⟨it, hc, hw⟩ | ⟨it, v, hv, hc, hw⟩
  · refine ⟨hwf1.insertBlock w hmiss ha false, ?_, ⟨hd1, hh1, hp1.trans hpath⟩,
      hev.noFaults hp.noFaults, by rw [hw]; exact hp.size, ?_, ?_⟩
    · intro n hn
      rw [hc] at hn
      rcases List.mem_cons.mp hn with e | e
      · rw [e]
      · exact hp.blocks n e
    · intro n hn i hi hlt
      rw [hc] at hn
      rcases List.mem_cons.mp hn with e | e
      · rw [e] at hlt ⊢; exact hscr i hi hlt
      · exact hp.resident n e i hi hlt
    · intro x hx hcl
      rw [hw]
      apply hp.stored x hx
      intro n hn hoff
      exact hcl n (by rw [hc]; exact List.mem_cons_of_mem _ hn) hoff
  · have hv0 : v ∈ c.cache := hv
    have hvfd := hp.blocks v hv0
    have hval := hp.wf.aligned v hv0
    have hh2 : w.handles v.2.fd = some hd := by rw [hvfd]; exact hh
    have hwb := @writeBlockToDisk_bytes w v.2 hd hh2 hp.noFaults
    rw [hpath] at hwb
    refine ⟨hwf1.insertBlock w hmiss ha false, ?_, ⟨hd1, hh1, hp1.trans hpath⟩,
      hev.noFaults hp.noFaults, ?_, ?_, ?_⟩
    · intro n hn
      rw [hc] at hn
      rcases List.mem_cons.mp hn with e | e
      · rw [e]
      · exact hp.blocks n (mem_eraseNode.mp e).1
    · rw [hw]
      split
      · exact le_trans hp.size hwb.1
      · exact hp.size
    · intro n hn i hi hlt
      rw [hc] at hn
      rcases List.mem_cons.mp hn with e | e
      · rw [e] at hlt ⊢; exact hscr i hi hlt
      · exact hp.resident n (mem_eraseNode.mp e).1 i hi hlt
    · intro x hx hcl
      obtain ⟨hb1, hb2, hb3, hb4⟩ := block_le x
      by_cases hb : x / PAGE_SIZE * PAGE_SIZE = v.2.offset
      · cases hdirty : v.2.dirty with
        | true =>
          rw [hw, if_pos hdirty]
          have h1 := hwb.2.1 (x % PAGE_SIZE) hb4
          have h2 := hp.resident v hv0 (x % PAGE_SIZE) hb4 (by rw [← hb, hb3]; exact hx)
          rw [← hb, hb3] at h1 h2
          rw [h1, h2]
        | false =>
          rw [hw, if_neg (by rw [hdirty]; simp)]
          apply hp.stored x hx
          intro n hn hoff
          have : n = v := hp.wf.same_key hn hv0 ((hp.blocks n hn).trans hvfd.symm)
            (hoff.trans hb)
          rw [this]; exact hdirty
      · have hst : (w.disk path).bytes x = L x := by
          apply hp.stored x hx
          intro n hn hoff
          apply hcl n _ hoff
          rw [hc]
          apply List.mem_cons_of_mem
          rw [mem_eraseNode]
          refine ⟨hn, ?_⟩
          intro e
          have : n.2 = v.2 := assoc_unique hp.wf.nodupNodes (show (n.1, n.2) ∈ c.cache from hn)
            (show (n.1, v.2) ∈ c.cache by rw [e]; exact hv0)
          apply hb
          rw [← hoff, this]
        rw [hw]
        split
        · rw [hwb.2.2 x (lt_of_lt_of_le hx hp.size) ?_, hst]
          intro hin
          exact hb (block_of_mem hval hin.1 hin.2)
        · exact hst

theorem aligned_div {a : Nat} (ha : a % PAGE_SIZE = 0) : a / PAGE_SIZE * PAGE_SIZE = a := by
  simp only [PAGE_SIZE] at *
  omega

/-- `BlockCache::read` of a whole block during the sort: it returns the buffer
of the block, which is resident afterwards. -/
theorem SortPhase.cache_read {fd : Int} {path : String} {N : Nat} {L : Nat → Byte}
    {c : BlockCache} {w : World} (hp : SortPhase fd path N L c w) {a : Nat}
    (ha : a % PAGE_SIZE = 0) :
    ∃ it blk c1 w1, c.read w fd PAGE_SIZE a = some (true, copyOut blk.data 0 PAGE_SIZE, c1, w1) ∧
      SortPhase fd path N L c1 w1 ∧ findIter c1.cacheMap fd a = some it ∧
      deref c1.cache it = some blk := by
  have hal := aligned_div ha
  obtain ⟨hd, hh, hpath⟩ := hp.handle
  cases hf : findIter c.cacheMap fd a with
  | some it =>
    obtain ⟨blk, hdr, hm, _, _⟩ := hp.wf.resident hf
    have hf2 := hf
    rw [← hal] at hf2
    refine ⟨it, blk, c, w, ?_, hp, hf, hdr⟩
    rw [read_of_hit w PAGE_SIZE hf2 hdr, ha, if_pos (by omega)]
  | none =>
    have hf2 := hf
    rw [← hal] at hf2
    obtain ⟨got, scratch, w2, hrf, hev, hdisk, hbytes⟩ :=
      read_block_part a c.alignedBuffer hh (hp.noFaults.1 _ _) (hp.noFaults.2.1 _ _)
    have hrf2 := hrf
    rw [← hal] at hrf2
    have hp2 : SortPhase fd path N L c w2 := hp.of_evolves hev hdisk
    have hscr : ∀ i, i < PAGE_SIZE → a + i < N → scratch i = L (a + i) := by
      intro i hi hlt
      rw [hbytes i hi (by rw [hpath]; exact lt_of_lt_of_le hlt hp.size), hpath]
      apply hp.stored _ hlt
      intro n hn hoff
      exact absurd (hoff.trans (block_of_mem ha (by omega) (by omega)))
        (hp.wf.not_resident hf n hn (hp.blocks n hn))
    have hins := hp2.insert_clean ha hf hscr
    obtain ⟨it, rest, m, h1, h2⟩ := insertBlock_head
      ({ c with alignedBuffer := scratch } : BlockCache) w2 fd a false
    refine ⟨it, { data := scratch, fd := fd, offset := a, dirty := false }, _, _, ?_, hins,
      by rw [h2]; exact findIter_setIter_self _ _ _ _,
      by rw [h1]; simp [deref, assocFind_cons]⟩
    rw [read_of_miss w PAGE_SIZE hf2, readMiss_of_ok PAGE_SIZE hrf2, ha, if_pos (by omega), hal]

theorem SortPhase.lseek {fd : Int} {path : String} {N : Nat} {L : Nat → Byte}
    {c : BlockCache} {w : World} (hp : SortPhase fd path N L c w) (a : Nat) :
    ∃ w1, lab2_lseek w fd (a : Int) SEEK_SET = ((a : Int), w1) ∧ SortPhase fd path N L c w1 ∧
      w1.cursor fd = some a := by
  obtain ⟨hd, hh, hpath⟩ := hp.handle
  refine ⟨_, lab2_lseek_set_ok a hh (hp.noFaults.1 _ _), ?_, ?_⟩
  · exact hp.of_evolves ((setPos_evolves w a hh).trans
      (setPos_evolves _ a (setPos_handles_self w fd hd a))) rfl
  · simp [World.cursor, World.setPos]

/-- `lab2_read` of a whole sector at the cursor during the sort. -/
theorem SortPhase.read_sector {fd : Int} {path : String} {N : Nat} {L : Nat → Byte}
    {c : BlockCache} {w : World} (hp : SortPhase fd path N L c w) {a : Nat}
    (ha : a % PAGE_SIZE = 0) (hcur : w.cursor fd = some a) :
    ∃ it blk c1 w1, lab2_read c w fd PAGE_SIZE =
        some ((PAGE_SIZE : Int), copyOut blk.data 0 PAGE_SIZE, c1, w1) ∧
      SortPhase fd path N L c1 w1 ∧ findIter c1.cacheMap fd a = some it ∧
      deref c1.cache it = some blk := by
  obtain ⟨hd, hh, hpath⟩ := hp.handle
  have hpos : hd.pos = a := by
    unfold World.cursor at hcur
    rw [hh] at hcur
    exact Option.some.inj hcur
  obtain ⟨it, blk, c1, w1, hr, hp1, hf, hdr⟩ := hp.cache_read ha
  obtain ⟨hd1, hh1, hpath1⟩ := hp1.handle
  have hsk := seek_begin_ok (a + PAGE_SIZE) hh1 (hp1.noFaults.1 _ _)
  refine ⟨it, blk, c1, _, ?_, hp1.of_evolves (setPos_evolves w1 (a + PAGE_SIZE) hh1) rfl,
    hf, hdr⟩
  rw [lab2_read_eq c PAGE_SIZE hh (hp.noFaults.1 _ _), hpos, hr]
  rw [Option.some_bind]
  dsimp only
  rw [if_pos rfl, hsk]
  rfl

theorem splice_length (out v : List Byte) {k : Nat} (hk : k + ELEMENT_SIZE ≤ out.length)
    (hv : v.length = ELEMENT_SIZE) :
    (out.take k ++ v.take ELEMENT_SIZE ++ out.drop (k + ELEMENT_SIZE)).length = out.length := by
  simp only [List.length_append, List.length_take, List.length_drop, hv]
  omega

theorem splice_getD (out v : List Byte) {k y : Nat} (hk : k + ELEMENT_SIZE ≤ out.length)
    (hv : v.length = ELEMENT_SIZE) :
    (out.take k ++ v.take ELEMENT_SIZE ++ out.drop (k + ELEMENT_SIZE)).getD y 0 =
      if k ≤ y ∧ y < k + ELEMENT_SIZE then v.getD (y - k) 0 else out.getD y 0 := by
  have hvt : v.take ELEMENT_SIZE = v := by rw [← hv]; exact List.take_length v
  rw [hvt]
  have hl1 : (out.take k).length = k := by rw [List.length_take]; omega
  simp only [List.getD_eq_getElem?_getD]
  by_cases h1 : y < k
  · rw [if_neg (by omega), List.append_assoc, List.getElem?_append_left (by omega),
      List.getElem?_take_of_lt h1]
  · by_cases h2 : y < k + ELEMENT_SIZE
    · rw [if_pos ⟨by omega, h2⟩, List.append_assoc, List.getElem?_append_right (by omega), hl1,
        List.getElem?_append_left (by omega)]
    · rw [if_neg (by omega), List.getElem?_append_right (by
        rw [List.length_append, hl1, hv]; omega), List.length_append, hl1, hv,
        List.getElem?_drop]
      congr 2
      omega

theorem SortPhase.sector_bytes {fd : Int} {path : String} {N : Nat} {L : Nat → Byte}
    {c : BlockCache} {w : World} (hp : SortPhase fd path N L c w) {a it : Nat}
    {blk : CacheBlock} (hf : findIter c.cacheMap fd a = some it)
    (hdr : deref c.cache it = some blk) :
    (it, blk) ∈ c.cache ∧ blk.offset = a ∧
      ∀ j, j < PAGE_SIZE → a + j < N → blk.data j = L (a + j) := by
  obtain ⟨b, hdr2, hm, _, hoff⟩ := hp.wf.resident hf
  rw [hdr] at hdr2
  have e : blk = b := Option.some.inj hdr2
  subst e
  refine ⟨hm, hoff, ?_⟩
  intro j hj hlt
  have := hp.resident (it, blk) hm j hj (by rw [hoff]; exact hlt)
  rw [this, hoff]

/-- The hit path of `write` for a whole block during the sort: the logical
bytes of the block become those of `buf`. -/
theorem SortPhase.store_block {fd : Int} {path : String} {N : Nat} {L L1 : Nat → Byte}
    {c : BlockCache} {w : World} (hp : SortPhase fd path N L c w) {a it : Nat}
    (ha : a % PAGE_SIZE = 0) (hf : findIter c.cacheMap fd a = some it) (buf : List Byte)
    (hL1 : ∀ x, x < N →
      L1 x = if a ≤ x ∧ x < a + PAGE_SIZE then buf.getD (x - a) 0 else L x) :
    SortPhase fd path N L1
      { c with cache := c.cache.map (fun n =>
          if n.1 = it then (n.1, n.2.store 0 buf PAGE_SIZE) else n) } w := by
  obtain ⟨b, hdr, hm, hbfd, hboff⟩ := hp.wf.resident hf
  have hmem : ∀ n ∈ c.cache.map (fun n =>
      if n.1 = it then (n.1, n.2.store 0 buf PAGE_SIZE) else n),
      (n.1 = it ∧ n = (it, b.store 0 buf PAGE_SIZE)) ∨ (n.1 ≠ it ∧ n ∈ c.cache) := by
    intro n hn
    obtain ⟨m, hm1, hm2⟩ := List.mem_map.mp hn
    by_cases e : m.1 = it
    · rw [if_pos e] at hm2
      left
      have : m.2 = b := assoc_unique hp.wf.nodupNodes (show (m.1, m.2) ∈ c.cache from hm1)
        (show (m.1, b) ∈ c.cache by rw [e]; exact hm)
      rw [← hm2, this, e]
      exact ⟨rfl, rfl⟩
    · rw [if_neg e] at hm2
      right
      rw [← hm2]
      exact ⟨e, hm1⟩
  have hother : ∀ n ∈ c.cache, n.1 ≠ it → n.2.offset ≠ a := by
    intro n hn hne e
    have h1 := hp.wf.indexConsistent.2 n hn
    rw [hp.blocks n hn, e, hf] at h1
    exact hne (Option.some.inj h1).symm
  refine ⟨hp.wf.store it 0 buf PAGE_SIZE, ?_, hp.handle, hp.noFaults, hp.size, ?_, ?_⟩
  · intro n hn
    rcases hmem n hn with ⟨_, e⟩ | ⟨_, hn2⟩
    · rw [e]; exact hbfd
    · exact hp.blocks n hn2
  · intro n hn i hi hlt
    rcases hmem n hn with ⟨_, e⟩ | ⟨hne, hn2⟩
    · rw [e] at hlt ⊢
      simp only [CacheBlock.store] at hlt ⊢
      rw [hboff] at hlt ⊢
      rw [hL1 _ hlt, if_pos ⟨by omega, by omega⟩]
      have := @copyIn_inside b.data 0 buf PAGE_SIZE i hi
      rw [Nat.zero_add] at this
      rw [this]
      congr 1
      omega
    · have hal := hp.wf.aligned n hn2
      have hne2 := hother n hn2 hne
      rw [hL1 _ hlt, if_neg, hp.resident n hn2 i hi hlt]
      intro hin
      have e1 := block_of_mem hal (Nat.le_add_right _ i)
        (by omega : n.2.offset + i < n.2.offset + PAGE_SIZE)
      have e2 := block_of_mem ha hin.1 hin.2
      exact hne2 (e1.symm.trans e2)
  · intro x hx hcl
    by_cases hb : x / PAGE_SIZE * PAGE_SIZE = a
    · exfalso
      have hin : (it, b.store 0 buf PAGE_SIZE) ∈ c.cache.map (fun n =>
          if n.1 = it then (n.1, n.2.store 0 buf PAGE_SIZE) else n) :=
        List.mem_map.mpr ⟨(it, b), hm, by simp⟩
      have := hcl _ hin (by simp only [CacheBlock.store]; rw [hboff, hb])
      simp [CacheBlock.store] at this
    · obtain ⟨hb1, hb2, _, _⟩ := block_le x
      rw [hL1 x hx, if_neg (fun hin => hb (block_of_mem ha hin.1 hin.2))]
      apply hp.stored x hx
      intro n hn hoff
      have hne : n.1 ≠ it := by
        intro e
        apply hb
        have : n.2 = b := assoc_unique hp.wf.nodupNodes (show (n.1, n.2) ∈ c.cache from hn)
          (show (n.1, b) ∈ c.cache by rw [e]; exact hm)
        rw [← hoff, this, hboff]
      exact hcl n (List.mem_map.mpr ⟨n, hn, by rw [if_neg hne]⟩) hoff

theorem sector_facts (i : Nat) :
    (i * ELEMENT_SIZE / SECTOR_SIZE * SECTOR_SIZE) % PAGE_SIZE = 0 ∧
    i * ELEMENT_SIZE / SECTOR_SIZE * SECTOR_SIZE + i * ELEMENT_SIZE % SECTOR_SIZE =
      i * ELEMENT_SIZE ∧
    i * ELEMENT_SIZE % SECTOR_SIZE + ELEMENT_SIZE ≤ PAGE_SIZE ∧
    ((i * ELEMENT_SIZE / SECTOR_SIZE * SECTOR_SIZE : Nat) : Int) ≠ -1 ∧
    ((SECTOR_SIZE : Nat) : Int) = ((PAGE_SIZE : Nat) : Int) := by
  refine ⟨?_, ?_, ?_, ?_, rfl⟩
  · simp only [ELEMENT_SIZE, SECTOR_SIZE, PAGE_SIZE]
    omega
  · simp only [ELEMENT_SIZE, SECTOR_SIZE]
    omega
  · simp only [ELEMENT_SIZE, SECTOR_SIZE, PAGE_SIZE]
    omega
  · have := Int.natCast_nonneg (i * ELEMENT_SIZE / SECTOR_SIZE * SECTOR_SIZE)
    omega

theorem copyOut_getD (src : Buffer) (k n j : Nat) (hj : j < n) :
    (copyOut src k n).getD j 0 = src (k + j) := by
  simp [copyOut, List.getD_eq_getElem?_getD, hj]

theorem copyOut_length (src : Buffer) (k n : Nat) : (copyOut src k n).length = n := by
  simp [copyOut]

/-- `get_element` during the sort returns the bytes of the element. -/
theorem SortPhase.get_value {fd : Int} {path : String} {N : Nat} {L : Nat → Byte}
    {c : BlockCache} {w : World} (hp : SortPhase fd path N L c w) {i : Nat}
    (hi : i * ELEMENT_SIZE + ELEMENT_SIZE ≤ N) :
    ∃ c1 w1, PageCache.get_element c w fd i = some (true, elementAt L i, c1, w1) ∧
      SortPhase fd path N L c1 w1 := by
  obtain ⟨ha, hsum, hk, hneg, hsec⟩ := sector_facts i
  obtain ⟨w1, hls, hp1, hcur⟩ := hp.lseek (i * ELEMENT_SIZE / SECTOR_SIZE * SECTOR_SIZE)
  obtain ⟨it, blk, c2, w2, hrd, hp2, hf, hdr⟩ := hp1.read_sector ha hcur
  obtain ⟨_, _, hbytes⟩ := hp2.sector_bytes hf hdr
  refine ⟨c2, w2, ?_, hp2⟩
  have hrd1 : lab2_read c w1 fd SECTOR_SIZE =
      some (((SECTOR_SIZE : Nat) : Int), copyOut blk.data 0 SECTOR_SIZE, c2, w2) := hrd
  unfold PageCache.get_element
  dsimp only
  rw [hls]
  dsimp only
  rw [if_neg hneg, hrd1]
  dsimp only
  have hdt : ((copyOut blk.data 0 SECTOR_SIZE).drop (i * ELEMENT_SIZE % SECTOR_SIZE)).take
      ELEMENT_SIZE = copyOut blk.data (i * ELEMENT_SIZE % SECTOR_SIZE) ELEMENT_SIZE :=
    copyOut_drop_take blk.data hk
  rw [if_neg (not_not.mpr rfl), hdt]
  have hel : copyOut blk.data (i * ELEMENT_SIZE % SECTOR_SIZE) ELEMENT_SIZE = elementAt L i := by
    apply List.ext_getElem
    · simp [copyOut, elementAt, ELEMENT_SIZE]
    · intro j h1 h2
      have hj : j < ELEMENT_SIZE := by simpa [copyOut] using h1
      have hb := hbytes (i * ELEMENT_SIZE % SECTOR_SIZE + j) (by omega)
        (by rw [← Nat.add_assoc, hsum]; omega)
      rw [← Nat.add_assoc, hsum] at hb
      simp only [copyOut, List.getElem_map, List.getElem_range, hb]
      simp only [ELEMENT_SIZE] at hj
      simp only [elementAt]
      interval_cases j <;> rfl
  rw [hel]

/-- `set_element` during the sort replaces the bytes of the element. -/
theorem SortPhase.set_element {fd : Int} {path : String} {N : Nat} {L : Nat → Byte}
    {c : BlockCache} {w : World} (hp : SortPhase fd path N L c w) (i : Nat)
    {v : List Byte} (hv : v.length = ELEMENT_SIZE) :
    ∃ c1 w1, PageCache.set_element c w fd i v = some (true, c1, w1) ∧
      SortPhase fd path N (setElement L i v) c1 w1 := by
  obtain ⟨ha, hsum, hk, hneg, hsec⟩ := sector_facts i
  obtain ⟨w1, hls, hp1, hcur⟩ := hp.lseek (i * ELEMENT_SIZE / SECTOR_SIZE * SECTOR_SIZE)
  obtain ⟨it, blk, c2, w2, hrd, hp2, hf, hdr⟩ := hp1.read_sector ha hcur
  obtain ⟨w3, hls3, hp3, _⟩ := hp2.lseek (i * ELEMENT_SIZE / SECTOR_SIZE * SECTOR_SIZE)
  obtain ⟨_, _, hbytes⟩ := hp3.sector_bytes hf hdr
  have hrd1 : lab2_read c w1 fd SECTOR_SIZE =
      some (((SECTOR_SIZE : Nat) : Int), copyOut blk.data 0 SECTOR_SIZE, c2, w2) := hrd
  have hol : (copyOut blk.data 0 SECTOR_SIZE).length = PAGE_SIZE := copyOut_length _ _ _
  have hbl := splice_length (copyOut blk.data 0 SECTOR_SIZE) v
    (k := i * ELEMENT_SIZE % SECTOR_SIZE) (by rw [hol]; exact hk) hv
  have hf2 : findIter c2.cacheMap fd
      (i * ELEMENT_SIZE / SECTOR_SIZE * SECTOR_SIZE / PAGE_SIZE * PAGE_SIZE) = some it := by
    rw [aligned_div ha]; exact hf
  have hwr := write_of_hit w3 (List.take (i * ELEMENT_SIZE % SECTOR_SIZE)
      (copyOut blk.data 0 SECTOR_SIZE) ++ List.take ELEMENT_SIZE v ++
      List.drop (i * ELEMENT_SIZE % SECTOR_SIZE + ELEMENT_SIZE) (copyOut blk.data 0 SECTOR_SIZE))
    SECTOR_SIZE hf2 hdr
  rw [ha, if_pos ⟨by simp only [SECTOR_SIZE, PAGE_SIZE]; omega,
    by rw [hbl, hol]; simp only [SECTOR_SIZE, PAGE_SIZE]; omega⟩] at hwr
  have hlw := lab2_write_ok hwr
  have key : ∀ c3, lab2_write c2 w3 fd (List.take (i * ELEMENT_SIZE % SECTOR_SIZE)
      (copyOut blk.data 0 SECTOR_SIZE) ++ List.take ELEMENT_SIZE v ++
      List.drop (i * ELEMENT_SIZE % SECTOR_SIZE + ELEMENT_SIZE) (copyOut blk.data 0 SECTOR_SIZE))
      SECTOR_SIZE (i * ELEMENT_SIZE / SECTOR_SIZE * SECTOR_SIZE) =
        some (((SECTOR_SIZE : Nat) : Int), c3, w3) →
      PageCache.set_element c w fd i v = some (true, c3, w3) := by
    intro c3 h
    unfold PageCache.set_element
    dsimp only
    rw [hls]
    dsimp only
    rw [if_neg hneg, hrd1]
    dsimp only
    rw [if_neg (not_not.mpr rfl), hls3]
    dsimp only
    rw [if_neg hneg, h]
    dsimp only
    rw [if_neg (not_not.mpr rfl)]
  refine ⟨_, w3, key _ hlw, ?_⟩
  · apply hp3.store_block ha hf
    intro x hx
    unfold setElement
    by_cases hin : i * ELEMENT_SIZE / SECTOR_SIZE * SECTOR_SIZE ≤ x ∧
        x < i * ELEMENT_SIZE / SECTOR_SIZE * SECTOR_SIZE + PAGE_SIZE
    · rw [if_pos hin, splice_getD _ _ (by rw [hol]; exact hk) hv]
      have hy : x - i * ELEMENT_SIZE / SECTOR_SIZE * SECTOR_SIZE < PAGE_SIZE := by omega
      have hb := hbytes _ hy (by omega)
      have hco : (copyOut blk.data 0 SECTOR_SIZE).getD
          (x - i * ELEMENT_SIZE / SECTOR_SIZE * SECTOR_SIZE) 0 =
          blk.data (0 + (x - i * ELEMENT_SIZE / SECTOR_SIZE * SECTOR_SIZE)) :=
        copyOut_getD _ _ _ _ hy
      rw [hco, Nat.zero_add, hb]
      have hxa : i * ELEMENT_SIZE / SECTOR_SIZE * SECTOR_SIZE +
          (x - i * ELEMENT_SIZE / SECTOR_SIZE * SECTOR_SIZE) = x := by omega
      rw [hxa]
      by_cases hel : i * ELEMENT_SIZE ≤ x ∧ x < i * ELEMENT_SIZE + ELEMENT_SIZE
      · have h2 : i * ELEMENT_SIZE % SECTOR_SIZE ≤
            x - i * ELEMENT_SIZE / SECTOR_SIZE * SECTOR_SIZE ∧
            x - i * ELEMENT_SIZE / SECTOR_SIZE * SECTOR_SIZE <
              i * ELEMENT_SIZE % SECTOR_SIZE + ELEMENT_SIZE := by omega
        have h3 : x - i * ELEMENT_SIZE / SECTOR_SIZE * SECTOR_SIZE -
            i * ELEMENT_SIZE % SECTOR_SIZE = x - i * ELEMENT_SIZE := by omega
        rw [if_pos hel, if_pos h2, h3]
      · have h2 : ¬ (i * ELEMENT_SIZE % SECTOR_SIZE ≤
            x - i * ELEMENT_SIZE / SECTOR_SIZE * SECTOR_SIZE ∧
            x - i * ELEMENT_SIZE / SECTOR_SIZE * SECTOR_SIZE <
              i * ELEMENT_SIZE % SECTOR_SIZE + ELEMENT_SIZE) := by omega
        rw [if_neg hel, if_neg h2]
    · have hel : ¬ (i * ELEMENT_SIZE ≤ x ∧ x < i * ELEMENT_SIZE + ELEMENT_SIZE) := by omega
      rw [if_neg hin, if_neg hel]

/-! ## The sort phase: `swap_elements` -/

theorem elementAt_setElement_self (L : Nat → Byte) (i : Nat) {v : List Byte}
    (hv : v.length = ELEMENT_SIZE) : elementAt (setElement L i v) i = v := by
  simp only [ELEMENT_SIZE] at hv
  match v, hv with
  | [a, b, c, d], _ => simp [elementAt, setElement, ELEMENT_SIZE]

theorem elementAt_setElement_ne (L : Nat → Byte) {i k : Nat} (v : List Byte) (h : k ≠ i) :
    elementAt (setElement L i v) k = elementAt L k := by
  have h0 : ¬ (i * 4 ≤ k * 4 ∧ k * 4 < i * 4 + 4) := by omega
  have h1 : ∀ d, d < 4 → ¬ (i * 4 ≤ k * 4 + d ∧ k * 4 + d < i * 4 + 4) := by
    intro d hd; omega
  simp only [elementAt, setElement, ELEMENT_SIZE]
  rw [if_neg h0, if_neg (h1 1 (by omega)), if_neg (h1 2 (by omega)),
    if_neg (h1 3 (by omega))]

theorem elementAt_length (L : Nat → Byte) (i : Nat) : (elementAt L i).length = ELEMENT_SIZE :=
  rfl

/-- `swap_elements` during the sort exchanges the values of the two elements. -/
theorem SortPhase.swap_elements {fd : Int} {path : String} {N : Nat} {L : Nat → Byte}
    {c : BlockCache} {w : World} (hp : SortPhase fd path N L c w) {i j : Nat}
    (hi : i * ELEMENT_SIZE + ELEMENT_SIZE ≤ N) (hj : j * ELEMENT_SIZE + ELEMENT_SIZE ≤ N) :
    ∃ L1 c1 w1, PageCache.swap_elements c w fd i j = some (true, c1, w1) ∧
      SortPhase fd path N L1 c1 w1 ∧
      ∀ k, valueAt L1 k = valueAt L (Equiv.swap i j k) := by
  by_cases hij : i = j
  · refine ⟨L, c, w, by simp only [PageCache.swap_elements, hij, if_true], hp, ?_⟩
    intro k
    rw [hij, Equiv.swap_self]
    rfl
  · obtain ⟨c1, w1, hg1, hp1⟩ := hp.get_value hi
    obtain ⟨c2, w2, hg2, hp2⟩ := hp1.get_value hj
    by_cases hv : intOf (elementAt L i) = intOf (elementAt L j)
    · refine ⟨L, c2, w2, ?_, hp2, ?_⟩
      · simp only [PageCache.swap_elements, hij, if_false, hg1, hg2, hv, if_true]
        simp
      · intro k
        by_cases h1 : k = i
        · rw [h1, Equiv.swap_apply_left]; exact hv
        · by_cases h2 : k = j
          · rw [h2, Equiv.swap_apply_right]; exact hv.symm
          · rw [Equiv.swap_apply_of_ne_of_ne h1 h2]
    · obtain ⟨c3, w3, hs3, hp3⟩ := hp2.set_element j (elementAt_length L i)
      obtain ⟨c4, w4, hs4, hp4⟩ := hp3.set_element i (elementAt_length L j)
      refine ⟨_, c4, w4, ?_, hp4, ?_⟩
      · simp only [PageCache.swap_elements, hij, if_false, hg1, hg2, hv, hs3, hs4]
        simp
      · intro k
        unfold valueAt
        by_cases h1 : k = i
        · rw [h1, Equiv.swap_apply_left, elementAt_setElement_self _ _ (elementAt_length L j)]
        · rw [elementAt_setElement_ne _ _ h1]
          by_cases h2 : k = j
          · rw [h2, Equiv.swap_apply_right,
              elementAt_setElement_self _ _ (elementAt_length L i)]
          · rw [elementAt_setElement_ne _ _ h2, Equiv.swap_apply_of_ne_of_ne h1 h2]

/-! ## The sort phase: `partition` -/

theorem toSizeT_natCast {k : Nat} (h : k < 2147483647) : toSizeT (k : Int) = k := by
  unfold toSizeT
  omega

theorem partitionLoop_ge {fd : Int} {pivot cur : List Byte} {n : Nat} {j i : Int}
    {c c1 : BlockCache} {w w1 : World}
    (hg : get_element c w fd (toSizeT j) = some (true, cur, c1, w1))
    (hc : ¬ intOf cur < intOf pivot) :
    partitionLoop fd pivot (n + 1) j i c w = partitionLoop fd pivot n (j + 1) i c1 w1 := by
  simp only [partitionLoop, hg, hc, if_false, Bool.true_eq_false]

theorem partitionLoop_lt_same {fd : Int} {pivot cur : List Byte} {n : Nat} {j i : Int}
    {c c1 : BlockCache} {w w1 : World}
    (hg : get_element c w fd (toSizeT j) = some (true, cur, c1, w1))
    (hc : intOf cur < intOf pivot) (hij : i + 1 = j) :
    partitionLoop fd pivot (n + 1) j i c w =
      partitionLoop fd pivot n (j + 1) (i + 1) c1 w1 := by
  simp only [partitionLoop, hg, hc, if_true, if_false, Bool.true_eq_false, hij, ne_eq,
    not_true_eq_false]

theorem partitionLoop_lt_swap {fd : Int} {pivot cur : List Byte} {n : Nat} {j i : Int}
    {c c1 c2 : BlockCache} {w w1 w2 : World}
    (hg : get_element c w fd (toSizeT j) = some (true, cur, c1, w1))
    (hc : intOf cur < intOf pivot) (hij : i + 1 ≠ j)
    (hs : swap_elements c1 w1 fd (toSizeT (i + 1)) (toSizeT j) = some (true, c2, w2)) :
    partitionLoop fd pivot (n + 1) j i c w =
      partitionLoop fd pivot n (j + 1) (i + 1) c2 w2 := by
  simp only [partitionLoop, hg, hc, if_true, if_false, Bool.true_eq_false, hij, ne_eq,
    not_false_eq_true, hs]

/-- The loop of `partition` during the sort: with the elements of `[lo, s)`
smaller than the pivot and those of `[s, j)` not smaller, the loop ends with the
same true for `[lo, s1)` and `[s1, hi)`, having only permuted elements of
`[lo, hi)`. -/
theorem SortPhase.partitionLoop {fd : Int} {path : String} {N : Nat} (pivot : List Byte)
    {lo hi : Nat} (hhi : hi < 2147483647) (hN : hi * ELEMENT_SIZE + ELEMENT_SIZE ≤ N) (n : Nat) :
    ∀ (j s : Nat) (L : Nat → Byte) (c : BlockCache) (w : World),
      SortPhase fd path N L c w → lo ≤ s → s ≤ j → j + n = hi →
      (∀ k, lo ≤ k → k < s → valueAt L k < intOf pivot) →
      (∀ k, s ≤ k → k < j → intOf pivot ≤ valueAt L k) →
      ∃ (s1 : Nat) (L1 : Nat → Byte) (c1 : BlockCache) (w1 : World) (σ : Equiv.Perm Nat),
        PageCache.partitionLoop fd pivot n (j : Int) ((s : Int) - 1) c w =
          some (some ((s1 : Int) - 1), c1, w1) ∧
        SortPhase fd path N L1 c1 w1 ∧ lo ≤ s1 ∧ s1 ≤ hi ∧
        (∀ k, lo ≤ k → k < s1 → valueAt L1 k < intOf pivot) ∧
        (∀ k, s1 ≤ k → k < hi → intOf pivot ≤ valueAt L1 k) ∧
        (∀ m, ¬ (lo ≤ m ∧ m < hi) → σ m = m) ∧
        ∀ m, valueAt L1 m = valueAt L (σ m) := by
  induction n with
  | zero =>
    intro j s L c w hp hs hsj hj hlt hge
    have : j = hi := by omega
    subst this
    exact ⟨s, L, c, w, 1, rfl, hp, hs, hsj, hlt, hge, fun _ _ => rfl, fun _ => rfl⟩
  | succ n ih =>
    intro j s L c w hp hs hsj hj hlt hge
    have hjN : j * ELEMENT_SIZE + ELEMENT_SIZE ≤ N := by
      simp only [ELEMENT_SIZE] at *
      omega
    have hsN : s * ELEMENT_SIZE + ELEMENT_SIZE ≤ N := by
      simp only [ELEMENT_SIZE] at *
      omega
    obtain ⟨c1, w1, hg0, hp1⟩ := hp.get_value hjN
    have hg : PageCache.get_element c w fd (toSizeT (j : Int)) = some (true, elementAt L j, c1, w1) := by
      rw [toSizeT_natCast (show j < 2147483647 by omega)]; exact hg0
    have hj1 : ((j : Int) + 1) = ((j + 1 : Nat) : Int) := by push_cast; rfl
    have hs1 : ((s : Int) - 1 + 1) = ((s + 1 : Nat) : Int) - 1 := by push_cast; ring
    by_cases hc : intOf (elementAt L j) < intOf pivot
    · by_cases hij : (s : Int) - 1 + 1 = (j : Int)
      · have hsj2 : s = j := by omega
        rw [partitionLoop_lt_same hg hc hij, hj1, hs1]
        apply ih (j + 1) (s + 1) L c1 w1 hp1 (by omega) (by omega) (by omega)
        · intro k hk1 hk2
          by_cases hks : k < s
          · exact hlt k hk1 hks
          · have : k = j := by omega
            rw [this]; exact hc
        · intro k hk1 hk2
          omega
      · have hsj2 : s < j := by omega
        obtain ⟨L2, c2, w2, hsw, hp2, hval⟩ := hp1.swap_elements hsN hjN
        have hsw2 : PageCache.swap_elements c1 w1 fd (toSizeT ((s : Int) - 1 + 1)) (toSizeT (j : Int)) =
            some (true, c2, w2) := by
          have e : (s : Int) - 1 + 1 = (s : Int) := by ring
          rw [e, toSizeT_natCast (show s < 2147483647 by omega),
            toSizeT_natCast (show j < 2147483647 by omega)]
          exact hsw
        rw [partitionLoop_lt_swap hg hc hij hsw2, hj1, hs1]
        obtain ⟨s1, L1, c3, w3, σ, h1, h2, h3, h4, h5, h6, h7, h8⟩ :=
          ih (j + 1) (s + 1) L2 c2 w2 hp2 (by omega) (by omega) (by omega)
            (by
              intro k hk1 hk2
              rw [hval k]
              by_cases hks : k = s
              · rw [hks, Equiv.swap_apply_left]; exact hc
              · rw [Equiv.swap_apply_of_ne_of_ne hks (by omega)]
                exact hlt k hk1 (by omega))
            (by
              intro k hk1 hk2
              rw [hval k]
              by_cases hkj : k = j
              · rw [hkj, Equiv.swap_apply_right]; exact hge s (le_refl s) hsj2
              · rw [Equiv.swap_apply_of_ne_of_ne (by omega) hkj]
                exact hge k (by omega) (by omega))
        refine ⟨s1, L1, c3, w3, Equiv.swap s j * σ, h1, h2, by omega, h4, ?_, h6, ?_, ?_⟩
        · intro k hk1 hk2
          by_cases hks : k = s
          · exact h5 k (by omega) hk2
          · exact h5 k (by omega) hk2
        · intro m hm
          rw [Equiv.Perm.mul_apply, h7 m hm]
          exact Equiv.swap_apply_of_ne_of_ne (by omega) (by omega)
        · intro m
          rw [h8 m, hval, Equiv.Perm.mul_apply]
    · rw [partitionLoop_ge hg hc, hj1]
      obtain ⟨s1, L1, c3, w3, σ, h1, h2, h3, h4, h5, h6, h7, h8⟩ :=
        ih (j + 1) s L c1 w1 hp1 hs (by omega) (by omega) hlt
          (by
            intro k hk1 hk2
            by_cases hkj : k = j
            · rw [hkj]; exact not_lt.mp hc
            · exact hge k hk1 (by omega))
      exact ⟨s1, L1, c3, w3, σ, h1, h2, h3, h4, h5, h6, h7, h8⟩

/-- `partition` during the sort: it returns the final place `p` of the pivot,
with smaller elements before it and elements not smaller after it, having only
permuted the elements of `[lo, hi]`. -/
theorem SortPhase.partition {fd : Int} {path : String} {N : Nat} {L : Nat → Byte}
    {c : BlockCache} {w : World} (hp : SortPhase fd path N L c w) {lo hi : Nat}
    (hlo : lo ≤ hi) (hhi : hi < 2147483647) (hN : hi * ELEMENT_SIZE + ELEMENT_SIZE ≤ N) :
    ∃ (p : Nat) (L1 : Nat → Byte) (c1 : BlockCache) (w1 : World) (σ : Equiv.Perm Nat),
      PageCache.partition c w fd (lo : Int) (hi : Int) = some ((p : Int), c1, w1) ∧
      SortPhase fd path N L1 c1 w1 ∧ lo ≤ p ∧ p ≤ hi ∧
      (∀ k, lo ≤ k → k < p → valueAt L1 k < valueAt L1 p) ∧
      (∀ k, p < k → k ≤ hi → valueAt L1 p ≤ valueAt L1 k) ∧
      (∀ m, ¬ (lo ≤ m ∧ m ≤ hi) → σ m = m) ∧
      ∀ m, valueAt L1 m = valueAt L (σ m) := by
  obtain ⟨c1, w1, hg0, hp1⟩ := hp.get_value hN
  have hg : PageCache.get_element c w fd (toSizeT (hi : Int)) =
      some (true, elementAt L hi, c1, w1) := by
    rw [toSizeT_natCast hhi]; exact hg0
  have hn : ((hi : Int) - (lo : Int)).toNat = hi - lo := by omega
  obtain ⟨s1, L1, c2, w2, σ, h1, h2, h3, h4, h5, h6, h7, h8⟩ :=
    SortPhase.partitionLoop (elementAt L hi) hhi hN (hi - lo) lo lo L c1 w1 hp1 (le_refl lo)
      (le_refl lo) (by omega) (fun k hk1 hk2 => by omega) (fun k hk1 hk2 => by omega)
  have hs1N : s1 * ELEMENT_SIZE + ELEMENT_SIZE ≤ N := by
    simp only [ELEMENT_SIZE] at *
    omega
  obtain ⟨L2, c3, w3, hsw, hp3, hval⟩ := h2.swap_elements hs1N hN
  have e : (s1 : Int) - 1 + 1 = (s1 : Int) := by ring
  have hsw2 : PageCache.swap_elements c2 w2 fd (toSizeT ((s1 : Int) - 1 + 1))
      (toSizeT (hi : Int)) = some (true, c3, w3) := by
    rw [e, toSizeT_natCast (show s1 < 2147483647 by omega), toSizeT_natCast hhi]
    exact hsw
  have hpiv : valueAt L1 hi = intOf (elementAt L hi) := by
    rw [h8 hi, h7 hi (by omega)]; rfl
  have hself : valueAt L2 s1 = intOf (elementAt L hi) := by
    rw [hval s1, Equiv.swap_apply_left, hpiv]
  refine ⟨s1, L2, c3, w3, σ * Equiv.swap s1 hi, ?_, hp3, h3, h4, ?_, ?_, ?_, ?_⟩
  · have hsw3 : PageCache.swap_elements c2 w2 fd (toSizeT (s1 : Int)) (toSizeT (hi : Int)) =
        some (true, c3, w3) := by rw [← e]; exact hsw2
    simp only [PageCache.partition, hg, hn, h1, hsw3, e]
    simp
  · intro k hk1 hk2
    rw [hself, hval k, Equiv.swap_apply_of_ne_of_ne (by omega) (by omega)]
    exact h5 k hk1 hk2
  · intro k hk1 hk2
    rw [hself, hval k]
    by_cases hk : k = hi
    · rw [hk, Equiv.swap_apply_right]
      exact h6 s1 (le_refl s1) (by omega)
    · rw [Equiv.swap_apply_of_ne_of_ne (by omega) hk]
      exact h6 k (by omega) (by omega)
  · intro m hm
    rw [Equiv.Perm.mul_apply, Equiv.swap_apply_of_ne_of_ne (by omega) (by omega)]
    exact h7 m (by omega)
  · intro m
    rw [hval m, h8, Equiv.Perm.mul_apply]

/-! ## The sort phase: `quicksort` -/

theorem perm_stays_inside {σ : Equiv.Perm Nat} {P : Nat → Prop}
    (hfix : ∀ m, ¬ P m → σ m = m) {m : Nat} (hm : P m) : P (σ m) := by
  by_contra h
  have h1 := hfix (σ m) h
  have h2 : σ m = m := σ.injective h1
  rw [h2] at h
  exact h hm

theorem quicksort_base {fd : Int} {fuel : Nat} {c : BlockCache} {w : World} {low high : Int}
    (h : ¬ low < high) : quicksort fd (fuel + 1) c w low high = some (true, c, w) := by
  simp only [quicksort, h, if_false]

theorem quicksort_step {fd : Int} {fuel : Nat} {c c1 c2 c3 : BlockCache} {w w1 w2 w3 : World}
    {low high p : Int} (h : low < high) (hp : p ≠ -1)
    (h1 : partition c w fd low high = some (p, c1, w1))
    (h2 : quicksort fd fuel c1 w1 low (p - 1) = some (true, c2, w2))
    (h3 : quicksort fd fuel c2 w2 (p + 1) high = some (true, c3, w3)) :
    quicksort fd (fuel + 1) c w low high = some (true, c3, w3) := by
  simp only [quicksort, h, if_true, h1, hp, if_false, h2, h3, Bool.true_eq_false]

/-- `quicksort` during the sort, with enough fuel: it returns true, the elements
of `[low, high]` are in non-decreasing order afterwards, and the new sequence of
values is the old one composed with a permutation that moves no index outside
`[low, high]`. -/
theorem SortPhase.quicksort {fd : Int} {path : String} {N : Nat} (fuel : Nat) :
    ∀ (low high : Int) (L : Nat → Byte) (c : BlockCache) (w : World),
      SortPhase fd path N L c w → 0 ≤ low → high < 2147483647 →
      (low < high → high.toNat * ELEMENT_SIZE + ELEMENT_SIZE ≤ N) →
      (high - low).toNat < fuel →
      ∃ (L1 : Nat → Byte) (c1 : BlockCache) (w1 : World) (σ : Equiv.Perm Nat),
        PageCache.quicksort fd fuel c w low high = some (true, c1, w1) ∧
        SortPhase fd path N L1 c1 w1 ∧
        (∀ m : Nat, ¬ (low ≤ (m : Int) ∧ (m : Int) ≤ high) → σ m = m) ∧
        (∀ m, valueAt L1 m = valueAt L (σ m)) ∧
        ∀ a b : Nat, low ≤ (a : Int) → a ≤ b → (b : Int) ≤ high →
          valueAt L1 a ≤ valueAt L1 b := by
  induction fuel with
  | zero => intro low high L c w _ _ _ _ hf; omega
  | succ fuel ih =>
    intro low high L c w hp h0 hhi hN hf
    by_cases hlt : low < high
    · obtain ⟨lo, rfl⟩ := Int.eq_ofNat_of_zero_le h0
      obtain ⟨hi, rfl⟩ := Int.eq_ofNat_of_zero_le (show (0 : Int) ≤ high by omega)
      have hlo : lo ≤ hi := by omega
      have hN1 : hi * ELEMENT_SIZE + ELEMENT_SIZE ≤ N := by
        have := hN hlt
        simpa using this
      obtain ⟨p, L1, c1, w1, σ1, hpart, hp1, hp_lo, hp_hi, hsm, hge, hfix1, hval1⟩ :=
        hp.partition hlo (by omega) hN1
      obtain ⟨L2, c2, w2, σ2, hq2, hp2, hfix2, hval2, hsort2⟩ :=
        ih (lo : Int) ((p : Int) - 1) L1 c1 w1 hp1 h0 (by omega)
          (by
            intro h
            have e : ((p : Int) - 1).toNat = p - 1 := by omega
            rw [e]
            simp only [ELEMENT_SIZE] at *
            omega)
          (by omega)
      obtain ⟨L3, c3, w3, σ3, hq3, hp3, hfix3, hval3, hsort3⟩ :=
        ih ((p : Int) + 1) (hi : Int) L2 c2 w2 hp2 (by omega) hhi
          (by intro _; simpa using hN1) (by omega)
      have hin2 : ∀ m : Nat, lo ≤ m → m < p → lo ≤ σ2 m ∧ σ2 m < p := by
        intro m hm1 hm2
        have := perm_stays_inside (P := fun m : Nat => (lo : Int) ≤ (m : Int) ∧
          (m : Int) ≤ (p : Int) - 1) hfix2 (m := m) (by constructor <;> omega)
        constructor <;> omega
      have hin3 : ∀ m : Nat, p < m → m ≤ hi → p < σ3 m ∧ σ3 m ≤ hi := by
        intro m hm1 hm2
        have := perm_stays_inside (P := fun m : Nat => (p : Int) + 1 ≤ (m : Int) ∧
          (m : Int) ≤ (hi : Int)) hfix3 (m := m) (by constructor <;> omega)
        constructor <;> omega
      have hP : valueAt L3 p = valueAt L1 p := by
        rw [hval3 p, hfix3 p (by omega), hval2 p, hfix2 p (by omega)]
      have hleft : ∀ m : Nat, lo ≤ m → m < p → valueAt L3 m < valueAt L1 p := by
        intro m hm1 hm2
        rw [hval3 m, hfix3 m (by omega), hval2 m]
        exact hsm _ (hin2 m hm1 hm2).1 (hin2 m hm1 hm2).2
      have hright : ∀ m : Nat, p < m → m ≤ hi → valueAt L1 p ≤ valueAt L3 m := by
        intro m hm1 hm2
        rw [hval3 m, hval2 (σ3 m), hfix2 (σ3 m) (by have := hin3 m hm1 hm2; omega)]
        exact hge _ (hin3 m hm1 hm2).1 (hin3 m hm1 hm2).2
      refine ⟨L3, c3, w3, σ1 * σ2 * σ3, quicksort_step hlt (by omega) hpart hq2 hq3, hp3,
        ?_, ?_, ?_⟩
      · intro m hm
        rw [Equiv.Perm.mul_apply, Equiv.Perm.mul_apply, hfix3 m (by omega),
          hfix2 m (by omega), hfix1 m (by omega)]
      · intro m
        rw [hval3 m, hval2, hval1, Equiv.Perm.mul_apply, Equiv.Perm.mul_apply]
      · intro a b ha hab hb
        have ha1 : lo ≤ a := by omega
        have hb1 : b ≤ hi := by omega
        rcases Nat.lt_trichotomy b p with hbp | hbp | hbp
        · have e1 : valueAt L3 a = valueAt L2 a := by rw [hval3 a, hfix3 a (by omega)]
          have e2 : valueAt L3 b = valueAt L2 b := by rw [hval3 b, hfix3 b (by omega)]
          rw [e1, e2]
          exact hsort2 a b (by omega) hab (by omega)
        · rcases Nat.lt_or_ge a p with hap | hap
          · rw [hbp, hP]; exact le_of_lt (hleft a ha1 hap)
          · have : a = b := by omega
            rw [this]
        · rcases Nat.lt_trichotomy a p with hap | hap | hap
          · exact le_trans (le_of_lt (hleft a ha1 hap)) (hright b hbp hb1)
          · rw [hap, hP]; exact hright b hbp hb1
          · exact hsort3 a b (by omega) hab (by omega)
    · refine ⟨L, c, w, 1, quicksort_base hlt, hp, fun _ _ => rfl, fun _ => rfl, ?_⟩
      intro a b ha hab hb
      have : a = b := by omega
      rw [this]

/-- The empty cache over an open file on which no call fails is a state of the
sort phase, for the bytes of the file. -/
theorem SortPhase.init {w : World} {fd : Int} {hd : Handle} (cacheSize : Nat) (scratch : Buffer)
    (hh : w.handles fd = some hd) (hn : w.NoFaults) :
    SortPhase fd hd.path (w.disk hd.path).size (w.disk hd.path).bytes
      (BlockCache.init cacheSize scratch) w :=
  ⟨WF_init cacheSize scratch, fun n hn => absurd hn (List.not_mem_nil n), ⟨hd, hh, rfl⟩, hn,
    le_refl _, fun n hn => absurd hn (List.not_mem_nil n), fun _ _ _ => rfl⟩

/-! ## C23: the sort -/

/-- C23: in a state of the sort phase (the cache holds only blocks of `fd`, which
agree with the file where they are clean, and no call fails), for indices
`low` and `high` of elements within the first `N` bytes of the file and below
`INT_MAX`, `quicksort(fd, low, high)` with enough fuel returns true.  Afterwards
`get_element` succeeds on every element of the file; the values read at indices
`low..high` are in non-decreasing order; and there is a permutation of the
indices, the identity outside `low..high`, such that the value read at each
index is the value `get_element` read before the sort at the permuted index. -/
theorem quicksort_sorts_in_place (fd : Int) (path : String) (N : Nat) (L : Nat → Byte)
    (c : BlockCache) (w : World) (low high fuel : Nat)
    (hstate : SortPhase fd path N L c w)
    (hhigh : high * ELEMENT_SIZE + ELEMENT_SIZE ≤ N) (hint : high < 2147483647)
    (hfuel : high - low < fuel) :
    ∃ (c1 : BlockCache) (w1 : World) (σ : Equiv.Perm Nat),
      quicksort fd fuel c w (low : Int) (high : Int) = some (true, c1, w1) ∧
      (∀ m, ¬ (low ≤ m ∧ m ≤ high) → σ m = m) ∧
      (∀ m, m * ELEMENT_SIZE + ELEMENT_SIZE ≤ N →
        ∃ v v0 c2 w2 c3 w3, get_element c1 w1 fd m = some (true, v, c2, w2) ∧
          get_element c w fd (σ m) = some (true, v0, c3, w3) ∧ intOf v = intOf v0) ∧
      ∀ a b, low ≤ a → a ≤ b → b ≤ high →
        ∃ va vb c2 w2 c3 w3, get_element c1 w1 fd a = some (true, va, c2, w2) ∧
          get_element c1 w1 fd b = some (true, vb, c3, w3) ∧ intOf va ≤ intOf vb := by
  obtain ⟨L1, c1, w1, σ, hq, hp1, hfix, hval, hsort⟩ :=
    SortPhase.quicksort fuel (low : Int) (high : Int) L c w hstate (by omega) (by omega)
      (by intro _; simpa using hhigh) (by omega)
  have hfix1 : ∀ m, ¬ (low ≤ m ∧ m ≤ high) → σ m = m := by
    intro m hm
    exact hfix m (by omega)
  refine ⟨c1, w1, σ, hq, hfix1, ?_, ?_⟩
  · intro m hm
    have hσ : σ m * ELEMENT_SIZE + ELEMENT_SIZE ≤ N := by
      by_cases hin : low ≤ m ∧ m ≤ high
      · have := perm_stays_inside (P := fun m => low ≤ m ∧ m ≤ high) hfix1 hin
        simp only [ELEMENT_SIZE] at *
        omega
      · rw [hfix1 m hin]; exact hm
    obtain ⟨c2, w2, hg, _⟩ := hp1.get_value hm
    obtain ⟨c3, w3, hg0, _⟩ := hstate.get_value hσ
    exact ⟨_, _, c2, w2, c3, w3, hg, hg0, hval m⟩
  · intro a b ha hab hb
    have haN : a * ELEMENT_SIZE + ELEMENT_SIZE ≤ N := by
      simp only [ELEMENT_SIZE] at *
      omega
    have hbN : b * ELEMENT_SIZE + ELEMENT_SIZE ≤ N := by
      simp only [ELEMENT_SIZE] at *
      omega
    obtain ⟨c2, w2, hga, _⟩ := hp1.get_value haN
    obtain ⟨c3, w3, hgb, _⟩ := hp1.get_value hbN
    exact ⟨_, _, c2, w2, c3, w3, hga, hgb, hsort a b (by omega) hab (by omega)⟩

theorem quicksort_sorts_in_place_witness :
    ∃ (c1 : BlockCache) (w1 : World) (σ : Equiv.Perm Nat),
      quicksort 3 2 (BlockCache.init 2 (fun _ => 0)) exWorld ((0 : Nat) : Int) ((1 : Nat) : Int) =
        some (true, c1, w1) ∧
      (∀ m, ¬ (0 ≤ m ∧ m ≤ 1) → σ m = m) ∧
      (∀ m, m * ELEMENT_SIZE + ELEMENT_SIZE ≤ 4096 →
        ∃ v v0 c2 w2 c3 w3, get_element c1 w1 3 m = some (true, v, c2, w2) ∧
          get_element (BlockCache.init 2 (fun _ => 0)) exWorld 3 (σ m) =
            some (true, v0, c3, w3) ∧ intOf v = intOf v0) ∧
      ∀ a b, 0 ≤ a → a ≤ b → b ≤ 1 →
        ∃ va vb c2 w2 c3 w3, get_element c1 w1 3 a = some (true, va, c2, w2) ∧
          get_element c1 w1 3 b = some (true, vb, c3, w3) ∧ intOf va ≤ intOf vb :=
  quicksort_sorts_in_place 3 "a.bin" 4096 (fun _ => 7) (BlockCache.init 2 (fun _ => 0)) exWorld
    0 1 2
    ⟨WF_init 2 _, fun n hn => absurd hn (List.not_mem_nil n), ⟨_, rfl, rfl⟩,
      ⟨fun _ _ => rfl, fun _ _ => rfl, fun _ _ => rfl, fun _ => rfl, fun _ => rfl⟩,
      by decide, fun n hn => absurd hn (List.not_mem_nil n), fun _ _ _ => rfl⟩
    (by decide) (by decide) (by decide)

/-! ## What holds of C17 and C19 -/

theorem seek_begin_some {w : World} {fd : Int} {q : Nat}
    (h : (SetFilePointerEx w fd (q : Int) FILE_BEGIN).1.isSome = true) :
    (SetFilePointerEx w fd (q : Int) FILE_BEGIN).2.cursor fd = some q := by
  cases hh : w.handles fd with
  | none => rw [seek_invalid _ _ hh] at h; simp at h
  | some hd =>
    cases hs : w.seekFails fd q with
    | false =>
      rw [seek_begin_ok q hh hs]
      simp [World.cursor, World.setPos]
    | true =>
      have : SetFilePointerEx w fd (q : Int) FILE_BEGIN = (none, w) := by
        simp [SetFilePointerEx, hh, FILE_BEGIN, FILE_END, hs]
      rw [this] at h
      simp at h

/-- What does hold of C17: a `lab2_read` that returns `count` with the cursor at
`p` leaves the cursor at `p + count`; and when the block of `p` is resident in a
consistent cache, the bytes delivered are the logical contents from `p` on. -/
theorem lab2_read_advances_cursor (c c1 : BlockCache) (w w1 : World) (fd : Int)
    (count p : Nat) (out : List Byte) (hwf : c.WF) (hcur : w.cursor fd = some p)
    (hr : lab2_read c w fd count = some ((count : Int), out, c1, w1)) :
    w1.cursor fd = some (p + count) ∧
    (∀ it, findIter c.cacheMap fd (p / PAGE_SIZE * PAGE_SIZE) = some it →
      DeliversLogical c w fd p out ∧ out.length = count ∧ c1 = c) := by
  have hne : ((count : Nat) : Int) ≠ -1 := by omega
  unfold World.cursor at hcur
  cases hh : w.handles fd with
  | none => rw [hh] at hcur; cases hcur
  | some hd =>
    rw [hh] at hcur
    have hp : hd.pos = p := Option.some.inj hcur
    cases hs : w.seekFails fd hd.pos with
    | true =>
      rw [lab2_read_seek_fail c count hh hs] at hr
      simp only [Option.some.injEq, Prod.mk.injEq] at hr
      exact absurd hr.1.symm hne
    | false =>
      rw [lab2_read_eq c count hh hs, hp] at hr
      cases hrd : c.read w fd count p with
      | none => rw [hrd] at hr; simp at hr
      | some r =>
        obtain ⟨b, out2, c2, w2⟩ := r
        rw [hrd, Option.some_bind] at hr
        dsimp only at hr
        cases b with
        | false =>
          rw [if_neg (by decide)] at hr
          simp only [Option.some.injEq, Prod.mk.injEq] at hr
          exact absurd hr.1.symm hne
        | true =>
          rw [if_pos rfl] at hr
          by_cases hsk : (SetFilePointerEx w2 fd ((p + count : Nat) : Int) FILE_BEGIN).1.isSome
              = true
          · rw [if_pos hsk] at hr
            simp only [Option.some.injEq, Prod.mk.injEq, true_and] at hr
            obtain ⟨ho, hc, hw⟩ := hr
            refine ⟨by rw [← hw]; exact seek_begin_some hsk, ?_⟩
            intro it hf
            obtain ⟨blk, hdr, _, _, _⟩ := hwf.resident hf
            rw [read_of_hit w count hf hdr] at hrd
            split at hrd
            · rename_i hin
              simp only [Option.some.injEq, Prod.mk.injEq, true_and] at hrd
              refine ⟨?_, by rw [← ho, ← hrd.1]; exact copyOut_length _ _ _,
                by rw [← hc, ← hrd.2.1]⟩
              intro j hj
              rw [← ho, ← hrd.1] at hj ⊢
              rw [copyOut_length] at hj
              rw [copyOut_getD _ _ _ _ hj]
              simp only [logicalByte, hf, hdr, Option.map_some']
            · simp at hrd
          · rw [if_neg hsk] at hr
            simp only [Option.some.injEq, Prod.mk.injEq] at hr
            exact absurd hr.1.symm hne

/-- What does hold of C19: a `lab2_write` that hits leaves the world, and so
every cursor, as it was. -/
theorem lab2_write_hit_keeps_cursors (c c1 : BlockCache) (w w1 : World) (fd : Int)
    (buf : List Byte) (count offset it : Nat) (r : Int) (hwf : c.WF)
    (hf : findIter c.cacheMap fd (offset / PAGE_SIZE * PAGE_SIZE) = some it)
    (hr : lab2_write c w fd buf count offset = some (r, c1, w1)) :
    w1 = w ∧ CursorsKept w w1 := by
  obtain ⟨blk, hdr, _, _, _⟩ := hwf.resident hf
  have hw := write_of_hit w buf count hf hdr
  by_cases hin : offset % PAGE_SIZE + count ≤ PAGE_SIZE ∧ count ≤ buf.length
  · rw [if_pos hin] at hw
    simp only [lab2_write, hw, Option.some.injEq, Prod.mk.injEq] at hr
    rw [← hr.2.2]
    exact ⟨rfl, fun _ => rfl⟩
  · rw [if_neg hin] at hw
    simp only [lab2_write, hw] at hr
    cases hr

theorem readFile_handles_other {w w1 : World} {h : Int} {buf buf1 : Buffer} {n got : Nat}
    {fd2 : Int} (hr : ReadFile w h buf n = some (got, buf1, w1)) (hfd : h ≠ fd2) :
    w1.handles fd2 = w.handles fd2 := by
  unfold ReadFile at hr
  cases hh : w.handles h with
  | none => rw [hh] at hr; simp at hr
  | some hd =>
    rw [hh] at hr
    simp only at hr
    split at hr
    · simp at hr
    · simp only [Option.some.injEq, Prod.mk.injEq] at hr
      rw [← hr.2.2]
      exact Function.update_noteq (Ne.symm hfd) _ _

theorem writeBlockToDisk_handles_other {w : World} {blk : CacheBlock} {fd2 : Int}
    (hfd : blk.fd ≠ fd2) : (writeBlockToDisk w blk).handles fd2 = w.handles fd2 := by
  have h2 := seek_other w (blk.offset : Int) FILE_BEGIN hfd
  cases hwf : WriteFile (SetFilePointerEx w blk.fd (blk.offset : Int) FILE_BEGIN).2 blk.fd
      blk.data PAGE_SIZE with
  | none =>
    have e : writeBlockToDisk w blk =
        (SetFilePointerEx w blk.fd (blk.offset : Int) FILE_BEGIN).2 := by
      simp only [writeBlockToDisk, hwf]
    rw [e]; exact h2
  | some r =>
    obtain ⟨k, w2⟩ := r
    have e : writeBlockToDisk w blk = w2 := by
      simp only [writeBlockToDisk, hwf]
    rw [e, ← h2]
    unfold WriteFile at hwf
    cases hh : (SetFilePointerEx w blk.fd (blk.offset : Int) FILE_BEGIN).2.handles blk.fd with
    | none => rw [hh] at hwf; simp at hwf
    | some hd =>
      rw [hh] at hwf
      simp only at hwf
      split at hwf
      · simp at hwf
      · simp only [Option.some.injEq, Prod.mk.injEq] at hwf
        rw [← hwf.2]
        exact Function.update_noteq (Ne.symm hfd) _ _

/-- What does hold of C19 beyond the hit case: in a reachable state `lab2_write`
leaves alone the cursor of every descriptor other than `fd` that owns no
resident dirty block. -/
theorem lab2_write_cursor_frame (c c1 : BlockCache) (w w1 : World) (fd fd2 : Int)
    (buf : List Byte) (count offset : Nat) (r : Int) (hreach : Reachable c.cacheSize c w)
    (hne : fd ≠ fd2) (hclean : ∀ v ∈ c.cache, v.2.dirty = true → v.2.fd ≠ fd2)
    (hr : lab2_write c w fd buf count offset = some (r, c1, w1)) :
    w1.cursor fd2 = w.cursor fd2 := by
  have hwf := hreach.wf
  unfold World.cursor
  cases hf : findIter c.cacheMap fd (offset / PAGE_SIZE * PAGE_SIZE) with
  | some it =>
    rw [(lab2_write_hit_keeps_cursors c c1 w w1 fd buf count offset it r hwf hf hr).1]
  | none =>
    have hsk := seek_other w ((offset / PAGE_SIZE * PAGE_SIZE : Nat) : Int) FILE_BEGIN hne
    unfold lab2_write at hr
    rw [write_of_miss w buf count hf] at hr
    cases hrf : ReadFile (SetFilePointerEx w fd ((offset / PAGE_SIZE * PAGE_SIZE : Nat) : Int)
        FILE_BEGIN).2 fd c.alignedBuffer PAGE_SIZE with
    | none =>
      rw [writeMiss_of_fail buf count hrf] at hr
      simp only [Option.some.injEq, Prod.mk.injEq] at hr
      rw [← hr.2.2, hsk]
    | some x =>
      obtain ⟨got, scratch, w2⟩ := x
      have hrd := readFile_handles_other hrf hne
      rw [writeMiss_of_ok buf count hrf] at hr
      by_cases hin : offset % PAGE_SIZE + count ≤ PAGE_SIZE ∧ count ≤ buf.length
      · rw [if_pos hin] at hr
        simp only [Option.some.injEq, Prod.mk.injEq] at hr
        rw [← hr.2.2]
        rcases insertBlock_world_cases
          { c with alignedBuffer := copyIn scratch (offset % PAGE_SIZE) buf count } w2 fd
          (offset / PAGE_SIZE * PAGE_SIZE) true with h | ⟨v, hv, hdirty, h2, _⟩
        · rw [h, hrd, hsk]
        · rw [h2, writeBlockToDisk_handles_other (hclean v hv hdirty), hrd, hsk]
      · rw [if_neg hin] at hr
        cases hr

end PageCache
